import Mathlib

/-!
# Address engine of kube-ovn (`pkg/util/net.go`)

A shallow embedding of the pure address functions of `pkg/util/net.go`
together with the parts of the Go standard library they call
(`strings.Split`, `net.ParseIP`, `net.ParseCIDR`, `net.IP.String`,
`net.IPNet.Contains`, `math/big`).

Conventions of the embedding:

* a Go `string` is a `List Char`; literals are written `"...".toList`;
* a Go `net.IP` / `net.IPMask` (a byte slice) is a `List Nat` of bytes,
  the `nil` slice being `[]`;
* a Go `*big.Int` is an `Int`;
* a Go panic (nil dereference, `FillBytes` overflow, impossible
  allocation) is the result `none` of an `Option`.

The library functions follow the sources of package `net` as of Go 1.17
to 1.21 (`net/ip.go`, `net/parse.go`): `parseIPv4` reads four decimal
fields with `dtoi` and rejects a field with a leading zero, `parseIPv6`
reads hexadecimal groups with `xtoi` and accepts one `::` and a trailing
dotted quad.
-/

namespace GoStd

/-! ## package strings -/

/-- Helper of the split functions: put a byte in front of the first piece. -/
def consHead (c : Char) : List (List Char) → List (List Char)
  | [] => [[c]]
  | p :: ps => (c :: p) :: ps

/-- Go `strings.Split(s, sep)` for a one-byte separator `sep`. -/
def split1 (sep : Char) : List Char → List (List Char)
  | [] => [[]]
  | c :: cs => if c = sep then [] :: split1 sep cs else consHead c (split1 sep cs)

/-- Go `strings.Split(s, "..")`: pieces between non-overlapping occurrences
of the two-byte separator, found left to right. -/
def splitDotDot : List Char → List (List Char)
  | [] => [[]]
  | [c] => [[c]]
  | c :: d :: cs =>
    if c = '.' ∧ d = '.' then [] :: splitDotDot cs
    else consHead c (splitDotDot (d :: cs))

/-- Go `strings.Contains(s, "..")`. -/
def containsDotDot : List Char → Bool
  | [] => false
  | [_] => false
  | c :: d :: cs => (c = '.' ∧ d = '.') || containsDotDot (d :: cs)

/-- Go `strings.Join(parts, ",")`. -/
def joinComma : List (List Char) → List Char
  | [] => []
  | [p] => p
  | p :: q :: ps => p ++ ',' :: joinComma (q :: ps)

/-! ## package net: parsing -/

/-- The constant `big` of `net/parse.go`: bigger than any number parsed. -/
def parseBig : Nat := 0xFFFFFF

/-- Decimal digit test `'0' <= c && c <= '9'`. -/
def isDigit (c : Char) : Bool := 48 ≤ c.toNat && c.toNat ≤ 57

/-- Lower-case hexadecimal letter test `'a' <= c && c <= 'f'`. -/
def isLowerHex (c : Char) : Bool := 97 ≤ c.toNat && c.toNat ≤ 102

/-- Upper-case hexadecimal letter test `'A' <= c && c <= 'F'`. -/
def isUpperHex (c : Char) : Bool := 65 ≤ c.toNat && c.toNat ≤ 70

/-- Loop of Go `dtoi`: `n` is the number read so far, `i` the count of
bytes consumed. -/
def dtoiLoop : List Char → Nat → Nat → Nat × Nat × Bool
  | [], n, i => if i = 0 then (0, 0, false) else (n, i, true)
  | c :: cs, n, i =>
    if isDigit c then
      if n * 10 + (c.toNat - 48) ≥ parseBig then (parseBig, i, false)
      else dtoiLoop cs (n * 10 + (c.toNat - 48)) (i + 1)
    else if i = 0 then (0, 0, false) else (n, i, true)

/-- Go `dtoi(s)`: decimal to integer; returns number, bytes consumed,
success. -/
def dtoi (s : List Char) : Nat × Nat × Bool := dtoiLoop s 0 0

/-- Loop of Go `xtoi`. -/
def xtoiLoop : List Char → Nat → Nat → Nat × Nat × Bool
  | [], n, i => if i = 0 then (0, i, false) else (n, i, true)
  | c :: cs, n, i =>
    if isDigit c then
      if n * 16 + (c.toNat - 48) ≥ parseBig then (0, i, false)
      else xtoiLoop cs (n * 16 + (c.toNat - 48)) (i + 1)
    else if isLowerHex c then
      if n * 16 + (c.toNat - 97 + 10) ≥ parseBig then (0, i, false)
      else xtoiLoop cs (n * 16 + (c.toNat - 97 + 10)) (i + 1)
    else if isUpperHex c then
      if n * 16 + (c.toNat - 65 + 10) ≥ parseBig then (0, i, false)
      else xtoiLoop cs (n * 16 + (c.toNat - 65 + 10)) (i + 1)
    else if i = 0 then (0, i, false) else (n, i, true)

/-- Go `xtoi(s)`: hexadecimal to integer; returns number, bytes consumed,
success. -/
def xtoi (s : List Char) : Nat × Nat × Bool := xtoiLoop s 0 0

/-- The twelve bytes `v4InV6Prefix` of package net. -/
def v4InV6Pfx : List Nat := [0, 0, 0, 0, 0, 0, 0, 0, 0, 0, 0xff, 0xff]

/-- Go `net.IPv4(a, b, c, d)`: the 16-byte form of an IPv4 address. -/
def mkIPv4 (p : List Nat) : List Nat := v4InV6Pfx ++ p

/-- Loop of Go `parseIPv4`: `k` fields are still to be read, `p` holds the
fields read so far (so the loop index `i` is `p.length`).  Returns the four
bytes, or `none` for Go's `nil`. -/
def parseIPv4Loop : Nat → List Char → List Nat → Option (List Nat)
  | 0, s, p => if s.length ≠ 0 then none else some p
  | k + 1, s, p =>
    if s.length = 0 then none
    else
      let s1 : Option (List Char) :=
        if p.length > 0 then
          (match s with
           | c :: t => if c ≠ '.' then none else some t
           | [] => none)
        else some s
      match s1 with
      | none => none
      | some s1 =>
        match dtoi s1 with
        | (n, c, ok) =>
          if !ok || n > 0xFF then none
          else if c > 1 && s1.head? == some '0' then none
          else parseIPv4Loop k (s1.drop c) (p ++ [n])

/-- Go `parseIPv4(s)`: dotted decimal, four fields, no leading zeros;
the result is the 16-byte form, `[]` for `nil`. -/
def parseIPv4 (s : List Char) : List Nat :=
  match parseIPv4Loop 4 s [] with
  | none => []
  | some p => mkIPv4 p

/-- End of Go `parseIPv6`, after the loop: the whole string must be used;
a short result is widened at the ellipsis; an ellipsis in a full result is
an error.  `ip` holds the `i = ip.length` bytes parsed. -/
def parseIPv6Finish (ip : List Nat) (ellipsis : Option Nat) (s : List Char) :
    Option (List Nat) :=
  if s.length ≠ 0 then none
  else if ip.length < 16 then
    match ellipsis with
    | none => none
    | some e => some (ip.take e ++ List.replicate (16 - ip.length) 0 ++ ip.drop e)
  else
    match ellipsis with
    | some _ => none
    | none => some ip

/-- Loop of Go `parseIPv6` ("parsing hex numbers followed by colon").
`ip` holds the bytes parsed so far (the loop index `i` is `ip.length`),
`ellipsis` the position of `::` if one was seen.  The loop runs while
`i < 16` and `i` grows by two in every round, so eight rounds of fuel are
enough. -/
def parseIPv6Loop : Nat → List Nat → Option Nat → List Char → Option (List Nat)
  | 0, ip, ellipsis, s => parseIPv6Finish ip ellipsis s
  | fuel + 1, ip, ellipsis, s =>
    if ¬ ip.length < 16 then parseIPv6Finish ip ellipsis s
    else
      match xtoi s with
      | (n, c, ok) =>
        if !ok || n > 0xFFFF then none
        else if c < s.length ∧ (s.drop c).head? = some '.' then
          -- trailing IPv4
          if ellipsis.isNone ∧ ip.length ≠ 12 then none
          else if ip.length + 4 > 16 then none
          else
            match parseIPv4Loop 4 s [] with
            | none => none
            | some p4 => parseIPv6Finish (ip ++ p4) ellipsis []
        else
          let ip1 := ip ++ [n / 256 % 256, n % 256]
          match s.drop c with
          | [] => parseIPv6Finish ip1 ellipsis []
          | c0 :: s1 =>
            if c0 ≠ ':' ∨ s1.length = 0 then none
            else
              match s1 with
              | [] => none
              | c1 :: s2 =>
                if c1 = ':' then
                  if ellipsis.isSome then none
                  else if s2.length = 0 then parseIPv6Finish ip1 (some ip1.length) []
                  else parseIPv6Loop fuel ip1 (some ip1.length) s2
                else parseIPv6Loop fuel ip1 ellipsis (c1 :: s2)

/-- Go `parseIPv6(s)`: RFC 4291 text form, with at most one `::` and an
optional trailing dotted IPv4; `[]` for `nil`. -/
def parseIPv6 (s : List Char) : List Nat :=
  let r : Option (List Nat) :=
    match s with
    | c0 :: c1 :: t =>
      if c0 = ':' ∧ c1 = ':' then
        (if t.length = 0 then some (List.replicate 16 0)
         else parseIPv6Loop 8 [] (some 0) t)
      else parseIPv6Loop 8 [] none s
    | _ => parseIPv6Loop 8 [] none s
  match r with
  | none => []
  | some ip => ip

/-- Go `net.ParseIP(s)`: the first `.` or `:` decides which parser reads
the whole string; `[]` for `nil`. -/
def ParseIP.go (whole : List Char) : List Char → List Nat
  | [] => []
  | c :: cs =>
    if c = '.' then parseIPv4 whole
    else if c = ':' then parseIPv6 whole
    else ParseIP.go whole cs

/-- Go `net.ParseIP(s)`. -/
def ParseIP (s : List Char) : List Nat := ParseIP.go s s

/-! ## package net: addresses and masks -/

/-- Go `IP.To4()`: the 4-byte form of an IPv4 address, else `nil`. -/
def To4 (ip : List Nat) : List Nat :=
  if ip.length = 4 then ip
  else if ip.length = 16 ∧ ip.take 12 = v4InV6Pfx then ip.drop 12
  else []

/-- Go `IP.To16()`. -/
def To16 (ip : List Nat) : List Nat :=
  if ip.length = 4 then mkIPv4 ip
  else if ip.length = 16 then ip
  else []

/-- Loop of Go `CIDRMask`: `l` bytes still to fill, `n` ones left. -/
def cidrMaskLoop : Nat → Nat → List Nat
  | 0, _ => []
  | l + 1, n =>
    if n ≥ 8 then 0xff :: cidrMaskLoop l (n - 8)
    else (0xff - 0xff / 2 ^ n) :: cidrMaskLoop l 0

/-- Go `net.CIDRMask(ones, bits)`. -/
def CIDRMask (ones bits : Nat) : List Nat :=
  if bits ≠ 32 ∧ bits ≠ 128 then []
  else if ones > bits then []
  else cidrMaskLoop (bits / 8) ones

/-- Bytewise `ip[i] & mask[i]`. -/
def andBytes : List Nat → List Nat → List Nat
  | a :: as, b :: bs => (a &&& b) :: andBytes as bs
  | _, _ => []

/-- Go `IP.Mask(mask)`. -/
def ipMask (ip mask : List Nat) : List Nat :=
  let mask1 := if mask.length = 16 ∧ ip.length = 4 ∧ mask.take 12 = List.replicate 12 0xff
    then mask.drop 12 else mask
  let ip1 := if mask1.length = 4 ∧ ip.length = 16 ∧ ip.take 12 = v4InV6Pfx
    then ip.drop 12 else ip
  if ip1.length ≠ mask1.length then [] else andBytes ip1 mask1

/-- Go `net.IPNet`. -/
structure IPNet where
  IP : List Nat
  Mask : List Nat
deriving DecidableEq, Repr

/-- Count of leading one bits of a byte, and what is left of the byte after
shifting them out: the inner loop `for v&0x80 != 0` of `simpleMaskLength`. -/
def leadingOnes : Nat → Nat → Nat × Nat
  | 0, v => (0, v)
  | f + 1, v =>
    if v &&& 0x80 ≠ 0 then
      let r := leadingOnes f (v * 2 % 256)
      (r.1 + 1, r.2)
    else (0, v)

/-- Go `simpleMaskLength(mask)`; `none` for the result `-1`. -/
def simpleMaskLength : List Nat → Option Nat
  | [] => some 0
  | v :: rest =>
    if v = 0xff then (simpleMaskLength rest).map (· + 8)
    else
      let r := leadingOnes 8 v
      if r.2 ≠ 0 then none
      else if rest.all (· == 0) then some r.1 else none

/-- Go `IPMask.Size()`: number of leading ones and total number of bits,
`(0, 0)` for a mask that is not in canonical form. -/
def maskSize (m : List Nat) : Nat × Nat :=
  match simpleMaskLength m with
  | none => (0, 0)
  | some ones => (ones, m.length * 8)

/-- Go `net.ParseCIDR(s)`: the address as written (16-byte form) and the
network; `none` for a non-nil error. -/
def ParseCIDR (s : List Char) : Option (List Nat × IPNet) :=
  if '/' ∉ s then none
  else
    let addr := s.takeWhile (· ≠ '/')
    let mask := (s.dropWhile (· ≠ '/')).drop 1
    let ip4 := parseIPv4 addr
    let iplen := if ip4 = [] then 16 else 4
    let ip := if ip4 = [] then parseIPv6 addr else ip4
    match dtoi mask with
    | (n, i, ok) =>
      if ip = [] ∨ !ok ∨ i ≠ mask.length ∨ n > 8 * iplen then none
      else
        let m := CIDRMask n (8 * iplen)
        some (ip, { IP := ipMask ip m, Mask := m })

/-- Go `networkNumberAndMask(n)`; `([], [])` for `(nil, nil)`. -/
def networkNumberAndMask (n : IPNet) : List Nat × List Nat :=
  let ip4 := To4 n.IP
  if ip4 = [] ∧ n.IP.length ≠ 16 then ([], [])
  else
    let ip := if ip4 = [] then n.IP else ip4
    if n.Mask.length = 4 then
      (if ip.length ≠ 4 then ([], []) else (ip, n.Mask))
    else if n.Mask.length = 16 then
      (if ip.length = 4 then (ip, n.Mask.drop 12) else (ip, n.Mask))
    else ([], [])

/-- Go `(*IPNet).Contains(ip)`. -/
def IPNet.Contains (n : IPNet) (ip : List Nat) : Bool :=
  let nm := networkNumberAndMask n
  let x := To4 ip
  let ip1 := if x ≠ [] then x else ip
  if ip1.length ≠ nm.1.length then false
  else andBytes nm.1 nm.2 == andBytes ip1 nm.2

/-! ## package net: printing -/

/-- The byte `v + '0'` for a decimal digit `v`. -/
def digitChar (v : Nat) : Char := Char.ofNat (v + 48)

/-- The byte `hexDigit[v]` of the table `"0123456789abcdef"`. -/
def hexDigit (v : Nat) : Char := if v < 10 then Char.ofNat (v + 48) else Char.ofNat (v + 87)

/-- Go `ubtoa`: decimal text of a byte, without leading zeros. -/
def ubtoa (v : Nat) : List Char :=
  if v < 10 then [digitChar v]
  else if v < 100 then [digitChar (v / 10), digitChar (v % 10)]
  else [digitChar (v / 100), digitChar (v / 10 % 10), digitChar (v % 10)]

/-- Loop `for j := 7; j >= 0; j--` of Go `appendHex`, with `j + 1` rounds
left: a digit is written once the value shifted right by `4 * j` is
positive. -/
def appendHexLoop (i : Nat) : Nat → List Char
  | 0 => []
  | j + 1 =>
    (if i / 16 ^ j > 0 then [hexDigit (i / 16 ^ j % 16)] else []) ++ appendHexLoop i j

/-- Go `appendHex`: hexadecimal text of a number, without leading zeros. -/
def appendHex (i : Nat) : List Char :=
  if i = 0 then ['0'] else appendHexLoop i 8

/-- Go `hexString(b)`: two hexadecimal digits for every byte. -/
def hexString : List Nat → List Char
  | [] => []
  | b :: bs => hexDigit (b / 16 % 16) :: hexDigit (b % 16) :: hexString bs

/-- The eight 16-bit groups `(p[i] << 8) | p[i+1]` of a 16-byte address. -/
def groups : List Nat → List Nat
  | a :: b :: rest => (a * 256 + b) :: groups rest
  | _ => []

/-- Number of leading zero groups: the inner loop
`for j < IPv6len && p[j] == 0 && p[j+1] == 0` of `IP.String`. -/
def zeroRunLen : List Nat → Nat
  | [] => 0
  | g :: gs => if g = 0 then zeroRunLen gs + 1 else 0

/-- The loop "find longest run of zeros" of `IP.String`, in units of groups.
`e0, e1` start equal (Go starts both at `-1`; only their difference is read
inside the loop). -/
def longestRunLoop (gs : List Nat) : Nat → Nat → Nat → Nat → Nat × Nat
  | 0, _, e0, e1 => (e0, e1)
  | f + 1, i, e0, e1 =>
    if ¬ i < 8 then (e0, e1)
    else
      let j := i + zeroRunLen (gs.drop i)
      if j > i ∧ j - i > e1 - e0 then longestRunLoop gs f (j + 1) i j
      else longestRunLoop gs f (i + 1) e0 e1

/-- The run of zero groups that `IP.String` replaces by `::`, if any: the
first longest run, provided it is longer than one group. -/
def longestRun (gs : List Nat) : Option (Nat × Nat) :=
  let r := longestRunLoop gs 8 0 0 0
  if r.2 - r.1 ≤ 1 then none else some r

/-- Pieces joined by `:`. -/
def joinColon : List (List Char) → List Char
  | [] => []
  | [p] => p
  | p :: q :: ps => p ++ ':' :: joinColon (q :: ps)

/-- IPv6 text of `IP.String` for a 16-byte address that is not IPv4. -/
def ip6String (p : List Nat) : List Char :=
  let gs := groups p
  match longestRun gs with
  | none => joinColon (gs.map appendHex)
  | some (e0, e1) =>
    joinColon ((gs.take e0).map appendHex) ++ ':' :: ':' ::
      joinColon ((gs.drop e1).map appendHex)

/-- Go `IP.String()`. -/
def ipString (ip : List Nat) : List Char :=
  if ip.length = 0 then "<nil>".toList
  else
    match To4 ip with
    | [a, b, c, d] => ubtoa a ++ '.' :: ubtoa b ++ '.' :: ubtoa c ++ '.' :: ubtoa d
    | _ =>
      if ip.length ≠ 16 then '?' :: hexString ip
      else ip6String ip

/-! ## package math/big -/

/-- Go `(*big.Int).SetBytes(buf)`: the big-endian unsigned value. -/
def setBytes (buf : List Nat) : Nat := buf.foldl (fun acc b => acc * 256 + b) 0

/-- Length of Go `(*big.Int).Bytes()`: the number of base-256 digits of the
absolute value (the first argument is fuel, `a` itself is enough). -/
def bytesLenAux : Nat → Nat → Nat
  | 0, _ => 0
  | f + 1, a => if a = 0 then 0 else bytesLenAux f (a / 256) + 1

/-- Length of `x.Bytes()` for a big integer of absolute value `a`. -/
def bytesLen (a : Nat) : Nat := bytesLenAux a a

/-- The `l` low base-256 digits of `a`, big-endian. -/
def toBytes : Nat → Nat → List Nat
  | 0, _ => []
  | l + 1, a => toBytes l (a / 256) ++ [a % 256]

/-- Go `(*big.Int).FillBytes(buf)` with `len(buf) = l`: the absolute value
as `l` big-endian bytes; panics if it does not fit. -/
def fillBytes (l : Nat) (x : Int) : Option (List Nat) :=
  if x.natAbs < 256 ^ l then some (toBytes l x.natAbs) else none

/-- Largest shift count for which `big.Int.Lsh` can allocate its result: a
shift by `2^51` bits or more needs over `2^48` bytes. -/
def maxShift : Nat := 2 ^ 51

/-- Go `big.NewInt(0).Lsh(big.NewInt(1), n)`; panics when the result cannot
be allocated. -/
def lshOne (n : Nat) : Option Int :=
  if n < maxShift then some ((2 : Int) ^ n) else none

/-- Subtraction of Go `uint` values (64 bits, wrapping). -/
def uintSub (a b : Nat) : Nat := (a + 2 ^ 64 - b % 2 ^ 64) % 2 ^ 64

/-- A Go `int` (64 bits, two's complement): the value that the low 64 bits
of `x` stand for. -/
def wrapInt (x : Int) : Int :=
  (x + ((2 ^ 63 : Nat) : Int)) % ((2 ^ 64 : Nat) : Int) - ((2 ^ 63 : Nat) : Int)

/-- Go conversion `uint(x)` of an `int`. -/
def toUint (x : Int) : Nat := (x % ((2 ^ 64 : Nat) : Int)).toNat

/-- Go `int64(1) << s` for a shift count `s` of type `uint`: the bit moves
into the sign at `s = 63` and is lost from `s = 64` on. -/
def shlOne64 (s : Nat) : Int :=
  if s < 63 then ((2 ^ s : Nat) : Int) else if s = 63 then -((2 ^ 63 : Nat) : Int) else 0

/-! ## package strconv and the verb `%d` of package fmt -/

/-- Loop of Go `strconv.ParseUint` in base 10 with 64 bits, after the number
`n`: the bytes are read from left to right; a byte that is not a digit is a
syntax error (`none`), and a digit with which the number leaves the range
of `uint64` ends the loop with the range error, whose value is the largest
`uint64`. -/
def atoiDigits : List Char → Nat → Option Nat
  | [], n => some n
  | c :: cs, n =>
    if isDigit c then
      if n * 10 + (c.toNat - 48) ≥ 2 ^ 64 then some (2 ^ 64 - 1)
      else atoiDigits cs (n * 10 + (c.toNat - 48))
    else none

/-- Go `strconv.Atoi(s)` on a 64-bit platform, the value only: `0` for a
syntax error, the nearest `int` for a number out of range; of the two
errors the one that is met first in the string decides. -/
def Atoi (s : List Char) : Int :=
  let ds := if s.head? = some '-' ∨ s.head? = some '+' then s.drop 1 else s
  if ds = [] then 0
  else
    match atoiDigits ds 0 with
    | none => 0
    | some v =>
      if s.head? = some '-' then (if v > 2 ^ 63 then -((2 ^ 63 : Nat) : Int) else -(v : Int))
      else (if v ≥ 2 ^ 63 then ((2 ^ 63 - 1 : Nat) : Int) else (v : Int))

/-- Decimal digits of `n` in front of `acc`; an `int` has at most 19 digits,
the first argument counts the rounds. -/
def itoaLoop : Nat → Nat → List Char → List Char
  | 0, _, acc => acc
  | f + 1, n, acc =>
    if n < 10 then digitChar n :: acc
    else itoaLoop f (n / 10) (digitChar (n % 10) :: acc)

/-- The text of an `int` under the verb `%d`. -/
def formatInt (i : Int) : List Char :=
  if i < 0 then '-' :: itoaLoop 20 i.natAbs [] else itoaLoop 20 i.natAbs []

/-! ## float64 and package math -/

/-- The float64 values that occur in `AddressCount`: non-negative integers
and `+Inf`. -/
inductive F64 where
  | fin (v : Nat)
  | inf
deriving DecidableEq, Repr

/-- Number of binary digits of `a` (the first argument is fuel, `a` itself
is enough). -/
def bitLenAux : Nat → Nat → Nat
  | 0, _ => 0
  | f + 1, a => if a = 0 then 0 else bitLenAux f (a / 2) + 1

/-- Number of binary digits of `a`. -/
def bitLen (a : Nat) : Nat := bitLenAux a a

/-- The float64 nearest to the natural number `v`: 53 significant binary
digits, a tie goes to the even significand, `+Inf` from `2^1024` on. -/
def roundF64 (v : Nat) : F64 :=
  let e := bitLen v - 53
  let q := v / 2 ^ e
  let r := v % 2 ^ e
  let q1 := if 2 * r > 2 ^ e ∨ (2 * r = 2 ^ e ∧ q % 2 = 1) then q + 1 else q
  if q1 * 2 ^ e < 2 ^ 1024 then F64.fin (q1 * 2 ^ e) else F64.inf

/-- Go `math.Pow(2, float64(n))` for an `int` `n ≥ 0`: a power of two is
exact, the result is `+Inf` from `2^1024` on. -/
def pow2 (n : Nat) : F64 := if n < 1024 then F64.fin (2 ^ n) else F64.inf

/-- The float64 difference `x - 2` for `x ≥ 2`: the exact difference,
rounded. -/
def F64.subTwo : F64 → F64
  | F64.fin v => roundF64 (v - 2)
  | F64.inf => F64.inf

/-- The float64 values that occur in `CountIpNums`: integers (each the
exact value of a float64), the two infinities and NaN. -/
inductive Float64 where
  | fin (v : Int)
  | inf (neg : Bool)
  | nan
deriving DecidableEq, Repr

/-- The float64 nearest to the integer `x` (ties to even): Go
`new(big.Float).SetInt(x).Float64()`, and the rounding of an exact sum. -/
def roundInt (x : Int) : Float64 :=
  match roundF64 x.natAbs with
  | F64.fin v => Float64.fin (if x < 0 then -(v : Int) else (v : Int))
  | F64.inf => Float64.inf (x < 0)

/-- The float64 sum `a + b`. -/
def Float64.add : Float64 → Float64 → Float64
  | Float64.fin a, Float64.fin b => roundInt (a + b)
  | Float64.fin _, Float64.inf n => Float64.inf n
  | Float64.inf n, Float64.fin _ => Float64.inf n
  | Float64.inf n, Float64.inf m => if n = m then Float64.inf n else Float64.nan
  | _, _ => Float64.nan

end GoStd

namespace Util

open GoStd

/-! ## pkg/util/net.go -/

/-- The protocol constants `kubeovnv1.ProtocolIPv4`, `ProtocolIPv6`,
`ProtocolDual` (three distinct strings, declared in `pkg/apis`). -/
inductive Protocol where
  | IPv4
  | IPv6
  | Dual
deriving DecidableEq, Repr

/-- The expression `strings.Split(s, "/")[0]`. -/
def beforeSlash (s : List Char) : List Char := (split1 '/' s).headD []

/-- Source function `CheckProtocol`. -/
def CheckProtocol (address : List Char) : Protocol :=
  let ips := split1 ',' address
  let dual : Bool :=
    match ips with
    | [p0, p1] =>
      let v4IP := ParseIP (beforeSlash p0)
      let v6IP := ParseIP (beforeSlash p1)
      To4 v4IP ≠ [] ∧ To16 v6IP ≠ []
    | _ => false
  if dual then Protocol.Dual
  else
    let ip := ParseIP (beforeSlash address)
    if To4 ip ≠ [] then Protocol.IPv4 else Protocol.IPv6

/-- Source function `Ip2BigInt`. -/
def Ip2BigInt (ipStr : List Char) : Int :=
  if CheckProtocol ipStr = Protocol.IPv4 then (setBytes (To4 (ParseIP ipStr)) : Int)
  else (setBytes (To16 (ParseIP ipStr)) : Int)

/-- Source function `BigInt2Ip`: a 4-byte buffer unless the value has more
than four bytes; `none` when `FillBytes` panics. -/
def BigInt2Ip (ipInt : Int) : Option (List Char) :=
  let l := if bytesLen ipInt.natAbs > 4 then 16 else 4
  (fillBytes l ipInt).map ipString

/-- Source function `SubnetNumber`; `none` is the nil dereference on a
string that is not a CIDR. -/
def SubnetNumber (subnet : List Char) : Option (List Char) :=
  match ParseCIDR subnet with
  | none => none
  | some (_, cidr) => some (ipString cidr.IP)

/-- The value `ipInt + (2^(length - maskLength) - k)` shared by
`SubnetBroadcast` (`k = 1`) and `LastIP` (`k = 2`), printed by `BigInt2Ip`. -/
def topAddress (subnet : List Char) (cidr : IPNet) (k : Int) : Option (List Char) :=
  let length : Nat := if CheckProtocol subnet = Protocol.IPv4 then 32 else 128
  let maskLength := (maskSize cidr.Mask).1
  let ipInt := Ip2BigInt (ipString cidr.IP)
  match lshOne (uintSub length maskLength) with
  | none => none
  | some size => BigInt2Ip (ipInt + (size - k))

/-- Source function `SubnetBroadcast`. -/
def SubnetBroadcast (subnet : List Char) : Option (List Char) :=
  match ParseCIDR subnet with
  | none => none
  | some (_, cidr) => topAddress subnet cidr 1

/-- The error text `fmt.Errorf("%s is not a valid cidr", subnet)`. -/
def notValidCidr (subnet : List Char) : List Char := subnet ++ " is not a valid cidr".toList

/-- Source function `FirstIP`: the pair `(string, error)`, the error being
`none` for Go's `nil`; the outer `none` is a panic. -/
def FirstIP (subnet : List Char) : Option (List Char × Option (List Char)) :=
  match ParseCIDR subnet with
  | none => some ([], some (notValidCidr subnet))
  | some (_, cidr) =>
    (BigInt2Ip (Ip2BigInt (ipString cidr.IP) + 1)).map (fun ip => (ip, none))

/-- Source function `LastIP`. -/
def LastIP (subnet : List Char) : Option (List Char × Option (List Char)) :=
  match ParseCIDR subnet with
  | none => some ([], some (notValidCidr subnet))
  | some (_, cidr) => (topAddress subnet cidr 2).map (fun ip => (ip, none))

/-- Inner loop of `CIDRConflict` over the blocks of `b`: `some r` when the
function returns `r`, `none` when the loop runs to its end. -/
def conflictInner (cidra : List Char) : List (List Char) → Option Bool
  | [] => none
  | cidrb :: rest =>
    if CheckProtocol cidra ≠ CheckProtocol cidrb then conflictInner cidra rest
    else
      match ParseCIDR cidra, ParseCIDR cidrb with
      | some (aIp, aIpNet), some (bIp, bIpNet) =>
        if aIpNet.Contains bIp || bIpNet.Contains aIp then some true
        else conflictInner cidra rest
      | _, _ => some false

/-- Outer loop of `CIDRConflict` over the blocks of `a`. -/
def conflictOuter (bs : List (List Char)) : List (List Char) → Bool
  | [] => false
  | cidra :: rest =>
    match conflictInner cidra bs with
    | some r => r
    | none => conflictOuter bs rest

/-- Source function `CIDRConflict`. -/
def CIDRConflict (a b : List Char) : Bool :=
  conflictOuter (split1 ',' b) (split1 ',' a)

/-- Inner loop of `CIDRContainIP` over the addresses: `none` when the
function returns false at once, else the new value of `containFlag`. -/
def containInner (cidr : List Char) (cidrNet : IPNet) : List (List Char) → Bool → Option Bool
  | [], flag => some flag
  | ip :: rest, flag =>
    if CheckProtocol cidr ≠ CheckProtocol ip then containInner cidr cidrNet rest flag
    else
      let ipAddr := ParseIP ip
      if ipAddr = [] then none
      else if cidrNet.Contains ipAddr then containInner cidr cidrNet rest true
      else containInner cidr cidrNet rest false

/-- Outer loop of `CIDRContainIP` over the blocks. -/
def containOuter (ips : List (List Char)) : List (List Char) → Bool → Bool
  | [], flag => flag
  | cidr :: rest, flag =>
    match ParseCIDR cidr with
    | none => false
    | some (_, cidrNet) =>
      match containInner cidr cidrNet ips flag with
      | none => false
      | some flag1 => containOuter ips rest flag1

/-- Source function `CIDRContainIP`. -/
def CIDRContainIP (cidrStr ipStr : List Char) : Bool :=
  containOuter (split1 ',' ipStr) (split1 ',' cidrStr) false

/-- Source function `IsValidIP`. -/
def IsValidIP (ip : List Char) : Bool := ParseIP ip ≠ []

/-- Source function `GetStringIP`. -/
def GetStringIP (v4IP v6IP : List Char) : List Char :=
  if IsValidIP v4IP && IsValidIP v6IP then v4IP ++ ",".toList ++ v6IP
  else if IsValidIP v4IP then v4IP
  else if IsValidIP v6IP then v6IP
  else []

/-- Source function `SplitStringIP`. -/
def SplitStringIP (ipStr : List Char) : List Char × List Char :=
  if CheckProtocol ipStr = Protocol.Dual then
    ((split1 ',' ipStr).getD 0 [], (split1 ',' ipStr).getD 1 [])
  else if CheckProtocol ipStr = Protocol.IPv4 then (ipStr, [])
  else if CheckProtocol ipStr = Protocol.IPv6 then ([], ipStr)
  else ([], [])

/-- Range branch of `ExpandExcludeIPs`: the loop over the blocks of `cidr`
for one entry `s..e`, appending to `rv`; `none` is a panic. -/
def expandRange (s e : Int) (part0 : List Char) :
    List (List Char) → List (List Char) → Option (List (List Char))
  | [], rv => some rv
  | cidrBlock :: rest, rv =>
    if CheckProtocol cidrBlock ≠ CheckProtocol part0 then expandRange s e part0 rest rv
    else
      match FirstIP cidrBlock with
      | none => none
      | some (_, some _) => expandRange s e part0 rest rv
      | some (firstIP, none) =>
        match SubnetBroadcast cidrBlock with
        | none => none
        | some bcast =>
          if firstIP = bcast then expandRange s e part0 rest rv
          else
            match LastIP cidrBlock with
            | none => none
            | some (lastIP, _) =>
              let s1 := if s < Ip2BigInt firstIP then Ip2BigInt firstIP else s
              let e1 := if e > Ip2BigInt lastIP then Ip2BigInt lastIP else e
              if s1 = e1 then
                match BigInt2Ip s1 with
                | none => none
                | some p => expandRange s e part0 rest (rv ++ [p])
              else if s1 < e1 then
                match BigInt2Ip s1, BigInt2Ip e1 with
                | some p, some q => expandRange s e part0 rest (rv ++ [p ++ "..".toList ++ q])
                | _, _ => none
              else expandRange s e part0 rest rv

/-- Single-address branch of `ExpandExcludeIPs`: the loop over the blocks
of `cidr`, which appends the entry at the first block that accepts it and
then breaks; `none` is a panic. -/
def expandSingle (excludeIP : List Char) :
    List (List Char) → List (List Char) → Option (List (List Char))
  | [], rv => some rv
  | cidrBlock :: rest, rv =>
    if CIDRContainIP cidrBlock excludeIP then
      match SubnetNumber cidrBlock with
      | none => none
      | some num =>
        if excludeIP ≠ num then
          match SubnetBroadcast cidrBlock with
          | none => none
          | some bcast =>
            if excludeIP ≠ bcast then some (rv ++ [excludeIP])
            else expandSingle excludeIP rest rv
        else expandSingle excludeIP rest rv
    else expandSingle excludeIP rest rv

/-- Loop of `ExpandExcludeIPs` over the exclude entries. -/
def expandLoop (cidr : List Char) :
    List (List Char) → List (List Char) → Option (List (List Char))
  | [], rv => some rv
  | excludeIP :: rest, rv =>
    if containsDotDot excludeIP then
      match splitDotDot excludeIP with
      | [part0, part1] =>
        if CheckProtocol part0 ≠ CheckProtocol part1 then expandLoop cidr rest rv
        else
          let s := Ip2BigInt part0
          let e := Ip2BigInt part1
          if s > e then expandLoop cidr rest rv
          else
            match expandRange s e part0 (split1 ',' cidr) rv with
            | none => none
            | some rv1 => expandLoop cidr rest rv1
      | _ => expandLoop cidr rest rv
    else
      match expandSingle excludeIP (split1 ',' cidr) rv with
      | none => none
      | some rv1 => expandLoop cidr rest rv1

/-- Source function `ExpandExcludeIPs`; `none` is a panic. -/
def ExpandExcludeIPs (excludeIPs : List (List Char)) (cidr : List Char) :
    Option (List (List Char)) :=
  expandLoop cidr excludeIPs []

/-- Source function `AddressCount`; `Size()` never returns more ones than
bits, so the difference is a natural number. -/
def AddressCount (network : IPNet) : F64 :=
  let prefixLen := (maskSize network.Mask).1
  let bits := (maskSize network.Mask).2
  if bits - prefixLen < 2 then F64.fin 0
  else (pow2 (bits - prefixLen)).subTwo

/-- The bound `1<<(uint(hostNum)-1)` that `GenerateRandomV4IP` hands to
`rand.Int`, an `int64`. -/
def randomBound (cidr : List Char) : Int :=
  let netMask := Atoi ((split1 '/' cidr).getD 1 [])
  let hostNum := wrapInt (32 - netMask)
  shlOne64 (uintSub (toUint hostNum) 1)

/-- Source function `GenerateRandomV4IP`, with the random source as a
parameter: `rnd max` is the number that `rand.Int(rand.Reader, max)`
returns (the reader is taken to work, so the branch `klog.Fatalf` is never
entered). `none` is a panic: `rand.Int` panics on a bound that is not
positive. -/
def GenerateRandomV4IP (rnd : Int → Int) (cidr : List Char) : Option (List Char) :=
  if (split1 '/' cidr).length ≠ 2 then some []
  else
    let ip := (split1 '/' cidr).getD 0 []
    let netMask := Atoi ((split1 '/' cidr).getD 1 [])
    let max := randomBound cidr
    if max ≤ 0 then none
    else
      let add := rnd max
      (BigInt2Ip (Ip2BigInt ip + add)).map (fun t => t ++ '/' :: formatInt netMask)

/-- Loop of `CheckCidrs` over the blocks. -/
def checkCidrsLoop : List (List Char) → Option (List Char)
  | [] => none
  | cidrBlock :: rest =>
    match ParseCIDR cidrBlock with
    | none => some "CIDRInvalid".toList
    | some _ => checkCidrsLoop rest

/-- Source function `CheckCidrs`: the error, `none` for Go's `nil`. -/
def CheckCidrs (cidr : List Char) : Option (List Char) :=
  checkCidrsLoop (split1 ',' cidr)

/-- Loop of `GetGwByCidr` over the blocks, `gws` holding the gateways found
so far; the outer `none` is a panic. -/
def getGwLoop : List (List Char) → List (List Char) →
    Option (List Char × Option (List Char))
  | [], gws => some (joinComma gws, none)
  | cidr :: rest, gws =>
    match FirstIP cidr with
    | none => none
    | some (_, some err) => some ([], some err)
    | some (gw, none) => getGwLoop rest (gws ++ [gw])

/-- Source function `GetGwByCidr`. -/
def GetGwByCidr (cidrStr : List Char) : Option (List Char × Option (List Char)) :=
  getGwLoop (split1 ',' cidrStr) []

/-- Loop of `AppendGwByCidr` over the blocks. -/
def appendGwLoop (gateway : List Char) : List (List Char) → List (List Char) →
    Option (List Char × Option (List Char))
  | [], gws => some (joinComma gws, none)
  | cidr :: rest, gws =>
    if CheckProtocol gateway = CheckProtocol cidr then
      appendGwLoop gateway rest (gws ++ [gateway])
    else
      match FirstIP cidr with
      | none => none
      | some (_, some err) => some ([], some err)
      | some (gw, none) =>
        let gwArray :=
          if CheckProtocol gateway = Protocol.IPv4 then [gateway, gw] else [gw, gateway]
        appendGwLoop gateway rest gwArray

/-- Source function `AppendGwByCidr`. -/
def AppendGwByCidr (gateway cidrStr : List Char) : Option (List Char × Option (List Char)) :=
  appendGwLoop gateway (split1 ',' cidrStr) []

/-- Source function `ContainsIPs`; an entry that contains `..` has at least
two parts. -/
def ContainsIPs (excludeIP ip : List Char) : Bool :=
  if containsDotDot excludeIP then
    let parts := splitDotDot excludeIP
    let s := Ip2BigInt (parts.getD 0 [])
    let e := Ip2BigInt (parts.getD 1 [])
    let ipv := Ip2BigInt ip
    if s ≤ ipv ∧ e ≥ ipv then true else false
  else
    if excludeIP = ip then true else false

/-- Loop of `CountIpNums` over the entries, `count` being the float64 sum so
far. -/
def countLoop : List (List Char) → Float64 → Float64
  | [], count => count
  | excludeIP :: rest, count =>
    if containsDotDot excludeIP then
      let parts := splitDotDot excludeIP
      let s := Ip2BigInt (parts.getD 0 [])
      let e := Ip2BigInt (parts.getD 1 [])
      let v := roundInt (e - s + 1)
      countLoop rest (count.add v)
    else countLoop rest (count.add (Float64.fin 1))

/-- Source function `CountIpNums`. -/
def CountIpNums (excludeIPs : List (List Char)) : Float64 :=
  countLoop excludeIPs (Float64.fin 0)

end Util

namespace Controller

/-! ## pkg/controller/controller.go -/

/-- How a run of a function of the controller ends: all its statements are
done, the process is ended by `klog.Fatalf`, or the function still waits in
a polling loop when the observations that the model was given are used
up. -/
inductive Status where
  | done
  | fatal
  | waiting
deriving DecidableEq, Repr

/-- Outcomes of the calls that `Run` makes, each an input of the model:
`true` stands for success (the caches are synced, the error is `nil`);
`startWorkers` is how the call of `startWorkers` ends. -/
structure RunOutcomes where
  WaitForCacheSync : Bool
  InitDefaultVpc : Bool
  InitOVN : Bool
  InitIPAM : Bool
  gc : Bool
  initSyncCrdIPs : Bool
  initSyncCrdSubnets : Bool
  initSyncCrdVlans : Bool
  startWorkers : Status

/-- The steps of `Run` in the order of the source: the calls, `klog.Fatalf`
(which logs and ends the process, so that nothing follows it, the deferred
`shutdown` included), `klog.Errorf`, the wait on `stopCh` and the deferred
`shutdown`. -/
inductive RunStep where
  | leaderElection
  | startInformers
  | WaitForCacheSync
  | InitDefaultVpc
  | InitOVN
  | InitIPAM
  | gc
  | registerSubnetMetrics
  | initSyncCrdIPs
  | initSyncCrdSubnets
  | initSyncCrdVlans
  | startWorkers
  | waitStop
  | shutdown
  | Fatalf (format : List Char)
  | Errorf (format : List Char)
deriving DecidableEq, Repr

/-- The end of `Run`: the call of `startWorkers`, the wait on `stopCh` and
the deferred `shutdown`. -/
def runWorkers (o : RunOutcomes) : List RunStep :=
  RunStep.startWorkers ::
    (if o.startWorkers = Status.done then [RunStep.waitStop, RunStep.shutdown] else [])

/-- The part of `Run` after `gc`: the three syncs, whose errors are logged
with `klog.Errorf`, and the workers. -/
def runSyncs (o : RunOutcomes) : List RunStep :=
  RunStep.registerSubnetMetrics ::
  RunStep.initSyncCrdIPs ::
    ((if o.initSyncCrdIPs then [] else [RunStep.Errorf "failed to sync crd ips %v".toList]) ++
  RunStep.initSyncCrdSubnets ::
    ((if o.initSyncCrdSubnets then []
      else [RunStep.Errorf "failed to sync crd subnets %v".toList]) ++
  RunStep.initSyncCrdVlans ::
    ((if o.initSyncCrdVlans then []
      else [RunStep.Errorf "failed to sync crd vlans: %v".toList]) ++
  runWorkers o)))

/-- Source function `Controller.Run`, as the sequence of its steps for given
outcomes of the calls. -/
def Run (o : RunOutcomes) : List RunStep :=
  RunStep.leaderElection :: RunStep.startInformers :: RunStep.WaitForCacheSync ::
  if !o.WaitForCacheSync then [RunStep.Fatalf "failed to wait for caches to sync".toList]
  else RunStep.InitDefaultVpc ::
  if !o.InitDefaultVpc then [RunStep.Fatalf "failed to init default vpc %v".toList]
  else RunStep.InitOVN ::
  if !o.InitOVN then [RunStep.Fatalf "failed to init ovn resource %v".toList]
  else RunStep.InitIPAM ::
  if !o.InitIPAM then [RunStep.Fatalf "failed to init ipam %v".toList]
  else RunStep.gc ::
  if !o.gc then [RunStep.Fatalf "gc failed %v".toList]
  else runSyncs o

/-- The fields of `Configuration` (declared in another file) that
`startWorkers` reads. -/
structure Configuration where
  WorkerNum : Int
  EnableLb : Bool
  EnableNP : Bool
  DefaultLogicalSwitch : List Char
  NodeSwitch : List Char

/-- What `startWorkers` reads of a node: its name and the value of
`node.Annotations[util.AllocatedAnnotation]`, the empty string when the key
is absent. -/
structure Node where
  Name : List Char
  allocated : List Char
deriving DecidableEq, Repr

/-- The functions that `startWorkers` hands to `wait.Until`; the five
anonymous functions bear the name of the function they call. -/
inductive Worker where
  | runAddVpcWorker
  | runAddOrUpdateVpcNatGwWorker
  | runInitVpcNatGwWorker
  | runDelVpcNatGwWorker
  | runUpdateVpcEipWorker
  | runUpdateVpcFloatingIpWorker
  | runUpdateVpcDnatWorker
  | runUpdateVpcSnatWorker
  | runUpdateVpcSubnetWorker
  | runAddSubnetWorker
  | runAddVlanWorker
  | runAddNodeWorker
  | runUpdateNodeWorker
  | runDeleteNodeWorker
  | runAddNamespaceWorker
  | runDelVpcWorker
  | runUpdateVpcStatusWorker
  | runDeleteServiceWorker
  | runAddPodWorker
  | runDeletePodWorker
  | runUpdatePodWorker
  | runDeleteSubnetWorker
  | runDeleteRouteWorker
  | runUpdateSubnetStatusWorker
  | runUpdateServiceWorker
  | runUpdateEndpointWorker
  | runUpdateNpWorker
  | runDeleteNpWorker
  | runDelVlanWorker
  | runUpdateVlanWorker
  | resyncInterConnection
  | resyncExternalGateway
  | resyncVpcNatGwConfig
  | markAndCleanLSP
  | syncExternalVpc
  | resyncSubnetMetrics
  | CheckGatewayReady
  | CheckNodePortGroup
deriving DecidableEq, Repr

/-- The events of `startWorkers`: a statement `go wait.Until(w, ...)`, a
call of `ListLogicalSwitch` or of `nodesLister.List` with its result (`none`
for an error), and `klog.Fatalf`. -/
inductive Event where
  | go (w : Worker)
  | ListLogicalSwitch (lss : Option (List (List Char)))
  | ListNodes (nodes : Option (List Node))
  | Fatalf (format : List Char)
deriving DecidableEq, Repr

/-- First polling loop of `startWorkers`, "wait for the default and the node
switch ready": one element of the list for every call of
`ListLogicalSwitch`. The helper `util.IsStringIn` is declared in another
file and is a parameter. -/
def waitSwitches (IsStringIn : List Char → List (List Char) → Bool) (cfg : Configuration) :
    List (Option (List (List Char))) → List Event × Status
  | [] => ([], Status.waiting)
  | none :: _ =>
    ([Event.ListLogicalSwitch none, Event.Fatalf "failed to list logical switch, %v".toList],
      Status.fatal)
  | some lss :: rest =>
    if IsStringIn cfg.DefaultLogicalSwitch lss && IsStringIn cfg.NodeSwitch lss then
      ([Event.ListLogicalSwitch (some lss)], Status.done)
    else
      let r := waitSwitches IsStringIn cfg rest
      (Event.ListLogicalSwitch (some lss) :: r.1, r.2)

/-- The inner loop over the nodes: `ready` stays true when every node has
the annotation `"true"`. -/
def nodesReady (nodes : List Node) : Bool := nodes.all (fun node => node.allocated = "true".toList)

/-- Second polling loop of `startWorkers`, the wait for the annotations of
the nodes: one element of the list for every call of `nodesLister.List`. -/
def waitNodes : List (Option (List Node)) → List Event × Status
  | [] => ([], Status.waiting)
  | none :: _ =>
    ([Event.ListNodes none, Event.Fatalf "failed to list nodes, %v".toList], Status.fatal)
  | some nodes :: rest =>
    if nodesReady nodes then ([Event.ListNodes (some nodes)], Status.done)
    else
      let r := waitNodes rest
      (Event.ListNodes (some nodes) :: r.1, r.2)

/-- The statements of `startWorkers` before the first loop. -/
def startTopology : List Event :=
  [Event.go Worker.runAddVpcWorker,
   Event.go Worker.runAddOrUpdateVpcNatGwWorker, Event.go Worker.runInitVpcNatGwWorker,
   Event.go Worker.runDelVpcNatGwWorker, Event.go Worker.runUpdateVpcEipWorker,
   Event.go Worker.runUpdateVpcFloatingIpWorker, Event.go Worker.runUpdateVpcDnatWorker,
   Event.go Worker.runUpdateVpcSnatWorker, Event.go Worker.runUpdateVpcSubnetWorker,
   Event.go Worker.runAddSubnetWorker, Event.go Worker.runAddVlanWorker]

/-- The loop `for i := 0; i < c.config.WorkerNum; i++` with the body
`body`. -/
def workerLoop (workerNum : Int) (body : List Event) : List Event :=
  (List.replicate workerNum.toNat body).flatten

/-- The loop that starts the node workers. -/
def startNodes (cfg : Configuration) : List Event :=
  workerLoop cfg.WorkerNum
    [Event.go Worker.runAddNodeWorker, Event.go Worker.runUpdateNodeWorker,
     Event.go Worker.runDeleteNodeWorker]

/-- The statements of `startWorkers` after the second loop. -/
def startRest (cfg : Configuration) : List Event :=
  [Event.go Worker.runAddNamespaceWorker,
   Event.go Worker.runDelVpcWorker, Event.go Worker.runUpdateVpcStatusWorker] ++
  (if cfg.EnableLb then [Event.go Worker.runDeleteServiceWorker] else []) ++
  workerLoop cfg.WorkerNum
    ([Event.go Worker.runAddPodWorker, Event.go Worker.runDeletePodWorker,
      Event.go Worker.runUpdatePodWorker,
      Event.go Worker.runDeleteSubnetWorker, Event.go Worker.runDeleteRouteWorker,
      Event.go Worker.runUpdateSubnetStatusWorker] ++
     (if cfg.EnableLb then
        [Event.go Worker.runUpdateServiceWorker, Event.go Worker.runUpdateEndpointWorker]
      else []) ++
     (if cfg.EnableNP then
        [Event.go Worker.runUpdateNpWorker, Event.go Worker.runDeleteNpWorker]
      else []) ++
     [Event.go Worker.runDelVlanWorker, Event.go Worker.runUpdateVlanWorker]) ++
  [Event.go Worker.resyncInterConnection, Event.go Worker.resyncExternalGateway,
   Event.go Worker.resyncVpcNatGwConfig, Event.go Worker.markAndCleanLSP,
   Event.go Worker.syncExternalVpc, Event.go Worker.resyncSubnetMetrics,
   Event.go Worker.CheckGatewayReady] ++
  (if cfg.EnableNP then [Event.go Worker.CheckNodePortGroup] else [])

/-- Source function `Controller.startWorkers`, as the sequence of its events
and the way it ends, for the results `switches` of the successive calls of
`ListLogicalSwitch` and the results `listings` of the successive calls of
`nodesLister.List`. -/
def startWorkers (IsStringIn : List Char → List (List Char) → Bool) (cfg : Configuration)
    (switches : List (Option (List (List Char)))) (listings : List (Option (List Node))) :
    List Event × Status :=
  let w1 := waitSwitches IsStringIn cfg switches
  if w1.2 ≠ Status.done then (startTopology ++ w1.1, w1.2)
  else
    let w2 := waitNodes listings
    if w2.2 ≠ Status.done then (startTopology ++ w1.1 ++ startNodes cfg ++ w2.1, w2.2)
    else (startTopology ++ w1.1 ++ startNodes cfg ++ w2.1 ++ startRest cfg, Status.done)

end Controller

/-! ## Vocabulary of the statements -/

namespace GoStd

/-- Hexadecimal digits of either case. -/
def isHexChar (c : Char) : Bool := isDigit c || isLowerHex c || isUpperHex c

/-- Bytes that can occur in the text of an address: decimal and
hexadecimal digits, `.` and `:`. -/
def ipChar (c : Char) : Bool :=
  isDigit c || isLowerHex c || isUpperHex c || c == '.' || c == ':'

end GoStd

namespace Util

open GoStd

/-- A string that `net.ParseIP` reads as an IPv4 address (`To4() != nil`);
this includes the IPv4-mapped form `::ffff:a.b.c.d`, as in package net. -/
abbrev IsIPv4Addr (s : List Char) : Prop := To4 (ParseIP s) ≠ []

/-- A string that `net.ParseIP` reads as an address that is not IPv4. -/
abbrev IsIPv6Addr (s : List Char) : Prop := ParseIP s ≠ [] ∧ To4 (ParseIP s) = []

end Util

namespace GoStd

/-- The bytes that `IPNet.Contains` compares: the 4-byte form of an IPv4
address, any other address as it is. -/
def ipBytes (ip : List Nat) : List Nat := if To4 ip ≠ [] then To4 ip else ip

/-- An address value: 4 or 16 bytes, each below 256. -/
abbrev IsIP (ip : List Nat) : Prop := (ip.length = 4 ∨ ip.length = 16) ∧ ∀ b ∈ ip, b < 256

end GoStd

namespace Util

open GoStd

/-- The family of a well-formed CIDR block: IPv4 for a dotted-decimal
address with a prefix length up to 32, IPv6 for an IPv6 address that is not
IPv4-mapped with a prefix length up to 128; `none` for a string that
`net.ParseCIDR` rejects and for an IPv4-mapped IPv6 prefix
(`::ffff:a.b.c.d/n`), whose 128-bit mask `CheckProtocol` pairs with the
IPv4 family. -/
def blockFamily (c : List Char) : Option Protocol :=
  match ParseCIDR c with
  | none => none
  | some (ip, net) =>
    if net.IP.length = 4 then some Protocol.IPv4
    else if To4 ip = [] then some Protocol.IPv6
    else none

/-- A well-formed IPv4 or IPv6 CIDR block. -/
abbrev IsValidBlock (c : List Char) : Prop := blockFamily c ≠ none

end Util

namespace Util

open GoStd

/-- The network (second result) of `net.ParseCIDR`, for a block that
parses. -/
def netOf (c : List Char) : IPNet :=
  match ParseCIDR c with
  | some (_, net) => net
  | none => { IP := [], Mask := [] }

/-- The address as written (first result) of `net.ParseCIDR`. -/
def ipOf (c : List Char) : List Nat :=
  match ParseCIDR c with
  | some (ip, _) => ip
  | none => []

/-- Two blocks share an address: some address lies in both networks. -/
def SharesAddress (ca cb : List Char) : Prop :=
  ∃ x, IsIP x ∧ (netOf ca).Contains x = true ∧ (netOf cb).Contains x = true

end Util

namespace Util

open GoStd

/-- The facts about a well-formed block that the proofs below use. -/
structure BlockView (c : List Char) (f : Protocol) (l n : Nat) (p : List Nat) : Prop where
  parse : ParseCIDR c = some (ipOf c, netOf c)
  fam : f = Protocol.IPv4 ∧ l = 4 ∨ f = Protocol.IPv6 ∧ l = 16
  len : p.length = l
  bytes : ∀ b ∈ p, b < 256
  ones : n ≤ 8 * l
  pip : p = ipBytes (ipOf c)
  isip : IsIP (ipOf c)
  net : netOf c = { IP := andBytes p (cidrMaskLoop l n), Mask := cidrMaskLoop l n }
  notv4 : l = 16 → To4 (andBytes p (cidrMaskLoop l n)) = []
  proto : CheckProtocol c = f

/-- The test of `CIDRConflict` on one pair of blocks. -/
def pairHit (ca cb : List Char) : Prop :=
  CheckProtocol ca = CheckProtocol cb ∧
    ((netOf ca).Contains (ipOf cb) = true ∨ (netOf cb).Contains (ipOf ca) = true)

end Util

namespace GoStd

/-- Value of a run of decimal digits read after the number `n`. -/
def decValue (n : Nat) (ds : List Char) : Nat :=
  ds.foldl (fun a c => a * 10 + (c.toNat - 48)) n

/-- Value of a run of hexadecimal digits read after the number `n`. -/
def hexValue (n : Nat) (ds : List Char) : Nat :=
  ds.foldl (fun a c => a * 16 +
    (if isDigit c then c.toNat - 48 else if isLowerHex c then c.toNat - 97 + 10
     else c.toNat - 65 + 10)) n

/-- The two bytes of a 16-bit group. -/
def groupBytes (g : Nat) : List Nat := [g / 256 % 256, g % 256]

/-- The bytes of a list of 16-bit groups. -/
def bytesOfGroups : List Nat → List Nat
  | [] => []
  | g :: gs => groupBytes g ++ bytesOfGroups gs

/-- Invariant of the search for the longest run: `e0 .. e1` is a run of
zero groups inside the list. -/
def IsZeroRun (gs : List Nat) (e0 e1 : Nat) : Prop :=
  e0 ≤ e1 ∧ e1 ≤ gs.length ∧ (gs.drop e0).take (e1 - e0) = List.replicate (e1 - e0) 0

end GoStd

namespace Util

open GoStd

/-- Host bits of a block: total bits of the mask minus its leading ones. -/
def hostBits (c : List Char) : Nat :=
  (maskSize (netOf c).Mask).2 - (maskSize (netOf c).Mask).1

/-- The test of the single-address branch of `ExpandExcludeIPs` on one
block. -/
def acceptsSingle (a blk : List Char) : Prop :=
  CIDRContainIP blk a = true ∧ SubnetNumber blk ≠ some a ∧ SubnetBroadcast blk ≠ some a

/-- The intersection of the range `s .. e` with `first .. last`, as a pair
of bounds; `none` when `s > e` or the ranges do not meet. -/
def intersectRange (s e first last : Int) : Option (Int × Int) :=
  if s > e then none
  else if max s first ≤ min e last then some (max s first, min e last)
  else none

/-- The list that stands for a range of addresses: nothing for the empty
range, the address for a range of one address, `lo..hi` otherwise; the
numbers are printed by `BigInt2Ip`. -/
def renderRange : Option (Int × Int) → Option (List (List Char))
  | none => some []
  | some (lo, hi) =>
    if lo = hi then (BigInt2Ip lo).map (fun p => [p])
    else
      match BigInt2Ip lo, BigInt2Ip hi with
      | some p, some q => some [p ++ "..".toList ++ q]
      | _, _ => none

end Util

namespace GoStd

/-- Every `.` of the text is followed by a decimal digit (so the text has
no `..` and does not end in `.`). -/
def dotOK : List Char → Bool
  | [] => true
  | [c] => c ≠ '.'
  | c :: d :: t => (c ≠ '.' || isDigit d) && dotOK (d :: t)

end GoStd

namespace Util

/-- The number that `Ip2BigInt` reads from the text that `BigInt2Ip` prints
for the number `x` with `0 ≤ x < 2^128`: a 16-byte value in the IPv4-mapped
range `::ffff:0:0/96` is printed in dotted form and read back without the
prefix. -/
def printedValue (x : Int) : Int :=
  if 0xffff00000000 ≤ x ∧ x < 2 ^ 48 then x - 0xffff00000000 else x

end Util

namespace Controller

/-- The workers that `startWorkers` starts before its first loop: the add
worker of the VPC queue, the workers of the VPC NAT gateway queues, and the
add workers of the subnet and VLAN queues. -/
def Worker.isAddTopology : Worker → Bool
  | Worker.runAddVpcWorker | Worker.runAddOrUpdateVpcNatGwWorker
  | Worker.runInitVpcNatGwWorker | Worker.runDelVpcNatGwWorker
  | Worker.runUpdateVpcEipWorker | Worker.runUpdateVpcFloatingIpWorker
  | Worker.runUpdateVpcDnatWorker | Worker.runUpdateVpcSnatWorker
  | Worker.runUpdateVpcSubnetWorker | Worker.runAddSubnetWorker
  | Worker.runAddVlanWorker => true
  | _ => false

/-- The workers of the VPC, subnet and VLAN queues. -/
def Worker.isTopology : Worker → Bool
  | Worker.runDelVpcWorker | Worker.runUpdateVpcStatusWorker
  | Worker.runDeleteSubnetWorker | Worker.runDeleteRouteWorker
  | Worker.runUpdateSubnetStatusWorker | Worker.runDelVlanWorker
  | Worker.runUpdateVlanWorker => true
  | w => w.isAddTopology

/-- The workers of the node queues. -/
def Worker.isNode : Worker → Bool
  | Worker.runAddNodeWorker | Worker.runUpdateNodeWorker | Worker.runDeleteNodeWorker => true
  | _ => false

/-- The worker of the namespace queue. -/
def Worker.isNamespace : Worker → Bool
  | Worker.runAddNamespaceWorker => true
  | _ => false

/-- The workers of the pod queues. -/
def Worker.isPod : Worker → Bool
  | Worker.runAddPodWorker | Worker.runDeletePodWorker | Worker.runUpdatePodWorker => true
  | _ => false

/-- The workers of the service and endpoint queues. -/
def Worker.isService : Worker → Bool
  | Worker.runDeleteServiceWorker | Worker.runUpdateServiceWorker
  | Worker.runUpdateEndpointWorker => true
  | _ => false

/-- The event starts a worker of the kind `p`. -/
def Event.starts (p : Worker → Bool) : Event → Bool
  | Event.go w => p w
  | _ => false

/-- In the sequence every start of a worker of kind `p` comes before every
start of a worker of kind `q`: no start of a `q` is followed by a start of a
`p`. -/
def StartedBefore (p q : Worker → Bool) (tr : List Event) : Prop :=
  tr.Pairwise (fun a b => ¬ (a.starts q = true ∧ b.starts p = true))

/-- The event is a listing of the nodes in which every node has the
allocated annotation `"true"`. -/
def Event.isReadyListing : Event → Bool
  | Event.ListNodes (some nodes) => nodesReady nodes
  | _ => false

/-- Before every start of a pod worker a ready listing of the nodes has
been observed. -/
def PodsAfterReadyNodes (tr : List Event) : Prop :=
  ∀ l1 l2 w, tr = l1 ++ Event.go w :: l2 → w.isPod = true →
    ∃ e ∈ l1, e.isReadyListing = true

/-- The part of `startWorkers` in which an event occurs. -/
def Event.phase : Event → Nat
  | Event.go w =>
    if w.isAddTopology then 0 else if w.isNode then 2 else if w.isNamespace then 4 else 5
  | Event.ListLogicalSwitch _ => 1
  | Event.ListNodes _ => 3
  | Event.Fatalf _ => 6

instance (p q : Worker → Bool) (tr : List Event) : Decidable (StartedBefore p q tr) := by
  unfold StartedBefore
  infer_instance

end Controller
namespace Util

open GoStd

/-- The numbers of the addresses of a family: below `2^32` for IPv4; for
IPv6 below `2^128` and outside the IPv4-mapped range `::ffff:0:0/96`, whose
members are IPv4 addresses. -/
def isAddrNumber (f : Protocol) (n : Nat) : Bool :=
  if f = Protocol.IPv4 then decide (n < 2 ^ 32)
  else decide (n < 2 ^ 128) && !(decide (0xffff00000000 ≤ n) && decide (n < 2 ^ 48))

/-- The address of family `f` with the number `n`, in canonical form: the
text of `IP.String` for the 4 or 16 bytes of `n`. -/
def addrText (f : Protocol) (n : Nat) : List Char :=
  ipString (toBytes (if f = Protocol.IPv4 then 4 else 16) n)

/-- An exclude entry, given by the numbers of its addresses: a single
address, or a range with its two ends. -/
inductive ExcludeEntry where
  | single (n : Nat)
  | range (s e : Nat)
deriving DecidableEq, Repr

/-- The text of an entry in family `f`: the address, or `s..e`. -/
def ExcludeEntry.text (f : Protocol) : ExcludeEntry → List Char
  | ExcludeEntry.single n => addrText f n
  | ExcludeEntry.range s e => addrText f s ++ "..".toList ++ addrText f e

/-- A well-formed entry of family `f`: its addresses are addresses of the
family, the ends of a range are in order, and a range does not reach over
the IPv4-mapped range. -/
def ExcludeEntry.wellFormed (f : Protocol) : ExcludeEntry → Bool
  | ExcludeEntry.single n => isAddrNumber f n
  | ExcludeEntry.range s e =>
    isAddrNumber f s && isAddrNumber f e && decide (s ≤ e) &&
      !(decide (s < 0xffff00000000) && decide (2 ^ 48 ≤ e))

/-- The entry has the address with the number `n`. -/
def ExcludeEntry.covers : ExcludeEntry → Nat → Bool
  | ExcludeEntry.single m, n => decide (m = n)
  | ExcludeEntry.range s e, n => decide (s ≤ n) && decide (n ≤ e)

/-- The number of addresses of an entry: `1`, or `e - s + 1` for a range. -/
def ExcludeEntry.size : ExcludeEntry → Nat
  | ExcludeEntry.single _ => 1
  | ExcludeEntry.range s e => e - s + 1

/-- The entries are pairwise disjoint: no number belongs to two of them. -/
def EntriesDisjoint (es : List ExcludeEntry) : Prop :=
  es.Pairwise (fun a b => ∀ n, ¬ (a.covers n = true ∧ b.covers n = true))

/-- The addresses of family `f`, as numbers, for which some entry of the
list of texts satisfies `ContainsIPs`. -/
def containedNumbers (f : Protocol) (excludeIPs : List (List Char)) : Finset Nat :=
  (Finset.range (2 ^ 128)).filter
    (fun n => isAddrNumber f n = true ∧ ∃ x ∈ excludeIPs, ContainsIPs x (addrText f n) = true)

end Util

/-! # Theorems -/

/-! ## Lemmas on the library model -/

namespace GoStd

theorem consHead_ne_nil (c : Char) (l : List (List Char)) : consHead c l ≠ [] := by
  cases l <;> simp [consHead]

theorem split1_ne_nil (sep : Char) (s : List Char) : split1 sep s ≠ [] := by
  cases s with
  | nil => simp [split1]
  | cons c cs =>
    simp only [split1]
    split
    · simp
    · exact consHead_ne_nil _ _

theorem split1_of_not_mem (sep : Char) (s : List Char) (h : sep ∉ s) : split1 sep s = [s] := by
  induction s with
  | nil => simp [split1]
  | cons c cs ih =>
    simp only [List.mem_cons, not_or] at h
    have hc : c ≠ sep := fun e => h.1 e.symm
    simp [split1, hc, ih h.2, consHead]

theorem split1_append_sep (sep : Char) (s t : List Char) (h : sep ∉ s) :
    split1 sep (s ++ sep :: t) = s :: split1 sep t := by
  induction s with
  | nil => simp [split1]
  | cons c cs ih =>
    simp only [List.mem_cons, not_or] at h
    have hc : c ≠ sep := fun e => h.1 e.symm
    simp [split1, hc, ih h.2, consHead]

theorem dtoiLoop_digits (s : List Char) : ∀ (n i n1 c : Nat),
    dtoiLoop s n i = (n1, c, true) →
      i ≤ c ∧ ∀ x ∈ s.take (c - i), isDigit x = true := by
  induction s with
  | nil =>
    intro n i n1 c h
    simp only [dtoiLoop] at h
    split at h
    · simp at h
    · simp only [Prod.mk.injEq, and_true] at h
      simp [h.2]
  | cons a as ih =>
    intro n i n1 c h
    simp only [dtoiLoop] at h
    split at h
    · rename_i hd
      split at h
      · simp at h
      · obtain ⟨h1, h2⟩ := ih _ _ _ _ h
        refine ⟨by omega, ?_⟩
        have : c - i = (c - (i + 1)) + 1 := by omega
        rw [this, List.take_succ_cons]
        intro x hx
        rcases List.mem_cons.1 hx with rfl | hx
        · exact hd
        · exact h2 x hx
    · split at h
      · simp at h
      · simp only [Prod.mk.injEq, and_true] at h
        simp [h.2]

theorem xtoiLoop_hex (s : List Char) : ∀ (n i n1 c : Nat),
    xtoiLoop s n i = (n1, c, true) →
      i ≤ c ∧ ∀ x ∈ s.take (c - i), isHexChar x = true := by
  induction s with
  | nil =>
    intro n i n1 c h
    simp only [xtoiLoop] at h
    split at h
    · simp at h
    · simp only [Prod.mk.injEq, and_true] at h
      simp [h.2]
  | cons a as ih =>
    intro n i n1 c h
    have key : ∀ m, isHexChar a = true → xtoiLoop as m (i + 1) = (n1, c, true) →
        i ≤ c ∧ ∀ x ∈ (a :: as).take (c - i), isHexChar x = true := by
      intro m ha h
      obtain ⟨h1, h2⟩ := ih _ _ _ _ h
      refine ⟨by omega, ?_⟩
      have : c - i = (c - (i + 1)) + 1 := by omega
      rw [this, List.take_succ_cons]
      intro x hx
      rcases List.mem_cons.1 hx with rfl | hx
      · exact ha
      · exact h2 x hx
    simp only [xtoiLoop] at h
    split at h
    · rename_i hd
      split at h
      · simp at h
      · exact key _ (by simp [isHexChar, hd]) h
    · split at h
      · rename_i hd
        split at h
        · simp at h
        · exact key _ (by simp [isHexChar, hd]) h
      · split at h
        · rename_i hd
          split at h
          · simp at h
          · exact key _ (by simp [isHexChar, hd]) h
        · split at h
          · simp at h
          · simp only [Prod.mk.injEq, and_true] at h
            simp [h.2]

theorem mem_of_take_drop {α} (P : α → Prop) (s : List α) (c : Nat)
    (h1 : ∀ x ∈ s.take c, P x) (h2 : ∀ x ∈ s.drop c, P x) : ∀ x ∈ s, P x := by
  intro x hx
  rw [← List.take_append_drop c s] at hx
  rcases List.mem_append.1 hx with h | h
  · exact h1 x h
  · exact h2 x h

theorem parseIPv4Loop_spec (k : Nat) : ∀ (s : List Char) (p r : List Nat),
    parseIPv4Loop k s p = some r →
      (∀ x ∈ s, isDigit x = true ∨ x = '.') ∧ r.length = p.length + k ∧
        ((∀ b ∈ p, b < 256) → ∀ b ∈ r, b < 256) := by
  induction k with
  | zero =>
    intro s p r h
    simp only [parseIPv4Loop] at h
    split at h
    · simp at h
    · rename_i hs
      simp only [ne_eq, List.length_eq_zero, not_not] at hs
      simp only [Option.some.injEq] at h
      subst hs; subst h; simp
  | succ k ih =>
    intro s p r h
    simp only [parseIPv4Loop] at h
    split at h
    · simp at h
    · split at h
      · simp at h
      · rename_i s1 hs1
        rcases hd : dtoi s1 with ⟨n, c, ok⟩
        simp only [hd] at h
        split at h
        · simp at h
        · rename_i hok
          split at h
          · simp at h
          · simp only [Bool.or_eq_true, Bool.not_eq_eq_eq_not, Bool.not_true, decide_eq_true_eq, not_or,
              Bool.not_eq_false, not_lt] at hok
            obtain ⟨hok, hn⟩ := hok
            subst hok
            obtain ⟨h1, h2, h3⟩ := ih _ _ _ h
            obtain ⟨_, hdig⟩ := dtoiLoop_digits s1 0 0 n c hd
            have hs1all : ∀ x ∈ s1, isDigit x = true ∨ x = '.' := by
              apply mem_of_take_drop (fun x => isDigit x = true ∨ x = '.') s1 c
              · intro x hx; exact Or.inl (hdig x (by simpa using hx))
              · exact h1
            refine ⟨?_, by simp at h2; omega, ?_⟩
            rotate_left
            · intro hp
              apply h3
              intro b hb
              rcases List.mem_append.1 hb with hb | hb
              · exact hp b hb
              · simp only [List.mem_singleton] at hb
                omega
            split at hs1
            · split at hs1
              · rename_i c0 t
                split at hs1
                · simp at hs1
                · rename_i hc0
                  simp only [ne_eq, not_not] at hc0
                  simp only [Option.some.injEq] at hs1
                  subst hs1
                  intro x hx
                  rcases List.mem_cons.1 hx with rfl | hx
                  · exact Or.inr hc0
                  · exact hs1all x hx
              · simp at hs1
            · simp only [Option.some.injEq] at hs1
              subst hs1; exact hs1all

theorem parseIPv6Finish_spec (ip : List Nat) (ell : Option Nat) (s : List Char) (r : List Nat)
    (h : parseIPv6Finish ip ell s = some r) (hle : ip.length ≤ 16) :
    s = [] ∧ r.length = 16 ∧ ((∀ b ∈ ip, b < 256) → ∀ b ∈ r, b < 256) := by
  simp only [parseIPv6Finish] at h
  split at h
  · simp at h
  · rename_i hs
    simp only [ne_eq, List.length_eq_zero, not_not] at hs
    refine ⟨hs, ?_⟩
    split at h
    · split at h
      · simp at h
      · rename_i e
        simp only [Option.some.injEq] at h
        subst h
        refine ⟨?_, ?_⟩
        · simp only [List.length_append, List.length_take, List.length_replicate,
            List.length_drop]
          omega
        · intro hb b hm
          simp only [List.mem_append, List.mem_replicate] at hm
          rcases hm with (hm | hm) | hm
          · exact hb b (List.mem_of_mem_take hm)
          · omega
          · exact hb b (List.mem_of_mem_drop hm)
    · split at h
      · simp at h
      · simp only [Option.some.injEq] at h
        subst h
        exact ⟨by omega, fun hb => hb⟩

theorem ipChar_of_hex (x : Char) (h : isHexChar x = true) : ipChar x = true := by
  simp only [isHexChar, Bool.or_eq_true] at h
  simp only [ipChar, Bool.or_eq_true]
  tauto

theorem ipChar_of_digit_or_dot (x : Char) (h : isDigit x = true ∨ x = '.') : ipChar x = true := by
  rcases h with h | h
  · simp [ipChar, h]
  · subst h; decide

theorem parseIPv6Loop_spec (fuel : Nat) : ∀ (ip : List Nat) (ell : Option Nat) (s : List Char)
    (r : List Nat), parseIPv6Loop fuel ip ell s = some r → ip.length % 2 = 0 → ip.length ≤ 16 →
      (∀ x ∈ s, ipChar x = true) ∧ r.length = 16 ∧
        ((∀ b ∈ ip, b < 256) → ∀ b ∈ r, b < 256) := by
  induction fuel with
  | zero =>
    intro ip ell s r h _ hle
    simp only [parseIPv6Loop] at h
    obtain ⟨h1, h2⟩ := parseIPv6Finish_spec _ _ _ _ h hle
    subst h1; exact ⟨by simp, h2⟩
  | succ fuel ih =>
    intro ip ell s r h hev hle
    simp only [parseIPv6Loop] at h
    split at h
    · obtain ⟨h1, h2⟩ := parseIPv6Finish_spec _ _ _ _ h hle
      subst h1; exact ⟨by simp, h2⟩
    · rename_i hlt
      simp only [not_not] at hlt
      rcases hx : xtoi s with ⟨n, c, ok⟩
      simp only [hx] at h
      split at h
      · simp at h
      · rename_i hok
        simp only [Bool.or_eq_true, Bool.not_eq_eq_eq_not, Bool.not_true, decide_eq_true_eq, not_or,
              Bool.not_eq_false, not_lt] at hok
        obtain ⟨hok, _⟩ := hok
        subst hok
        obtain ⟨_, hhex⟩ := xtoiLoop_hex s 0 0 n c hx
        simp only [Nat.sub_zero] at hhex
        have hhex : ∀ x ∈ List.take c s, ipChar x = true :=
          fun x hx => ipChar_of_hex x (hhex x hx)
        split at h
        · -- trailing IPv4
          split at h
          · simp at h
          · split at h
            · simp at h
            · split at h
              · simp at h
              · rename_i p4 hp4
                obtain ⟨hc4, hl4, hb4⟩ := parseIPv4Loop_spec _ _ _ _ hp4
                obtain ⟨_, h2, h3⟩ := parseIPv6Finish_spec _ _ _ _ h (by
                  simp only [List.length_append, hl4, List.length_nil]; omega)
                refine ⟨fun x hx => ipChar_of_digit_or_dot x (hc4 x hx), h2, ?_⟩
                intro hb
                apply h3
                intro b hm
                rcases List.mem_append.1 hm with hm | hm
                · exact hb b hm
                · exact hb4 (by simp) b hm
        · have hip1 : (ip ++ [n / 256 % 256, n % 256]).length % 2 = 0 ∧
              (ip ++ [n / 256 % 256, n % 256]).length ≤ 16 := by
            simp only [List.length_append, List.length_cons, List.length_nil]; omega
          have hb1 : (∀ b ∈ ip, b < 256) → ∀ b ∈ ip ++ [n / 256 % 256, n % 256], b < 256 := by
            intro hb b hm
            rcases List.mem_append.1 hm with hm | hm
            · exact hb b hm
            · simp only [List.mem_cons, List.mem_singleton, List.not_mem_nil, or_false] at hm
              omega
          split at h
          · rename_i hdrop
            obtain ⟨_, h2, h3⟩ := parseIPv6Finish_spec _ _ _ _ h hip1.2
            refine ⟨?_, h2, fun hb => h3 (hb1 hb)⟩
            apply mem_of_take_drop (fun x => ipChar x = true) s c hhex
            rw [hdrop]; simp
          · rename_i c0 s1 hdrop
            split at h
            · simp at h
            · rename_i hc0
              simp only [ne_eq, List.length_eq_zero, not_or, not_not] at hc0
              split at h
              · simp at h
              · rename_i c1 s2
                have hrest : (∀ x ∈ c1 :: s2, ipChar x = true) ∧ r.length = 16 ∧
                    ((∀ b ∈ ip, b < 256) → ∀ b ∈ r, b < 256) := by
                  split at h
                  · rename_i hc1
                    split at h
                    · simp at h
                    · split at h
                      · rename_i hs2
                        simp only [List.length_eq_zero] at hs2
                        obtain ⟨_, h2, h3⟩ := parseIPv6Finish_spec _ _ _ _ h hip1.2
                        subst hs2 hc1
                        exact ⟨by simp; decide, h2, fun hb => h3 (hb1 hb)⟩
                      · obtain ⟨h1, h2, h3⟩ := ih _ _ _ _ h hip1.1 hip1.2
                        subst hc1
                        refine ⟨?_, h2, fun hb => h3 (hb1 hb)⟩
                        intro x hx
                        rcases List.mem_cons.1 hx with rfl | hx
                        · decide
                        · exact h1 x hx
                  · obtain ⟨h1, h2, h3⟩ := ih _ _ _ _ h hip1.1 hip1.2
                    exact ⟨h1, h2, fun hb => h3 (hb1 hb)⟩
                refine ⟨?_, hrest.2⟩
                apply mem_of_take_drop (fun x => ipChar x = true) s c hhex
                rw [hdrop]
                intro x hx
                rcases List.mem_cons.1 hx with rfl | hx
                · rw [hc0.1]; decide
                · exact hrest.1 x hx

theorem parseIPv4_spec (s : List Char) (h : parseIPv4 s ≠ []) :
    (∀ x ∈ s, isDigit x = true ∨ x = '.') ∧ (parseIPv4 s).length = 16 ∧
      To4 (parseIPv4 s) ≠ [] ∧ (∀ b ∈ parseIPv4 s, b < 256) ∧
      ∃ p, parseIPv4Loop 4 s [] = some p ∧ p.length = 4 ∧ parseIPv4 s = mkIPv4 p := by
  simp only [parseIPv4] at h ⊢
  split at h
  · simp at h
  · rename_i p hp
    obtain ⟨h1, h2, h3⟩ := parseIPv4Loop_spec _ _ _ _ hp
    simp only [List.length_nil, Nat.zero_add] at h2
    refine ⟨h1, ?_, ?_, ?_, ?_⟩
    · simp [hp, mkIPv4, v4InV6Pfx, h2]
    · have : p ≠ [] := by intro e; simp [e] at h2
      simp [hp, mkIPv4, v4InV6Pfx, To4, h2, this]
    · simp only [hp, mkIPv4]
      intro b hm
      rcases List.mem_append.1 hm with hm | hm
      · have : ∀ b ∈ v4InV6Pfx, b < 256 := by decide
        exact this b hm
      · exact h3 (by simp) b hm
    · exact ⟨p, by simp [hp], h2, by simp [hp]⟩

theorem parseIPv6_spec (s : List Char) (h : parseIPv6 s ≠ []) :
    (∀ x ∈ s, ipChar x = true) ∧ (parseIPv6 s).length = 16 ∧ ∀ b ∈ parseIPv6 s, b < 256 := by
  have key : ∀ (ell : Option Nat) (t : List Char),
      (match parseIPv6Loop 8 [] ell t with | none => [] | some ip => ip) ≠ [] →
      (∀ x ∈ t, ipChar x = true) ∧
        (match parseIPv6Loop 8 [] ell t with | none => ([] : List Nat) | some ip => ip).length
          = 16 ∧
        ∀ b ∈ (match parseIPv6Loop 8 [] ell t with | none => ([] : List Nat) | some ip => ip),
          b < 256 := by
    intro ell t ht
    cases hr : parseIPv6Loop 8 [] ell t with
    | none => simp [hr] at ht
    | some r =>
      obtain ⟨h1, h2, h3⟩ := parseIPv6Loop_spec _ _ _ _ _ hr (by simp) (by simp)
      exact ⟨h1, by simpa using h2, by simpa using h3⟩
  unfold parseIPv6 at h ⊢
  split at h
  · rename_i c0 c1 t
    by_cases hcc : c0 = ':' ∧ c1 = ':'
    · simp only [hcc, and_self, if_true] at h ⊢
      by_cases ht : t.length = 0
      · simp only [ht, if_true] at h ⊢
        simp only [List.length_eq_zero] at ht
        subst ht
        exact ⟨by simp; decide, by simp, by simp⟩
      · simp only [ht, if_false] at h ⊢
        obtain ⟨h1, h2⟩ := key _ _ h
        refine ⟨?_, h2⟩
        intro x hx
        rcases List.mem_cons.1 hx with rfl | hx
        · decide
        rcases List.mem_cons.1 hx with rfl | hx
        · decide
        · exact h1 x hx
    · simp only [hcc, if_false] at h ⊢
      exact key _ _ h
  · exact key _ _ h

theorem ParseIP_go_spec (whole : List Char) : ∀ (s : List Char), ParseIP.go whole s ≠ [] →
    (∀ x ∈ whole, ipChar x = true) ∧ (ParseIP.go whole s).length = 16 ∧
      ∀ b ∈ ParseIP.go whole s, b < 256 := by
  intro s
  induction s with
  | nil => intro h; simp [ParseIP.go] at h
  | cons c cs ih =>
    intro h
    simp only [ParseIP.go] at h ⊢
    split at h
    · rename_i hc
      simp only [hc, if_true]
      obtain ⟨h1, h2, _, h3, _⟩ := parseIPv4_spec whole h
      exact ⟨fun x hx => ipChar_of_digit_or_dot x (h1 x hx), h2, h3⟩
    · rename_i hc
      simp only [hc, if_false]
      split at h
      · rename_i hc'
        simp only [hc', if_true]
        exact parseIPv6_spec whole h
      · rename_i hc'
        simp only [hc', if_false]
        exact ih h

theorem ParseIP_spec (s : List Char) (h : ParseIP s ≠ []) :
    (∀ x ∈ s, ipChar x = true) ∧ (ParseIP s).length = 16 ∧ ∀ b ∈ ParseIP s, b < 256 :=
  ParseIP_go_spec s s h

theorem ParseIP_no_comma (s : List Char) (h : ParseIP s ≠ []) : ',' ∉ s := by
  intro hm
  have := (ParseIP_spec s h).1 _ hm
  revert this; decide

theorem ParseIP_no_slash (s : List Char) (h : ParseIP s ≠ []) : '/' ∉ s := by
  intro hm
  have := (ParseIP_spec s h).1 _ hm
  revert this; decide

theorem To4_ne_nil_imp (ip : List Nat) (h : To4 ip ≠ []) : ip ≠ [] := by
  intro e; subst e; simp [To4] at h

theorem To16_ne_nil_of_length (ip : List Nat) (h : ip.length = 16) : To16 ip ≠ [] := by
  have : ip ≠ [] := by intro e; simp [e] at h
  simp [To16, h, this]

theorem isDigit_ne_colon (c : Char) (h : isDigit c = true) : c ≠ ':' ∧ c ≠ '.' := by
  constructor
  · rintro rfl; revert h; decide
  · rintro rfl; revert h; decide

theorem isHexChar_ne_sep (c : Char) (h : isHexChar c = true) : c ≠ ':' ∧ c ≠ '.' := by
  constructor
  · rintro rfl; revert h; decide
  · rintro rfl; revert h; decide

theorem ParseIP_go_v4 (whole : List Char) : ∀ (t : List Char),
    (∀ x ∈ t, isDigit x = true ∨ x = '.') → '.' ∈ t → ParseIP.go whole t = parseIPv4 whole := by
  intro t
  induction t with
  | nil => intro _ h; simp at h
  | cons c cs ih =>
    intro hall hdot
    simp only [ParseIP.go]
    by_cases hc : c = '.'
    · simp [hc]
    · have hd : isDigit c = true := by
        rcases hall c (by simp) with h | h
        · exact h
        · exact absurd h hc
      have hcol := (isDigit_ne_colon c hd).1
      simp only [hc, hcol, if_false]
      apply ih
      · intro x hx; exact hall x (List.mem_cons_of_mem _ hx)
      · rcases List.mem_cons.1 hdot with h | h
        · exact absurd h.symm hc
        · exact h

theorem ParseIP_go_v6 (whole : List Char) : ∀ (pre rest : List Char),
    (∀ x ∈ pre, isHexChar x = true) → ParseIP.go whole (pre ++ ':' :: rest) = parseIPv6 whole := by
  intro pre
  induction pre with
  | nil => intro rest _; simp [ParseIP.go]
  | cons c cs ih =>
    intro rest hall
    have hc := isHexChar_ne_sep c (hall c (by simp))
    simp only [List.cons_append, ParseIP.go, hc.1, hc.2, if_false]
    exact ih rest (fun x hx => hall x (List.mem_cons_of_mem _ hx))

theorem parseIPv4Loop_head_dot (k : Nat) (s : List Char) (p r : List Nat)
    (h : parseIPv4Loop (k + 1) s p = some r) (hp : p.length > 0) : '.' ∈ s := by
  simp only [parseIPv4Loop] at h
  split at h
  · simp at h
  · cases s with
    | nil => simp at h
    | cons c t =>
      by_cases hc : c = '.'
      · simp [hc]
      · simp [hc] at h

theorem parseIPv4Loop_has_dot (k : Nat) (s : List Char) (r : List Nat)
    (h : parseIPv4Loop (k + 2) s [] = some r) : '.' ∈ s := by
  unfold parseIPv4Loop at h
  split at h
  · simp at h
  · simp only [List.length_nil, gt_iff_lt, Nat.lt_irrefl, if_false] at h
    rcases hd : dtoi s with ⟨n, c, ok⟩
    simp only [hd] at h
    split at h
    · simp at h
    · split at h
      · simp at h
      · have := parseIPv4Loop_head_dot k _ _ _ h (by simp)
        exact List.mem_of_mem_drop this

theorem ParseIP_eq_parseIPv4 (s : List Char) (h : parseIPv4 s ≠ []) :
    ParseIP s = parseIPv4 s := by
  obtain ⟨h1, _, _, _, p, hp, _⟩ := parseIPv4_spec s h
  exact ParseIP_go_v4 s s h1 (parseIPv4Loop_has_dot 2 s p hp)

theorem parseIPv6Loop_first_colon (fuel : Nat) (s : List Char) (r : List Nat)
    (h : parseIPv6Loop (fuel + 1) [] none s = some r) :
    ∃ pre rest, s = pre ++ ':' :: rest ∧ ∀ x ∈ pre, isHexChar x = true := by
  simp only [parseIPv6Loop] at h
  simp only [List.length_nil, Nat.zero_lt_succ, not_true_eq_false, if_false] at h
  rcases hx : xtoi s with ⟨n, c, ok⟩
  simp only [hx] at h
  split at h
  · simp at h
  · rename_i hok
    simp only [Bool.or_eq_true, Bool.not_eq_eq_eq_not, Bool.not_true, decide_eq_true_eq, not_or,
          Bool.not_eq_false, not_lt] at hok
    obtain ⟨hok, _⟩ := hok
    subst hok
    obtain ⟨_, hhex⟩ := xtoiLoop_hex s 0 0 n c hx
    simp only [Nat.sub_zero] at hhex
    split at h
    · simp at h
    · split at h
      · simp [parseIPv6Finish] at h
      · rename_i c0 s1 hdrop
        split at h
        · simp at h
        · rename_i hc0
          simp only [ne_eq, List.length_eq_zero, not_or, not_not] at hc0
          refine ⟨s.take c, s1, ?_, hhex⟩
          rw [← hc0.1, ← hdrop, List.take_append_drop]

theorem ParseIP_eq_parseIPv6 (s : List Char) (h : parseIPv6 s ≠ []) :
    ParseIP s = parseIPv6 s := by
  have key : ∀ r, parseIPv6Loop 8 [] none s = some r → ParseIP s = parseIPv6 s := by
    intro r hr
    obtain ⟨pre, rest, hs, hpre⟩ := parseIPv6Loop_first_colon 7 s r hr
    have := ParseIP_go_v6 s pre rest hpre
    rw [← hs] at this
    exact this
  have key2 : (match parseIPv6Loop 8 [] none s with | none => ([] : List Nat) | some ip => ip) ≠ [] →
      ParseIP s = parseIPv6 s := by
    intro h2
    cases hr : parseIPv6Loop 8 [] none s with
    | none => simp [hr] at h2
    | some r => exact key r hr
  unfold parseIPv6 at h
  split at h
  · rename_i c0 c1 t
    by_cases hcc : c0 = ':' ∧ c1 = ':'
    · obtain ⟨rfl, rfl⟩ := hcc
      simp [ParseIP, ParseIP.go]
    · simp only [hcc, if_false] at h
      exact key2 h
  · exact key2 h

theorem split1_headD (sep : Char) (s : List Char) :
    (split1 sep s).headD [] = s.takeWhile (· ≠ sep) := by
  induction s with
  | nil => simp [split1]
  | cons c cs ih =>
    simp only [split1]
    by_cases hc : c = sep
    · simp [hc]
    · simp only [hc, if_false]
      have : (consHead c (split1 sep cs)).headD [] = c :: (split1 sep cs).headD [] := by
        cases split1 sep cs <;> simp [consHead]
      rw [this, ih]
      simp [List.takeWhile, hc]

theorem dropWhile_ne_of_mem (sep : Char) (s : List Char) (h : sep ∈ s) :
    s.dropWhile (· ≠ sep) = sep :: (s.dropWhile (· ≠ sep)).drop 1 := by
  induction s with
  | nil => simp at h
  | cons c cs ih =>
    by_cases hc : c = sep
    · simp [List.dropWhile, hc]
    · have : sep ∈ cs := by
        rcases List.mem_cons.1 h with h | h
        · exact absurd h.symm hc
        · exact h
      simp only [List.dropWhile, ne_eq, hc, not_false_eq_true, decide_True]
      exact ih this

theorem length_cidrMaskLoop (l : Nat) : ∀ n, (cidrMaskLoop l n).length = l := by
  induction l with
  | zero => intro n; simp [cidrMaskLoop]
  | succ l ih =>
    intro n
    simp only [cidrMaskLoop]
    split <;> simp [ih]

theorem length_andBytes : ∀ (a b : List Nat), a.length = b.length →
    (andBytes a b).length = a.length := by
  intro a
  induction a with
  | nil => intro b _; simp [andBytes]
  | cons x xs ih =>
    intro b hb
    cases b with
    | nil => simp at hb
    | cons y ys =>
      simp only [List.length_cons, add_left_inj] at hb
      simp [andBytes, ih ys hb]

theorem ParseCIDR_spec (c : List Char) (ip : List Nat) (net : IPNet)
    (h : ParseCIDR c = some (ip, net)) :
    ip = ParseIP (c.takeWhile (· ≠ '/')) ∧ ip ≠ [] ∧ (∀ x ∈ c, ipChar x = true ∨ x = '/') ∧
    ∃ n, (parseIPv4 (c.takeWhile (· ≠ '/')) ≠ [] ∧ n ≤ 32 ∧
            net = { IP := ipMask ip (CIDRMask n 32), Mask := CIDRMask n 32 }) ∨
         (parseIPv4 (c.takeWhile (· ≠ '/')) = [] ∧ n ≤ 128 ∧
            net = { IP := ipMask ip (CIDRMask n 128), Mask := CIDRMask n 128 }) := by
  unfold ParseCIDR at h
  by_cases hslash : '/' ∈ c
  swap
  · simp [hslash] at h
  simp only [hslash, not_true_eq_false, if_false] at h
  rcases hd : dtoi ((c.dropWhile (· ≠ '/')).drop 1) with ⟨n, i, ok⟩
  simp only [hd] at h
  have hmask : ok = true → i = ((c.dropWhile (· ≠ '/')).drop 1).length →
      ∀ x ∈ c, x ∉ c.takeWhile (· ≠ '/') → ipChar x = true ∨ x = '/' := by
    intro hok hi x hx hnot
    subst hok
    obtain ⟨_, hdig⟩ := dtoiLoop_digits _ 0 0 n i hd
    simp only [Nat.sub_zero] at hdig
    rw [hi, List.take_length] at hdig
    rw [← List.takeWhile_append_dropWhile (· ≠ '/') c, dropWhile_ne_of_mem _ _ hslash] at hx
    rcases List.mem_append.1 hx with hx | hx
    · exact absurd hx hnot
    · rcases List.mem_cons.1 hx with rfl | hx
      · right; rfl
      · left; exact ipChar_of_digit_or_dot x (Or.inl (hdig x hx))
  by_cases h4 : parseIPv4 (c.takeWhile (· ≠ '/')) = []
  · simp only [h4, if_true] at h
    split at h
    · simp at h
    · rename_i hcond
      simp only [not_or, Bool.not_eq_true, Bool.not_eq_false', ne_eq, not_not, not_lt] at hcond
      obtain ⟨hip, hok, hi, hn⟩ := hcond
      simp only [Option.some.injEq, Prod.mk.injEq] at h
      obtain ⟨h1, h2⟩ := h
      refine ⟨?_, ?_, ?_, n, Or.inr ⟨h4, by omega, ?_⟩⟩
      · rw [← h1, ParseIP_eq_parseIPv6 _ hip]
      · rw [← h1]; exact hip
      · intro x hx
        by_cases hm : x ∈ c.takeWhile (· ≠ '/')
        · exact Or.inl ((parseIPv6_spec _ hip).1 x hm)
        · exact hmask hok hi x hx hm
      · rw [← h2, ← h1]
  · simp only [h4, if_false] at h
    split at h
    · simp at h
    · rename_i hcond
      simp only [not_or, Bool.not_eq_true, Bool.not_eq_false', ne_eq, not_not, not_lt] at hcond
      obtain ⟨hip, hok, hi, hn⟩ := hcond
      simp only [Option.some.injEq, Prod.mk.injEq] at h
      obtain ⟨h1, h2⟩ := h
      refine ⟨?_, ?_, ?_, n, Or.inl ⟨h4, by omega, ?_⟩⟩
      · rw [← h1, ParseIP_eq_parseIPv4 _ h4]
      · rw [← h1]; exact h4
      · intro x hx
        by_cases hm : x ∈ c.takeWhile (· ≠ '/')
        · exact Or.inl (ipChar_of_digit_or_dot x ((parseIPv4_spec _ h4).1 x hm))
        · exact hmask hok hi x hx hm
      · rw [← h2, ← h1]

theorem setBytes_foldl (bs : List Nat) : ∀ acc,
    bs.foldl (fun acc b => acc * 256 + b) acc = acc * 256 ^ bs.length + setBytes bs := by
  induction bs with
  | nil => intro acc; simp [setBytes]
  | cons b bs ih =>
    intro acc
    simp only [List.foldl_cons, List.length_cons, setBytes]
    rw [ih, ih (0 * 256 + b)]
    ring

theorem setBytes_cons (b : Nat) (bs : List Nat) :
    setBytes (b :: bs) = b * 256 ^ bs.length + setBytes bs := by
  simp only [setBytes, List.foldl_cons]
  rw [setBytes_foldl]
  simp [setBytes]

theorem setBytes_nil : setBytes [] = 0 := rfl

theorem setBytes_lt (bs : List Nat) (h : ∀ b ∈ bs, b < 256) : setBytes bs < 256 ^ bs.length := by
  induction bs with
  | nil => simp [setBytes]
  | cons b bs ih =>
    rw [setBytes_cons, List.length_cons, pow_succ]
    have h1 := ih (fun x hx => h x (List.mem_cons_of_mem _ hx))
    have h2 : b < 256 := h b (by simp)
    nlinarith

theorem setBytes_inj : ∀ (as bs : List Nat), as.length = bs.length →
    (∀ b ∈ as, b < 256) → (∀ b ∈ bs, b < 256) → setBytes as = setBytes bs → as = bs := by
  intro as
  induction as with
  | nil =>
    intro bs hl _ _ _
    cases bs with
    | nil => rfl
    | cons _ _ => simp at hl
  | cons a as ih =>
    intro bs hl ha hb he
    cases bs with
    | nil => simp at hl
    | cons b bs =>
      simp only [List.length_cons, add_left_inj] at hl
      rw [setBytes_cons, setBytes_cons, hl] at he
      have h1 := setBytes_lt as (fun x hx => ha x (List.mem_cons_of_mem _ hx))
      have h2 := setBytes_lt bs (fun x hx => hb x (List.mem_cons_of_mem _ hx))
      rw [hl] at h1
      have hpos : 0 < 256 ^ bs.length := by positivity
      have hab : a = b := by
        have e1 : (a * 256 ^ bs.length + setBytes as) / 256 ^ bs.length = a := by
          rw [Nat.add_comm, Nat.add_mul_div_right _ _ hpos, Nat.div_eq_of_lt h1]; simp
        have e2 : (b * 256 ^ bs.length + setBytes bs) / 256 ^ bs.length = b := by
          rw [Nat.add_comm, Nat.add_mul_div_right _ _ hpos, Nat.div_eq_of_lt h2]; simp
        rw [← e1, ← e2, he]
      subst hab
      have : setBytes as = setBytes bs := by omega
      rw [ih bs hl (fun x hx => ha x (List.mem_cons_of_mem _ hx))
        (fun x hx => hb x (List.mem_cons_of_mem _ hx)) this]

set_option maxRecDepth 100000 in
theorem byte_and_mask : ∀ b, b < 256 → ∀ n, n < 8 →
    b &&& (0xff - 0xff / 2 ^ n) = b / 2 ^ (8 - n) * 2 ^ (8 - n) := by
  decide

set_option maxRecDepth 100000 in
theorem byte_and_ff (b : Nat) (h : b < 256) : b &&& 0xff = b := by
  have : ∀ b, b < 256 → b &&& 0xff = b := by decide
  exact this b h

theorem andBytes_lt : ∀ (as bs : List Nat), (∀ b ∈ as, b < 256) →
    ∀ b ∈ andBytes as bs, b < 256 := by
  intro as
  induction as with
  | nil => intro bs _ b hb; simp [andBytes] at hb
  | cons a as ih =>
    intro bs ha b hb
    cases bs with
    | nil => simp [andBytes] at hb
    | cons c cs =>
      simp only [andBytes, List.mem_cons] at hb
      rcases hb with rfl | hb
      · exact lt_of_le_of_lt Nat.and_le_left (ha a (by simp))
      · exact ih cs (fun x hx => ha x (List.mem_cons_of_mem _ hx)) b hb

theorem setBytes_andBytes_mask (l : Nat) : ∀ (n : Nat) (bs : List Nat), bs.length = l →
    (∀ b ∈ bs, b < 256) → n ≤ 8 * l →
    setBytes (andBytes bs (cidrMaskLoop l n)) =
      setBytes bs / 2 ^ (8 * l - n) * 2 ^ (8 * l - n) := by
  induction l with
  | zero =>
    intro n bs hl _ hn
    have : bs = [] := List.length_eq_zero.1 hl
    subst this
    simp [andBytes, cidrMaskLoop, setBytes]
  | succ l ih =>
    intro n bs hl hb hn
    cases bs with
    | nil => simp at hl
    | cons b bs =>
      simp only [List.length_cons, add_left_inj] at hl
      have hb0 : b < 256 := hb b (by simp)
      have hbs : ∀ x ∈ bs, x < 256 := fun x hx => hb x (List.mem_cons_of_mem _ hx)
      have hS := setBytes_lt bs hbs
      rw [hl] at hS
      have h256 : (256 : Nat) ^ l = 2 ^ (8 * l) := by
        rw [show (256 : Nat) = 2 ^ 8 by norm_num, ← pow_mul]
      by_cases h8 : n ≥ 8
      · simp only [cidrMaskLoop, h8, if_true, andBytes]
        rw [setBytes_cons, setBytes_cons, byte_and_ff b hb0,
          length_andBytes _ _ (by rw [length_cidrMaskLoop, hl]), hl,
          ih (n - 8) bs hl hbs (by omega)]
        have hh : 8 * (l + 1) - n = 8 * l - (n - 8) := by omega
        rw [hh]
        generalize 8 * l - (n - 8) = h at *
        have hle : h ≤ 8 * l := by omega
        have hsplit : (256 : Nat) ^ l = 2 ^ (8 * l - h) * 2 ^ h := by
          rw [h256, ← pow_add]; congr 1; omega
        have hpos : 0 < 2 ^ h := by positivity
        have key : (b * 256 ^ l + setBytes bs) / 2 ^ h = b * 2 ^ (8 * l - h) + setBytes bs / 2 ^ h := by
          rw [hsplit, ← Nat.mul_assoc, Nat.add_comm, Nat.add_mul_div_right _ _ hpos, Nat.add_comm]
        rw [key, Nat.add_mul, Nat.mul_assoc, ← hsplit]
      · have h8 : n < 8 := by omega
        have hz : cidrMaskLoop l 0 = List.replicate l 0 := by
          clear ih hl hS h256 hn
          induction l with
          | zero => simp [cidrMaskLoop]
          | succ l ih2 => simp [cidrMaskLoop, ih2, List.replicate_succ]
        have hzero : setBytes (andBytes bs (cidrMaskLoop l 0)) = 0 := by
          rw [ih 0 bs hl hbs (by omega)]
          simp only [Nat.sub_zero]
          rw [← h256, Nat.div_eq_of_lt hS]; simp
        simp only [cidrMaskLoop, show ¬ n ≥ 8 by omega, if_false, andBytes]
        rw [setBytes_cons, setBytes_cons, byte_and_mask b hb0 n h8,
          length_andBytes _ _ (by rw [length_cidrMaskLoop, hl]), hl, hzero, Nat.add_zero]
        have hh : 8 * (l + 1) - n = 8 * l + (8 - n) := by omega
        have hpos : 0 < 256 ^ l := by positivity
        have e1 : (b * 256 ^ l + setBytes bs) / 256 ^ l = b := by
          rw [Nat.add_comm, Nat.add_mul_div_right _ _ hpos, Nat.div_eq_of_lt hS]; simp
        have key : (b * 256 ^ l + setBytes bs) / 2 ^ (8 * (l + 1) - n) = b / 2 ^ (8 - n) := by
          rw [hh, pow_add, ← Nat.div_div_eq_div_mul, ← h256, e1]
        rw [key, hh, pow_add, ← h256]
        ring

theorem CIDRMask_32 (n : Nat) (h : n ≤ 32) : CIDRMask n 32 = cidrMaskLoop 4 n := by
  simp [CIDRMask, show ¬ n > 32 by omega]

theorem CIDRMask_128 (n : Nat) (h : n ≤ 128) : CIDRMask n 128 = cidrMaskLoop 16 n := by
  simp [CIDRMask, show ¬ n > 128 by omega]

theorem ipMask_v4 (p m : List Nat) (hp : p.length = 4) (hm : m.length = 4) :
    ipMask (mkIPv4 p) m = andBytes p m := by
  simp [ipMask, hm, mkIPv4, v4InV6Pfx, hp]

theorem ipMask_v6 (ip m : List Nat) (hp : ip.length = 16) (hm : m.length = 16) :
    ipMask ip m = andBytes ip m := by
  simp [ipMask, hm, hp]

theorem andBytes_idem : ∀ (a m : List Nat), andBytes (andBytes a m) m = andBytes a m := by
  intro a
  induction a with
  | nil => intro m; simp [andBytes]
  | cons x xs ih =>
    intro m
    cases m with
    | nil => simp [andBytes]
    | cons y ys => simp [andBytes, ih ys, Nat.land_assoc]

theorem andBytes_take (k : Nat) : ∀ (a m : List Nat),
    (andBytes a m).take k = andBytes (a.take k) (m.take k) := by
  induction k with
  | zero => intro a m; simp [andBytes]
  | succ k ih =>
    intro a m
    cases a with
    | nil => simp [andBytes]
    | cons x xs =>
      cases m with
      | nil => simp [andBytes]
      | cons y ys => simp [andBytes, ih xs ys]

theorem andBytes_ff : ∀ (a : List Nat), (∀ b ∈ a, b < 256) →
    andBytes a (List.replicate a.length 0xff) = a := by
  intro a
  induction a with
  | nil => intro _; simp [andBytes]
  | cons x xs ih =>
    intro h
    simp only [List.length_cons, List.replicate_succ, andBytes]
    rw [byte_and_ff x (h x (by simp)), ih (fun b hb => h b (List.mem_cons_of_mem _ hb))]

theorem andBytes_getD : ∀ (a m : List Nat) (i : Nat),
    (andBytes a m).getD i 0 = a.getD i 0 &&& m.getD i 0 := by
  intro a
  induction a with
  | nil => intro m i; simp [andBytes]
  | cons x xs ih =>
    intro m i
    cases m with
    | nil => simp [andBytes]
    | cons y ys =>
      cases i with
      | zero => simp [andBytes]
      | succ i => simpa [andBytes] using ih ys i

set_option maxRecDepth 100000 in
theorem mask16_low (n : Nat) (h : n < 96) : (cidrMaskLoop 16 n).getD 11 0 < 255 := by
  have : ∀ n, n < 96 → (cidrMaskLoop 16 n).getD 11 0 < 255 := by decide
  exact this n h

set_option maxRecDepth 100000 in
theorem mask16_high (n : Nat) (h1 : 96 ≤ n) (h2 : n ≤ 128) :
    (cidrMaskLoop 16 n).take 12 = List.replicate 12 0xff := by
  have : ∀ n, n < 129 → 96 ≤ n → (cidrMaskLoop 16 n).take 12 = List.replicate 12 0xff := by
    decide
  exact this n (by omega) h1

theorem To4_eq_nil_iff (ip : List Nat) (h : ip.length = 16) :
    To4 ip = [] ↔ ip.take 12 ≠ v4InV6Pfx := by
  have hne : ip.drop 12 ≠ [] := by
    intro e
    have := congrArg List.length e
    simp [h] at this
  by_cases hp : ip.take 12 = v4InV6Pfx <;> simp [To4, h, hp, hne]

theorem To4_masked_v6 (ip : List Nat) (n : Nat) (hl : ip.length = 16) (hb : ∀ b ∈ ip, b < 256)
    (hn : n ≤ 128) (h4 : To4 ip = []) : To4 (andBytes ip (cidrMaskLoop 16 n)) = [] := by
  have hlen : (andBytes ip (cidrMaskLoop 16 n)).length = 16 := by
    rw [length_andBytes _ _ (by rw [length_cidrMaskLoop, hl]), hl]
  rw [To4_eq_nil_iff _ hlen]
  rw [To4_eq_nil_iff _ hl] at h4
  intro hpfx
  by_cases h96 : n < 96
  · have h11 : ((andBytes ip (cidrMaskLoop 16 n)).take 12).getD 11 0 = 255 := by
      rw [hpfx]; rfl
    rw [List.getD_eq_getElem?_getD, List.getElem?_take_of_lt (by omega),
      ← List.getD_eq_getElem?_getD, andBytes_getD] at h11
    have := mask16_low n h96
    have h2 : ip.getD 11 0 &&& (cidrMaskLoop 16 n).getD 11 0 ≤ (cidrMaskLoop 16 n).getD 11 0 :=
      Nat.and_le_right
    omega
  · apply h4
    rw [andBytes_take, mask16_high n (by omega) hn] at hpfx
    have hl12 : (ip.take 12).length = 12 := by simp [hl]
    have := andBytes_ff (ip.take 12) (fun b hm => hb b (List.mem_of_mem_take hm))
    rw [hl12] at this
    rw [← this]; exact hpfx

theorem To4_lt (x : List Nat) (hx : ∀ b ∈ x, b < 256) : ∀ b ∈ To4 x, b < 256 := by
  intro b hb
  simp only [To4] at hb
  split at hb
  · exact hx b hb
  · split at hb
    · exact hx b (List.mem_of_mem_drop hb)
    · simp at hb

theorem ipBytes_lt (x : List Nat) (hx : ∀ b ∈ x, b < 256) : ∀ b ∈ ipBytes x, b < 256 := by
  intro b hb
  simp only [ipBytes] at hb
  split at hb
  · exact To4_lt x hx b hb
  · exact hx b hb

/-- Membership in a network, numerically: the address has the length of
the network and agrees with it on the `n` leading bits. -/
theorem contains_iff (l n : Nat) (p x : List Nat) (hl : l = 4 ∨ l = 16) (hp : p.length = l)
    (hb : ∀ b ∈ p, b < 256) (hn : n ≤ 8 * l)
    (h6 : l = 16 → To4 (andBytes p (cidrMaskLoop l n)) = []) (hx : ∀ b ∈ x, b < 256) :
    IPNet.Contains { IP := andBytes p (cidrMaskLoop l n), Mask := cidrMaskLoop l n } x = true ↔
      (ipBytes x).length = l ∧
        setBytes (ipBytes x) / 2 ^ (8 * l - n) = setBytes p / 2 ^ (8 * l - n) := by
  have hlen : (andBytes p (cidrMaskLoop l n)).length = l := by
    rw [length_andBytes _ _ (by rw [length_cidrMaskLoop, hp]), hp]
  have hnm : networkNumberAndMask { IP := andBytes p (cidrMaskLoop l n), Mask := cidrMaskLoop l n }
      = (andBytes p (cidrMaskLoop l n), cidrMaskLoop l n) := by
    rcases hl with rfl | rfl
    · have h4 : To4 (andBytes p (cidrMaskLoop 4 n)) = andBytes p (cidrMaskLoop 4 n) := by
        simp [To4, hlen]
      have hne : andBytes p (cidrMaskLoop 4 n) ≠ [] := by
        intro e; rw [e] at hlen; simp at hlen
      simp [networkNumberAndMask, h4, hne, hlen, length_cidrMaskLoop]
    · simp [networkNumberAndMask, h6 rfl, hlen, length_cidrMaskLoop]
  have hpos : 0 < 2 ^ (8 * l - n) := by positivity
  simp only [IPNet.Contains, hnm, andBytes_idem]
  have hfold : (if To4 x ≠ [] then To4 x else x) = ipBytes x := rfl
  rw [hfold, hlen]
  by_cases hxl : (ipBytes x).length = l
  · simp only [hxl, ne_eq, not_true_eq_false, if_false, beq_iff_eq, true_and]
    have hxb := ipBytes_lt x hx
    constructor
    · intro he
      have := congrArg setBytes he
      rw [setBytes_andBytes_mask l n p hp hb hn,
        setBytes_andBytes_mask l n (ipBytes x) hxl hxb hn] at this
      exact (Nat.eq_of_mul_eq_mul_right hpos this).symm
    · intro he
      apply setBytes_inj
      · rw [hlen, length_andBytes _ _ (by rw [length_cidrMaskLoop, hxl]), hxl]
      · exact andBytes_lt _ _ hb
      · exact andBytes_lt _ _ hxb
      · rw [setBytes_andBytes_mask l n p hp hb hn,
          setBytes_andBytes_mask l n (ipBytes x) hxl hxb hn, he]
  · simp [hxl]

theorem div_pow_mono (X Y h1 h2 : Nat) (hle : h1 ≤ h2) (h : X / 2 ^ h1 = Y / 2 ^ h1) :
    X / 2 ^ h2 = Y / 2 ^ h2 := by
  have e : h2 = h1 + (h2 - h1) := by omega
  rw [e, pow_add, ← Nat.div_div_eq_div_mul, ← Nat.div_div_eq_div_mul, h]

theorem floor_div_pow (X h1 h2 : Nat) (hle : h1 ≤ h2) :
    (X / 2 ^ h1 * 2 ^ h1) / 2 ^ h2 = X / 2 ^ h2 := by
  have e : h2 = h1 + (h2 - h1) := by omega
  have hpos : 0 < 2 ^ h1 := by positivity
  rw [e, pow_add, ← Nat.div_div_eq_div_mul, ← Nat.div_div_eq_div_mul,
    Nat.mul_div_cancel _ hpos]

theorem floor_div_self (X h : Nat) : (X / 2 ^ h * 2 ^ h) / 2 ^ h = X / 2 ^ h :=
  floor_div_pow X h h (le_refl _)

theorem ipBytes_of_length4 (p : List Nat) (h : p.length = 4) : ipBytes p = p := by
  simp [ipBytes, To4, h]

theorem ipBytes_of_To4_nil (p : List Nat) (h : To4 p = []) : ipBytes p = p := by
  simp [ipBytes, h]

theorem decValue_ge (ds : List Char) : ∀ n, n ≤ decValue n ds := by
  induction ds with
  | nil => intro n; simp [decValue]
  | cons c cs ih =>
    intro n
    simp only [decValue, List.foldl_cons]
    have := ih (n * 10 + (c.toNat - 48))
    simp only [decValue] at this
    omega

theorem hexValue_ge (ds : List Char) : ∀ n, n ≤ hexValue n ds := by
  induction ds with
  | nil => intro n; simp [hexValue]
  | cons c cs ih =>
    intro n
    simp only [hexValue, List.foldl_cons]
    have := ih (n * 16 + (if isDigit c then c.toNat - 48 else if isLowerHex c then c.toNat - 97 + 10
     else c.toNat - 65 + 10))
    simp only [hexValue] at this
    omega

theorem dtoiLoop_append (ds : List Char) : ∀ (n i : Nat) (rest : List Char),
    (∀ x ∈ ds, isDigit x = true) → (∀ c, rest.head? = some c → isDigit c = false) →
    decValue n ds < parseBig → 0 < i + ds.length →
    dtoiLoop (ds ++ rest) n i = (decValue n ds, i + ds.length, true) := by
  induction ds with
  | nil =>
    intro n i rest _ hrest _ hpos
    simp only [List.nil_append, List.length_nil, Nat.add_zero, decValue, List.foldl_nil] at hpos ⊢
    cases rest with
    | nil => simp [dtoiLoop]; omega
    | cons c cs =>
      have := hrest c rfl
      simp [dtoiLoop, this]; omega
  | cons d ds ih =>
    intro n i rest hds hrest hval hpos
    have hd : isDigit d = true := hds d (by simp)
    have hval' : decValue (n * 10 + (d.toNat - 48)) ds < parseBig := by
      simpa [decValue] using hval
    have hlt : ¬ (n * 10 + (d.toNat - 48) ≥ parseBig) := by
      have := decValue_ge ds (n * 10 + (d.toNat - 48))
      omega
    have ih' := ih (n * 10 + (d.toNat - 48)) (i + 1) rest
      (fun x hx => hds x (List.mem_cons_of_mem _ hx)) hrest hval' (by omega)
    have hfin : decValue n (d :: ds) = decValue (n * 10 + (d.toNat - 48)) ds := by
      simp [decValue]
    have hlen : i + (d :: ds).length = i + 1 + ds.length := by simp; omega
    rw [hfin, hlen, ← ih']
    simp only [List.cons_append, dtoiLoop, hd, if_true]
    rw [if_neg hlt]
    rfl

theorem xtoiLoop_append (ds : List Char) : ∀ (n i : Nat) (rest : List Char),
    (∀ x ∈ ds, isHexChar x = true) → (∀ c, rest.head? = some c → isHexChar c = false) →
    hexValue n ds < parseBig → 0 < i + ds.length →
    xtoiLoop (ds ++ rest) n i = (hexValue n ds, i + ds.length, true) := by
  induction ds with
  | nil =>
    intro n i rest _ hrest _ hpos
    simp only [List.nil_append, List.length_nil, Nat.add_zero, hexValue, List.foldl_nil] at hpos ⊢
    cases rest with
    | nil => simp [xtoiLoop]; omega
    | cons c cs =>
      have := hrest c rfl
      simp only [isHexChar, Bool.or_eq_false_iff] at this
      simp [xtoiLoop, this]; omega
  | cons d ds ih =>
    intro n i rest hds hrest hval hpos
    have hd : isHexChar d = true := hds d (by simp)
    have hval' : hexValue (n * 16 + (if isDigit d then d.toNat - 48
        else if isLowerHex d then d.toNat - 97 + 10 else d.toNat - 65 + 10)) ds < parseBig := by
      simpa [hexValue] using hval
    have hge := hexValue_ge ds (n * 16 + (if isDigit d then d.toNat - 48
        else if isLowerHex d then d.toNat - 97 + 10 else d.toNat - 65 + 10))
    have ih' := ih (n * 16 + (if isDigit d then d.toNat - 48
        else if isLowerHex d then d.toNat - 97 + 10 else d.toNat - 65 + 10)) (i + 1) rest
      (fun x hx => hds x (List.mem_cons_of_mem _ hx)) hrest hval' (by omega)
    have hfin : hexValue n (d :: ds) = hexValue (n * 16 + (if isDigit d then d.toNat - 48
        else if isLowerHex d then d.toNat - 97 + 10 else d.toNat - 65 + 10)) ds := by
      simp [hexValue]
    have hlen : i + (d :: ds).length = i + 1 + ds.length := by simp; omega
    rw [hfin, hlen, ← ih']
    simp only [List.cons_append, xtoiLoop]
    cases h1 : isDigit d
    · cases h2 : isLowerHex d
      · have h3 : isUpperHex d = true := by
          simp only [isHexChar, Bool.or_eq_true, h1, h2, Bool.false_eq_true, false_or] at hd
          exact hd
        simp only [h1, h2, h3, Bool.false_eq_true, if_false, if_true] at hge hval' ⊢
        rw [if_neg (by omega)]
        rfl
      · simp only [h1, h2, Bool.false_eq_true, if_false, if_true] at hge hval' ⊢
        rw [if_neg (by omega)]
        rfl
    · simp only [h1, if_true] at hge hval' ⊢
      rw [if_neg (by omega)]
      rfl

set_option maxRecDepth 100000 in
theorem ubtoa_facts : ∀ v, v < 256 →
    ((ubtoa v).all isDigit = true ∧ decValue 0 (ubtoa v) = v ∧ 0 < (ubtoa v).length ∧
      ¬ ((ubtoa v).length > 1 ∧ (ubtoa v).head? = some '0')) := by
  decide

theorem dtoi_ubtoa (v : Nat) (hv : v < 256) (rest : List Char)
    (hrest : ∀ c, rest.head? = some c → isDigit c = false) :
    dtoi (ubtoa v ++ rest) = (v, (ubtoa v).length, true) := by
  obtain ⟨h1, h2, h3, _⟩ := ubtoa_facts v hv
  have := dtoiLoop_append (ubtoa v) 0 0 rest (by simpa [List.all_eq_true] using h1) hrest
    (by rw [h2]; simp [parseBig]; omega) (by omega)
  rw [h2, Nat.zero_add] at this
  exact this

theorem head?_append_of_pos {α} (a b : List α) (h : 0 < a.length) : (a ++ b).head? = a.head? := by
  cases a with
  | nil => simp at h
  | cons x xs => simp

theorem parseIPv4Loop_tail (k : Nat) (v : Nat) (hv : v < 256) (rest : List Char) (p : List Nat)
    (hrest : ∀ c, rest.head? = some c → isDigit c = false) :
    (match dtoi (ubtoa v ++ rest) with
      | (n, c, ok) =>
        if !ok || n > 0xFF then none
        else if c > 1 && (ubtoa v ++ rest).head? == some '0' then none
        else parseIPv4Loop k ((ubtoa v ++ rest).drop c) (p ++ [n]))
      = parseIPv4Loop k rest (p ++ [v]) := by
  obtain ⟨h1, h2, h3, h4⟩ := ubtoa_facts v hv
  rw [dtoi_ubtoa v hv rest hrest]
  have h5 : (decide ((ubtoa v).length > 1) && (ubtoa v ++ rest).head? == some '0') = false := by
    rw [head?_append_of_pos _ _ h3]
    by_cases hl : (ubtoa v).length > 1
    · have : (ubtoa v).head? ≠ some '0' := fun e => h4 ⟨hl, e⟩
      simp [hl, this]
    · simp [hl]
  simp only [h5, Bool.not_true, Bool.false_or, decide_eq_true_eq, show ¬ v > 255 by omega,
    if_false, Bool.false_eq_true, List.drop_left]

theorem parseIPv4Loop_first (k : Nat) (v : Nat) (hv : v < 256) (rest : List Char)
    (hrest : ∀ c, rest.head? = some c → isDigit c = false) :
    parseIPv4Loop (k + 1) (ubtoa v ++ rest) [] = parseIPv4Loop k rest [v] := by
  obtain ⟨h1, h2, h3, h4⟩ := ubtoa_facts v hv
  have hne : (ubtoa v ++ rest).length ≠ 0 := by
    simp only [List.length_append]; omega
  have := parseIPv4Loop_tail k v hv rest [] hrest
  rw [parseIPv4Loop.eq_def]
  simp only [hne, if_false, List.length_nil, gt_iff_lt, Nat.lt_irrefl]
  exact this

theorem parseIPv4Loop_next (k : Nat) (v : Nat) (hv : v < 256) (rest : List Char) (p : List Nat)
    (hp : p.length > 0) (hrest : ∀ c, rest.head? = some c → isDigit c = false) :
    parseIPv4Loop (k + 1) ('.' :: (ubtoa v ++ rest)) p = parseIPv4Loop k rest (p ++ [v]) := by
  have := parseIPv4Loop_tail k v hv rest p hrest
  rw [parseIPv4Loop.eq_def]
  simp only [List.length_cons, Nat.add_one_ne_zero, if_false, hp, if_true, ne_eq,
    not_true_eq_false]
  exact this

theorem parseIPv4_ipString (a b c d : Nat) (ha : a < 256) (hb : b < 256) (hc : c < 256)
    (hd : d < 256) :
    parseIPv4 (ubtoa a ++ '.' :: (ubtoa b ++ '.' :: (ubtoa c ++ '.' :: ubtoa d)))
      = mkIPv4 [a, b, c, d] := by
  have hdot : ∀ (t : List Char) (c : Char), ('.' :: t).head? = some c → isDigit c = false := by
    intro t c h
    simp only [List.head?_cons, Option.some.injEq] at h
    subst h; decide
  rw [parseIPv4, parseIPv4Loop_first 3 a ha _ (hdot _),
    parseIPv4Loop_next 2 b hb _ [a] (by simp) (hdot _),
    parseIPv4Loop_next 1 c hc _ ([a] ++ [b]) (by simp) (hdot _)]
  have := parseIPv4Loop_next 0 d hd [] ([a] ++ [b] ++ [c]) (by simp) (by simp)
  rw [List.append_nil] at this
  rw [this]
  simp [parseIPv4Loop]

theorem hexDigit_facts : ∀ d, d < 16 → (isHexChar (hexDigit d) = true ∧
    (if isDigit (hexDigit d) then (hexDigit d).toNat - 48
     else if isLowerHex (hexDigit d) then (hexDigit d).toNat - 97 + 10
     else (hexDigit d).toNat - 65 + 10) = d) := by
  decide

theorem appendHexLoop_spec (i : Nat) : ∀ (j acc : Nat), acc = i / 16 ^ j →
    (∀ x ∈ appendHexLoop i j, isHexChar x = true) ∧ hexValue acc (appendHexLoop i j) = i := by
  intro j
  induction j with
  | zero =>
    intro acc h
    simp [appendHexLoop, hexValue, h]
  | succ j ih =>
    intro acc h
    have hdiv : i / 16 ^ (j + 1) = i / 16 ^ j / 16 := by
      rw [pow_succ, Nat.div_div_eq_div_mul]
    simp only [appendHexLoop]
    by_cases hv : i / 16 ^ j > 0
    · simp only [hv, if_true, List.singleton_append, List.mem_cons]
      obtain ⟨f1, f2⟩ := hexDigit_facts (i / 16 ^ j % 16) (Nat.mod_lt _ (by norm_num))
      have hacc : acc * 16 + i / 16 ^ j % 16 = i / 16 ^ j := by
        rw [h, hdiv]; omega
      obtain ⟨h1, h2⟩ := ih (i / 16 ^ j) rfl
      constructor
      · rintro x (rfl | hx)
        · exact f1
        · exact h1 x hx
      · simp only [hexValue, List.foldl_cons, f2, hacc]
        exact h2
    · simp only [hv, if_false, List.nil_append]
      have hz : i / 16 ^ j = 0 := by omega
      exact ih acc (by rw [h, hdiv, hz])

theorem appendHexLoop_pos (i : Nat) (hi : 0 < i) : ∀ j, 0 < (appendHexLoop i (j + 1)).length := by
  intro j
  induction j with
  | zero => simp [appendHexLoop, hi]
  | succ j ih =>
    rw [appendHexLoop]
    simp only [List.length_append]
    omega

theorem appendHex_facts (g : Nat) (hg : g < 65536) :
    (∀ x ∈ appendHex g, isHexChar x = true) ∧ hexValue 0 (appendHex g) = g ∧
      0 < (appendHex g).length := by
  unfold appendHex
  by_cases h0 : g = 0
  · subst h0
    simp only [if_true]
    decide
  · simp only [h0, if_false]
    have hdiv : g / 16 ^ 8 = 0 := by
      apply Nat.div_eq_of_lt
      norm_num; omega
    obtain ⟨h1, h2⟩ := appendHexLoop_spec g 8 0 hdiv.symm
    exact ⟨h1, h2, appendHexLoop_pos g (by omega) 7⟩

theorem xtoi_appendHex (g : Nat) (hg : g < 65536) (rest : List Char)
    (hrest : ∀ c, rest.head? = some c → isHexChar c = false) :
    xtoi (appendHex g ++ rest) = (g, (appendHex g).length, true) := by
  obtain ⟨h1, h2, h3⟩ := appendHex_facts g hg
  have := xtoiLoop_append (appendHex g) 0 0 rest h1 hrest
    (by rw [h2]; simp [parseBig]; omega) (by omega)
  rw [h2, Nat.zero_add] at this
  exact this

theorem not_hex_colon : ∀ (t : List Char) (c : Char), (':' :: t).head? = some c →
    isHexChar c = false := by
  intro t c h
  simp only [List.head?_cons, Option.some.injEq] at h
  subst h; decide

theorem parseIPv6Loop_last (fuel : Nat) (ip : List Nat) (ell : Option Nat) (g : Nat)
    (hg : g < 65536) (hip : ip.length < 16) :
    parseIPv6Loop (fuel + 1) ip ell (appendHex g)
      = parseIPv6Finish (ip ++ groupBytes g) ell [] := by
  have hx := xtoi_appendHex g hg [] (by simp)
  rw [List.append_nil] at hx
  rw [parseIPv6Loop.eq_def]
  simp only [hip, not_true_eq_false, if_false, hx]
  simp [show ¬ g > 65535 by omega, groupBytes]

theorem parseIPv6Loop_colon (fuel : Nat) (ip : List Nat) (ell : Option Nat) (g : Nat)
    (hg : g < 65536) (hip : ip.length < 16) (c1 : Char) (s2 : List Char) (hc1 : c1 ≠ ':') :
    parseIPv6Loop (fuel + 1) ip ell (appendHex g ++ ':' :: c1 :: s2)
      = parseIPv6Loop fuel (ip ++ groupBytes g) ell (c1 :: s2) := by
  have hx := xtoi_appendHex g hg (':' :: c1 :: s2) (not_hex_colon _)
  rw [parseIPv6Loop.eq_def]
  simp only [hip, not_true_eq_false, if_false, hx]
  simp [show ¬ g > 65535 by omega, groupBytes, hc1]

theorem parseIPv6Loop_ellipsis (fuel : Nat) (ip : List Nat) (g : Nat)
    (hg : g < 65536) (hip : ip.length < 16) (s2 : List Char) :
    parseIPv6Loop (fuel + 1) ip none (appendHex g ++ ':' :: ':' :: s2)
      = if s2.length = 0 then parseIPv6Finish (ip ++ groupBytes g) (some (ip.length + 2)) []
        else parseIPv6Loop fuel (ip ++ groupBytes g) (some (ip.length + 2)) s2 := by
  have hx := xtoi_appendHex g hg (':' :: ':' :: s2) (not_hex_colon _)
  rw [parseIPv6Loop.eq_def]
  simp only [hip, not_true_eq_false, if_false, hx]
  simp [show ¬ g > 65535 by omega, groupBytes]

theorem appendHex_head (g : Nat) (hg : g < 65536) :
    ∃ c t, appendHex g = c :: t ∧ c ≠ ':' := by
  obtain ⟨h1, _, h3⟩ := appendHex_facts g hg
  cases h : appendHex g with
  | nil => rw [h] at h3; simp at h3
  | cons c t =>
    refine ⟨c, t, rfl, ?_⟩
    have := h1 c (by rw [h]; simp)
    exact (isHexChar_ne_sep c this).1

theorem joinColon_cons_cons (p q : List Char) (ps : List (List Char)) :
    joinColon (p :: q :: ps) = p ++ ':' :: joinColon (q :: ps) := rfl

theorem joinColon_head (gs : List Nat) (hne : gs ≠ []) (hg : ∀ g ∈ gs, g < 65536) :
    ∃ c t, joinColon (gs.map appendHex) = c :: t ∧ c ≠ ':' := by
  cases gs with
  | nil => exact absurd rfl hne
  | cons g rest =>
    obtain ⟨c, t, hct, hc⟩ := appendHex_head g (hg g (by simp))
    cases rest with
    | nil => exact ⟨c, t, by simp [joinColon, hct], hc⟩
    | cons g2 rest2 =>
      refine ⟨c, t ++ ':' :: joinColon ((g2 :: rest2).map appendHex), ?_, hc⟩
      simp only [List.map_cons, joinColon_cons_cons, hct, List.cons_append]

theorem parse_groups (gs : List Nat) : ∀ (fuel : Nat) (ip : List Nat) (ell : Option Nat),
    gs ≠ [] → (∀ g ∈ gs, g < 65536) → gs.length ≤ fuel → ip.length + 2 * gs.length ≤ 16 →
    parseIPv6Loop fuel ip ell (joinColon (gs.map appendHex))
      = parseIPv6Finish (ip ++ bytesOfGroups gs) ell [] := by
  induction gs with
  | nil => intro _ _ _ h; exact absurd rfl h
  | cons g rest ih =>
    intro fuel ip ell _ hg hf hl
    simp only [List.length_cons] at hf hl
    obtain ⟨fuel, rfl⟩ : ∃ f, fuel = f + 1 := ⟨fuel - 1, by omega⟩
    have hg0 := hg g (by simp)
    cases rest with
    | nil =>
      simp only [List.map_cons, List.map_nil, joinColon, bytesOfGroups, List.append_nil]
      exact parseIPv6Loop_last fuel ip ell g hg0 (by omega)
    | cons g2 rest2 =>
      have hg' : ∀ x ∈ g2 :: rest2, x < 65536 := fun x hx => hg x (List.mem_cons_of_mem _ hx)
      obtain ⟨c, t, hct, hc⟩ := joinColon_head (g2 :: rest2) (by simp) hg'
      rw [List.map_cons, List.map_cons, joinColon_cons_cons, ← List.map_cons, hct,
        parseIPv6Loop_colon fuel ip ell g hg0 (by omega) c t hc, ← hct,
        ih fuel (ip ++ groupBytes g) ell (by simp) hg' (by simpa using hf)
          (by simp [groupBytes] at hl ⊢; omega)]
      simp [bytesOfGroups]

theorem length_bytesOfGroups (gs : List Nat) : (bytesOfGroups gs).length = 2 * gs.length := by
  induction gs with
  | nil => simp [bytesOfGroups]
  | cons g rest ih => simp [bytesOfGroups, groupBytes, ih]; omega

theorem parse_groups_ellipsis (pre : List Nat) : ∀ (post : List Nat) (fuel : Nat) (ip : List Nat),
    pre ≠ [] → (∀ g ∈ pre, g < 65536) → (∀ g ∈ post, g < 65536) →
    pre.length + post.length ≤ fuel → ip.length + 2 * (pre.length + post.length) ≤ 16 →
    parseIPv6Loop fuel ip none
        (joinColon (pre.map appendHex) ++ ':' :: ':' :: joinColon (post.map appendHex))
      = parseIPv6Finish (ip ++ bytesOfGroups pre ++ bytesOfGroups post)
          (some (ip.length + 2 * pre.length)) [] := by
  induction pre with
  | nil => intro _ _ _ h; exact absurd rfl h
  | cons g rest ih =>
    intro post fuel ip _ hg hpost hf hl
    simp only [List.length_cons] at hf hl
    obtain ⟨fuel, rfl⟩ : ∃ f, fuel = f + 1 := ⟨fuel - 1, by omega⟩
    have hg0 := hg g (by simp)
    cases rest with
    | nil =>
      simp only [List.map_cons, List.map_nil, joinColon, bytesOfGroups, List.append_nil,
        List.length_cons, List.length_nil]
      rw [parseIPv6Loop_ellipsis fuel ip g hg0 (by omega)]
      cases post with
      | nil => simp [joinColon, bytesOfGroups]
      | cons q qs =>
        obtain ⟨c, t, hct, hc⟩ := joinColon_head (q :: qs) (by simp) hpost
        have hne : (joinColon ((q :: qs).map appendHex)).length ≠ 0 := by rw [hct]; simp
        simp only [List.length_nil, Nat.zero_add, Nat.mul_one] at hf hl ⊢
        rw [if_neg hne, parse_groups (q :: qs) fuel (ip ++ groupBytes g) _ (by simp) hpost
          (by simp at hf ⊢; omega) (by simp [groupBytes] at hl ⊢; omega)]
    | cons g2 rest2 =>
      have hg' : ∀ x ∈ g2 :: rest2, x < 65536 := fun x hx => hg x (List.mem_cons_of_mem _ hx)
      obtain ⟨c, t, hct, hc⟩ := joinColon_head (g2 :: rest2) (by simp) hg'
      rw [List.map_cons, List.map_cons, joinColon_cons_cons, ← List.map_cons, hct,
        List.append_assoc, List.cons_append, List.cons_append,
        parseIPv6Loop_colon fuel ip none g hg0 (by omega) c _ hc, ← List.cons_append, ← hct,
        ih post fuel (ip ++ groupBytes g) (by simp) hg' hpost (by simp at hf ⊢; omega)
          (by simp [groupBytes] at hl ⊢; omega)]
      simp only [bytesOfGroups, groupBytes, List.append_assoc, List.length_append,
        List.length_cons, List.length_nil]
      congr 2
      omega

theorem zeroRunLen_spec (l : List Nat) :
    zeroRunLen l ≤ l.length ∧ l.take (zeroRunLen l) = List.replicate (zeroRunLen l) 0 := by
  induction l with
  | nil => simp [zeroRunLen]
  | cons g gs ih =>
    simp only [zeroRunLen]
    by_cases hg : g = 0
    · subst hg
      simp only [if_true, List.length_cons, List.take_succ_cons, List.replicate_succ]
      exact ⟨by omega, by rw [ih.2]⟩
    · simp [hg]

theorem longestRunLoop_spec (gs : List Nat) (f : Nat) : ∀ (i e0 e1 : Nat),
    IsZeroRun gs e0 e1 →
      IsZeroRun gs (longestRunLoop gs f i e0 e1).1 (longestRunLoop gs f i e0 e1).2 := by
  induction f with
  | zero => intro i e0 e1 h; simpa [longestRunLoop] using h
  | succ f ih =>
    intro i e0 e1 h
    simp only [longestRunLoop]
    split
    · exact h
    · split
      · apply ih
        obtain ⟨z1, z2⟩ := zeroRunLen_spec (gs.drop i)
        refine ⟨by omega, ?_, ?_⟩
        · simp only [List.length_drop] at z1
          rename_i h1 h2
          omega
        · simpa using z2
      · exact ih _ _ _ h

theorem longestRun_spec (gs : List Nat) (a b : Nat) (h : longestRun gs = some (a, b)) :
    a + 2 ≤ b ∧ b ≤ gs.length ∧ gs = gs.take a ++ List.replicate (b - a) 0 ++ gs.drop b := by
  unfold longestRun at h
  simp only at h
  split at h
  · simp at h
  · rename_i hlen
    simp only [Option.some.injEq] at h
    have := longestRunLoop_spec gs 8 0 0 0 ⟨le_refl _, by omega, by simp⟩
    rw [h] at this hlen
    obtain ⟨h1, h2, h3⟩ := this
    simp only at h1 h2 h3 hlen
    refine ⟨by omega, h2, ?_⟩
    have e : gs.drop a = (gs.drop a).take (b - a) ++ (gs.drop a).drop (b - a) :=
      (List.take_append_drop _ _).symm
    rw [h3, List.drop_drop] at e
    have hab : b - a + a = b := by omega
    have hab' : a + (b - a) = b := by omega
    conv_lhs => rw [← List.take_append_drop a gs, e]
    simp [hab, hab']

theorem groups_spec (k : Nat) : ∀ (p : List Nat), p.length = 2 * k → (∀ b ∈ p, b < 256) →
    (groups p).length = k ∧ (∀ g ∈ groups p, g < 65536) ∧ bytesOfGroups (groups p) = p := by
  induction k with
  | zero =>
    intro p hl _
    have : p = [] := List.length_eq_zero.1 (by simpa using hl)
    subst this
    simp [groups, bytesOfGroups]
  | succ k ih =>
    intro p hl hb
    match p, hl, hb with
    | [], hl, _ => simp at hl
    | [_], hl, _ => simp at hl; omega
    | a :: b :: rest, hl, hb =>
      have ha : a < 256 := hb a (by simp)
      have hb' : b < 256 := hb b (by simp)
      obtain ⟨h1, h2, h3⟩ := ih rest (by simp at hl; omega)
        (fun x hx => hb x (by simp [hx]))
      refine ⟨by simp [groups, h1], ?_, ?_⟩
      · intro g hg
        simp only [groups, List.mem_cons] at hg
        rcases hg with rfl | hg
        · omega
        · exact h2 g hg
      · simp only [groups, bytesOfGroups, groupBytes, h3, List.cons_append, List.nil_append,
          List.cons.injEq, and_true]
        constructor <;> omega

theorem bytesOfGroups_append (xs ys : List Nat) :
    bytesOfGroups (xs ++ ys) = bytesOfGroups xs ++ bytesOfGroups ys := by
  induction xs with
  | nil => simp [bytesOfGroups]
  | cons x xs ih => simp [bytesOfGroups, ih]

theorem bytesOfGroups_zeros (k : Nat) :
    bytesOfGroups (List.replicate k 0) = List.replicate (2 * k) 0 := by
  induction k with
  | zero => simp [bytesOfGroups]
  | succ k ih =>
    simp only [List.replicate_succ, bytesOfGroups, ih, groupBytes]
    have : 2 * (k + 1) = 2 * k + 1 + 1 := by omega
    rw [this, List.replicate_succ, List.replicate_succ]
    simp

theorem parseIPv6_of_head (c : Char) (t : List Char) (hc : c ≠ ':') :
    parseIPv6 (c :: t) =
      (match parseIPv6Loop 8 [] none (c :: t) with | none => [] | some ip => ip) := by
  unfold parseIPv6
  cases t with
  | nil => rfl
  | cons d t =>
    simp only [hc, false_and, if_false]
    try rfl

theorem parseIPv6_ip6String (p : List Nat) (hl : p.length = 16) (hb : ∀ b ∈ p, b < 256) :
    parseIPv6 (ip6String p) = p := by
  obtain ⟨g1, g2, g3⟩ := groups_spec 8 p (by omega) hb
  unfold ip6String
  simp only
  cases hr : longestRun (groups p) with
  | none =>
    simp only
    obtain ⟨c, t, hct, hc⟩ := joinColon_head (groups p) (by intro e; simp [e] at g1) g2
    rw [hct, parseIPv6_of_head c t hc, ← hct,
      parse_groups (groups p) 8 [] none (by intro e; simp [e] at g1) g2 (by omega)
        (by simp; omega)]
    simp [g3, parseIPv6Finish, hl]
  | some r =>
    obtain ⟨a, b⟩ := r
    simp only
    obtain ⟨r1, r2, r3⟩ := longestRun_spec (groups p) a b hr
    have hpost : ∀ g ∈ (groups p).drop b, g < 65536 := fun g hg => g2 g (List.mem_of_mem_drop hg)
    have hpre : ∀ g ∈ (groups p).take a, g < 65536 := fun g hg => g2 g (List.mem_of_mem_take hg)
    have hlpre : ((groups p).take a).length = a := by simp; omega
    have hlpost : ((groups p).drop b).length = 8 - b := by simp [g1]
    have hbytes : p = bytesOfGroups ((groups p).take a) ++ List.replicate (2 * (b - a)) 0 ++
        bytesOfGroups ((groups p).drop b) := by
      conv_lhs => rw [← g3, r3]
      rw [bytesOfGroups_append, bytesOfGroups_append, bytesOfGroups_zeros]
    by_cases ha : a = 0
    · subst ha
      simp only [List.take_zero, List.map_nil, joinColon, List.nil_append]
      simp only [List.take_zero, bytesOfGroups, List.nil_append, Nat.sub_zero] at hbytes
      by_cases hpe : (groups p).drop b = []
      · simp only [hpe, List.map_nil, joinColon, parseIPv6]
        simp only [hpe, bytesOfGroups, List.append_nil] at hbytes
        have hb8 : b = 8 := by
          have := congrArg List.length hpe
          simp [g1] at this; omega
        subst hb8
        simp [hbytes]
      · obtain ⟨c, t, hct, hc⟩ := joinColon_head _ hpe hpost
        have hne : (joinColon (((groups p).drop b).map appendHex)).length ≠ 0 := by
          rw [hct]; simp
        unfold parseIPv6
        simp only [and_self, if_true, hne, if_false]
        rw [parse_groups _ 8 [] (some 0) hpe hpost (by rw [hlpost]; omega)
          (by rw [hlpost]; simp; omega)]
        have hlen : (bytesOfGroups ((groups p).drop b)).length = 2 * (8 - b) := by
          rw [length_bytesOfGroups, hlpost]
        have hb0 : 0 < b := by omega
        simp only [parseIPv6Finish, List.length_nil, ne_eq, not_true_eq_false, if_false,
          List.nil_append, hlen, show 2 * (8 - b) < 16 by omega, if_true, List.take_zero,
          List.drop_zero]
        conv_rhs => rw [hbytes]
        congr 2
        omega
    · have hpne : (groups p).take a ≠ [] := by
        intro e
        have := congrArg List.length e
        rw [hlpre] at this
        simp at this; omega
      obtain ⟨c, t, hct, hc⟩ := joinColon_head _ hpne hpre
      have hhead : joinColon (((groups p).take a).map appendHex) ++ ':' :: ':' ::
          joinColon (((groups p).drop b).map appendHex)
          = c :: (t ++ ':' :: ':' :: joinColon (((groups p).drop b).map appendHex)) := by
        rw [hct]; simp
      rw [hhead, parseIPv6_of_head c _ hc, ← hhead,
        parse_groups_ellipsis _ _ 8 [] hpne hpre hpost (by rw [hlpre, hlpost]; omega)
          (by rw [hlpre, hlpost]; simp; omega)]
      have hlen1 : (bytesOfGroups ((groups p).take a)).length = 2 * a := by
        rw [length_bytesOfGroups, hlpre]
      have hlen2 : (bytesOfGroups ((groups p).drop b)).length = 2 * (8 - b) := by
        rw [length_bytesOfGroups, hlpost]
      simp only [parseIPv6Finish, List.length_nil, ne_eq, not_true_eq_false, if_false,
        List.nil_append, List.length_append, hlen1, hlen2, hlpre, Nat.zero_add,
        show 2 * a + 2 * (8 - b) < 16 by omega, if_true]
      rw [List.take_append_of_le_length (by rw [hlen1]), List.drop_append_of_le_length
        (by rw [hlen1]), ← hlen1, List.take_length, List.drop_length, List.nil_append]
      conv_rhs => rw [hbytes]
      rw [hlen1]
      congr 2
      congr 1
      omega

theorem list_length4 (l : List Nat) (h : l.length = 4) : ∃ a b c d, l = [a, b, c, d] := by
  match l, h with
  | [a, b, c, d], _ => exact ⟨a, b, c, d, rfl⟩

theorem mkIPv4_ne_nil (p : List Nat) : mkIPv4 p ≠ [] := by
  simp [mkIPv4, v4InV6Pfx]

theorem ipString_v4 (ip : List Nat) (a b c d : Nat) (h : To4 ip = [a, b, c, d]) :
    ipString ip = ubtoa a ++ '.' :: (ubtoa b ++ '.' :: (ubtoa c ++ '.' :: ubtoa d)) := by
  have hne : ip.length ≠ 0 := by
    intro e
    have : ip = [] := List.length_eq_zero.1 e
    subst this
    simp [To4] at h
  simp [ipString, hne, h]

theorem ParseIP_ipString_v4 (ip : List Nat) (a b c d : Nat) (h : To4 ip = [a, b, c, d])
    (hb : ∀ x ∈ ip, x < 256) : ParseIP (ipString ip) = mkIPv4 [a, b, c, d] := by
  have hb4 := To4_lt ip hb
  rw [h] at hb4
  have e := parseIPv4_ipString a b c d (hb4 a (by simp)) (hb4 b (by simp)) (hb4 c (by simp))
    (hb4 d (by simp))
  rw [ipString_v4 ip a b c d h, ParseIP_eq_parseIPv4 _ (by rw [e]; exact mkIPv4_ne_nil _), e]

theorem To4_length (ip : List Nat) (h : To4 ip ≠ []) (_hl : ip.length = 4 ∨ ip.length = 16) :
    (To4 ip).length = 4 := by
  simp only [To4] at h ⊢
  split
  · assumption
  · rename_i h4
    split
    · rename_i h16
      simp [h16.1]
    · rename_i h16
      simp [h4, h16] at h

theorem To4_To16 (ip : List Nat) (hl : ip.length = 4 ∨ ip.length = 16) :
    To4 (To16 ip) = To4 ip := by
  rcases hl with h | h
  · obtain ⟨a, b, c, d, rfl⟩ := list_length4 ip h
    simp [To16, To4, mkIPv4, v4InV6Pfx]
  · simp [To16, h]

theorem To16_To16 (ip : List Nat) (hl : ip.length = 4 ∨ ip.length = 16) :
    To16 (To16 ip) = To16 ip := by
  rcases hl with h | h
  · simp [To16, h, mkIPv4, v4InV6Pfx]
  · simp [To16, h]

theorem To16_length (ip : List Nat) (hl : ip.length = 4 ∨ ip.length = 16) :
    (To16 ip).length = 16 := by
  rcases hl with h | h
  · simp [To16, h, mkIPv4, v4InV6Pfx]
  · simp [To16, h]

/-- Printing an address and parsing the text gives the address back, in
its 16-byte form. -/
theorem ParseIP_ipString (ip : List Nat) (h : IsIP ip) : ParseIP (ipString ip) = To16 ip := by
  obtain ⟨hl, hb⟩ := h
  by_cases h4 : To4 ip = []
  · -- not IPv4: sixteen bytes, printed as IPv6
    have h16 : ip.length = 16 := by
      rcases hl with h | h
      · simp [To4, h] at h4
        subst h4; simp at h
      · exact h
    have hs : ipString ip = ip6String ip := by
      simp [ipString, h16, h4]
    have hne : ip ≠ [] := by intro e; simp [e] at h16
    have e := parseIPv6_ip6String ip h16 hb
    rw [hs, ParseIP_eq_parseIPv6 _ (by rw [e]; exact hne), e]
    simp [To16, h16]
  · obtain ⟨a, b, c, d, habcd⟩ := list_length4 _ (To4_length ip h4 hl)
    rw [ParseIP_ipString_v4 ip a b c d habcd hb, ← habcd]
    rcases hl with h | h
    · simp [To16, To4, h]
    · simp only [To4, h, show ¬ (16 = 4) by decide, if_false, true_and] at h4 ⊢
      by_cases hp : ip.take 12 = v4InV6Pfx
      · simp only [hp, if_true, To16, h, show ¬ (16 = 4) by decide, if_false, mkIPv4]
        conv_rhs => rw [← List.take_append_drop 12 ip, hp]
      · simp [hp] at h4

theorem bytesLenAux_le (f : Nat) : ∀ (a k : Nat), a ≤ f →
    (bytesLenAux f a ≤ k ↔ a < 256 ^ k) := by
  induction f with
  | zero =>
    intro a k ha
    have : a = 0 := by omega
    subst this
    simp [bytesLenAux]
  | succ f ih =>
    intro a k ha
    simp only [bytesLenAux]
    by_cases h0 : a = 0
    · subst h0; simp
    · simp only [h0, if_false]
      cases k with
      | zero => simp; omega
      | succ k =>
        rw [Nat.add_le_add_iff_right, ih (a / 256) k (by omega), pow_succ,
          Nat.div_lt_iff_lt_mul (by norm_num)]

theorem bytesLen_gt4 (a : Nat) : bytesLen a > 4 ↔ 2 ^ 32 ≤ a := by
  have := bytesLenAux_le a a 4 (le_refl _)
  unfold bytesLen
  rw [gt_iff_lt, ← not_le, this]
  norm_num

theorem setBytes_append (a b : List Nat) :
    setBytes (a ++ b) = setBytes a * 256 ^ b.length + setBytes b := by
  simp only [setBytes, List.foldl_append]
  rw [setBytes_foldl]
  simp [setBytes]

theorem toBytes_spec (l : Nat) : ∀ (a : Nat),
    (toBytes l a).length = l ∧ (∀ b ∈ toBytes l a, b < 256) ∧
      setBytes (toBytes l a) = a % 256 ^ l := by
  induction l with
  | zero => intro a; simp [toBytes, setBytes, Nat.mod_one]
  | succ l ih =>
    intro a
    obtain ⟨h1, h2, h3⟩ := ih (a / 256)
    simp only [toBytes]
    refine ⟨by simp [h1], ?_, ?_⟩
    · intro b hb
      rcases List.mem_append.1 hb with hb | hb
      · exact h2 b hb
      · simp only [List.mem_singleton] at hb
        omega
    · rw [setBytes_append, h3]
      simp only [List.length_singleton, pow_one, setBytes, List.foldl_cons, List.foldl_nil,
        Nat.zero_mul, Nat.zero_add]
      rw [pow_succ, Nat.mul_comm (256 ^ l) 256, Nat.mod_mul, Nat.add_comm, Nat.mul_comm]

theorem setBytes_ipBytes_mod (q : List Nat) (h : IsIP q) :
    setBytes (ipBytes q) % 2 ^ 32 = setBytes q % 2 ^ 32 := by
  unfold ipBytes
  by_cases h4 : To4 q = []
  · simp [h4]
  · simp only [h4, ne_eq, not_false_eq_true, if_true]
    rcases h.1 with hl | hl
    · simp [To4, hl]
    · simp only [To4, hl, show ¬ (16 = 4) by decide, if_false, true_and] at h4 ⊢
      by_cases hp : q.take 12 = v4InV6Pfx
      · simp only [hp, if_true]
        conv_rhs => rw [← List.take_append_drop 12 q, setBytes_append]
        have : (q.drop 12).length = 4 := by simp [hl]
        rw [this, show (256 : Nat) ^ 4 = 2 ^ 32 by norm_num, Nat.mul_comm, Nat.mul_add_mod]
      · simp [hp] at h4

set_option maxRecDepth 100000 in
theorem maskSize_v4 : ∀ n, n < 33 → maskSize (cidrMaskLoop 4 n) = (n, 32) := by
  decide

set_option maxRecDepth 100000 in
theorem maskSize_v6 : ∀ n, n < 129 → maskSize (cidrMaskLoop 16 n) = (n, 128) := by
  decide

theorem uintSub_small (a b : Nat) (hb : b ≤ a) (ha : a ≤ 128) : uintSub a b = a - b := by
  unfold uintSub
  omega

theorem floor_add_le (P h t : Nat) (hP : P < 2 ^ t) (hh : h ≤ t) :
    P / 2 ^ h * 2 ^ h + 2 ^ h ≤ 2 ^ t := by
  have e : t = (t - h) + h := by omega
  have hq : P / 2 ^ h < 2 ^ (t - h) := by
    rw [Nat.div_lt_iff_lt_mul (by positivity), ← pow_add, ← e]
    exact hP
  calc P / 2 ^ h * 2 ^ h + 2 ^ h = (P / 2 ^ h + 1) * 2 ^ h := by ring
    _ ≤ 2 ^ (t - h) * 2 ^ h := Nat.mul_le_mul_right _ hq
    _ = 2 ^ t := by rw [← pow_add, ← e]

theorem split1_mem_no_sep (sep : Char) (s : List Char) : ∀ blk ∈ split1 sep s, sep ∉ blk := by
  induction s with
  | nil => intro blk h; simp [split1] at h; subst h; simp
  | cons c cs ih =>
    intro blk h
    simp only [split1] at h
    by_cases hc : c = sep
    · simp only [hc, if_true, List.mem_cons] at h
      rcases h with rfl | h
      · simp
      · exact ih blk h
    · simp only [hc, if_false] at h
      cases hsp : split1 sep cs with
      | nil => exact absurd hsp (split1_ne_nil sep cs)
      | cons p ps =>
        rw [hsp] at h ih
        simp only [consHead, List.mem_cons] at h
        rcases h with rfl | h
        · have := ih p (by simp)
          simp only [List.mem_cons, not_or]
          exact ⟨fun e => hc e.symm, this⟩
        · exact ih blk (by simp [h])

theorem splitDotDot_of_not_contains (x : List Char) :
    containsDotDot x = false → splitDotDot x = [x] := by
  induction x using splitDotDot.induct with
  | case1 => intro _; rfl
  | case2 c => intro _; rfl
  | case3 c d cs hcd ih =>
    intro h
    simp [containsDotDot, hcd] at h
  | case4 c d cs hcd ih =>
    intro h
    simp only [containsDotDot, hcd, decide_False, Bool.false_or] at h
    simp only [splitDotDot, hcd, if_false, ih h, consHead]

theorem div_eq_div_iff_range (X P d : Nat) (hd : 0 < d) :
    X / d = P / d ↔ P / d * d ≤ X ∧ X < P / d * d + d := by
  constructor
  · intro h
    constructor
    · rw [← h]; exact Nat.div_mul_le_self X d
    · rw [← h]
      have := Nat.lt_div_mul_add hd (a := X)
      omega
  · rintro ⟨h1, h2⟩
    apply le_antisymm
    · rw [← Nat.lt_succ_iff, Nat.div_lt_iff_lt_mul hd]
      calc X < P / d * d + d := h2
        _ = (P / d).succ * d := by rw [Nat.succ_mul]
    · rw [Nat.le_div_iff_mul_le hd]; exact h1

theorem dotOK_cons_of_ne (c : Char) (t : List Char) (hc : c ≠ '.') :
    dotOK (c :: t) = dotOK t := by
  cases t with
  | nil => simp [dotOK, hc]
  | cons d t => simp [dotOK, hc]

theorem dotOK_append_nodots (ds rest : List Char) (h : ∀ x ∈ ds, x ≠ '.') :
    dotOK (ds ++ rest) = dotOK rest := by
  induction ds with
  | nil => rfl
  | cons d ds ih =>
    rw [List.cons_append, dotOK_cons_of_ne d _ (h d (by simp)),
      ih (fun x hx => h x (List.mem_cons_of_mem _ hx))]

theorem dotOK_dot_digit (d : Char) (t : List Char) (hd : isDigit d = true) :
    dotOK ('.' :: d :: t) = dotOK (d :: t) := by
  simp [dotOK, hd]

theorem containsDotDot_of_dotOK (s : List Char) : dotOK s = true → containsDotDot s = false := by
  induction s using containsDotDot.induct with
  | case1 => intro _; rfl
  | case2 c => intro _; rfl
  | case3 c d cs ih =>
    intro h
    simp only [dotOK, Bool.and_eq_true, Bool.or_eq_true, decide_eq_true_eq] at h
    have hnot : ¬ (c = '.' ∧ d = '.') := by
      rintro ⟨rfl, rfl⟩
      rcases h.1 with h1 | h1
      · exact h1 rfl
      · revert h1; decide
    simp [containsDotDot, hnot, ih h.2]

theorem splitDotDot_range (s e : List Char) (hs : dotOK s = true)
    (he : containsDotDot e = false) : splitDotDot (s ++ '.' :: '.' :: e) = [s, e] := by
  have hE := splitDotDot_of_not_contains e he
  induction s using dotOK.induct with
  | case1 => simp [splitDotDot, hE]
  | case2 c =>
    simp only [dotOK, decide_eq_true_eq] at hs
    simp [splitDotDot, hs, hE, consHead]
  | case3 c d t ih =>
    simp only [dotOK, Bool.and_eq_true, Bool.or_eq_true, decide_eq_true_eq] at hs
    have hnot : ¬ (c = '.' ∧ d = '.') := by
      rintro ⟨rfl, rfl⟩
      rcases hs.1 with h1 | h1
      · exact h1 rfl
      · revert h1; decide
    have := ih hs.2
    simp only [List.cons_append] at this ⊢
    simp only [splitDotDot, hnot, if_false, this, consHead]

theorem dtoiLoop_pos (s : List Char) : ∀ (n i n1 c : Nat),
    dtoiLoop s n i = (n1, c, true) → 0 < c := by
  induction s with
  | nil =>
    intro n i n1 c h
    simp only [dtoiLoop] at h
    split at h
    · simp at h
    · simp only [Prod.mk.injEq, and_true] at h
      omega
  | cons a as ih =>
    intro n i n1 c h
    simp only [dtoiLoop] at h
    split at h
    · split at h
      · simp at h
      · exact ih _ _ _ _ h
    · split at h
      · simp at h
      · simp only [Prod.mk.injEq, and_true] at h
        omega

theorem digit_ne_dot (x : Char) (h : isDigit x = true) : x ≠ '.' := (isDigit_ne_colon x h).2

theorem parseIPv4Loop_dotOK (k : Nat) : ∀ (s : List Char) (p r : List Nat),
    parseIPv4Loop k s p = some r → dotOK s = true := by
  induction k with
  | zero =>
    intro s p r h
    simp only [parseIPv4Loop] at h
    split at h
    · simp at h
    · rename_i hs
      simp only [ne_eq, List.length_eq_zero, not_not] at hs
      subst hs; rfl
  | succ k ih =>
    intro s p r h
    rw [parseIPv4Loop.eq_def] at h
    simp only at h
    split at h
    · simp at h
    · split at h
      · simp at h
      · rename_i s1 hs1
        rcases hd : dtoi s1 with ⟨n, c, ok⟩
        simp only [hd] at h
        split at h
        · simp at h
        · rename_i hok
          split at h
          · simp at h
          · simp only [Bool.or_eq_true, Bool.not_eq_eq_eq_not, Bool.not_true, decide_eq_true_eq,
              not_or, Bool.not_eq_false, not_lt] at hok
            obtain ⟨hok, _⟩ := hok
            subst hok
            have hrest := ih _ _ _ h
            obtain ⟨_, hdig⟩ := dtoiLoop_digits s1 0 0 n c hd
            have hcpos := dtoiLoop_pos s1 0 0 n c hd
            simp only [Nat.sub_zero] at hdig
            have hs1ok : dotOK s1 = true := by
              rw [← List.take_append_drop c s1,
                dotOK_append_nodots _ _ (fun x hx => digit_ne_dot x (hdig x hx))]
              exact hrest
            have hhead : ∃ d t, s1 = d :: t ∧ isDigit d = true := by
              cases s1 with
              | nil => simp [dtoi, dtoiLoop] at hd
              | cons d t =>
                refine ⟨d, t, rfl, hdig d ?_⟩
                obtain ⟨c', rfl⟩ : ∃ c', c = c' + 1 := ⟨c - 1, by omega⟩
                simp
            split at hs1
            · split at hs1
              · rename_i c0 t
                split at hs1
                · simp at hs1
                · rename_i hc0
                  simp only [ne_eq, not_not] at hc0
                  simp only [Option.some.injEq] at hs1
                  subst hs1 hc0
                  obtain ⟨d, t', rfl, hdg⟩ := hhead
                  rw [dotOK_dot_digit d t' hdg]
                  exact hs1ok
              · simp at hs1
            · simp only [Option.some.injEq] at hs1
              subst hs1; exact hs1ok

theorem hex_ne_dot (x : Char) (h : isHexChar x = true) : x ≠ '.' := (isHexChar_ne_sep x h).2

theorem parseIPv6Loop_dotOK (fuel : Nat) : ∀ (ip : List Nat) (ell : Option Nat) (s : List Char)
    (r : List Nat), parseIPv6Loop fuel ip ell s = some r → dotOK s = true := by
  have hfin : ∀ (ip : List Nat) (ell : Option Nat) (s : List Char) (r : List Nat),
      parseIPv6Finish ip ell s = some r → dotOK s = true := by
    intro ip ell s r h
    simp only [parseIPv6Finish] at h
    split at h
    · simp at h
    · rename_i hs
      simp only [ne_eq, List.length_eq_zero, not_not] at hs
      subst hs; rfl
  induction fuel with
  | zero =>
    intro ip ell s r h
    simp only [parseIPv6Loop] at h
    exact hfin _ _ _ _ h
  | succ fuel ih =>
    intro ip ell s r h
    rw [parseIPv6Loop.eq_def] at h
    simp only at h
    split at h
    · exact hfin _ _ _ _ h
    · rcases hx : xtoi s with ⟨n, c, ok⟩
      simp only [hx] at h
      split at h
      · simp at h
      · rename_i hok
        simp only [Bool.or_eq_true, Bool.not_eq_eq_eq_not, Bool.not_true, decide_eq_true_eq,
          not_or, Bool.not_eq_false, not_lt] at hok
        obtain ⟨hok, _⟩ := hok
        subst hok
        obtain ⟨_, hhex⟩ := xtoiLoop_hex s 0 0 n c hx
        simp only [Nat.sub_zero] at hhex
        have hsplit : dotOK s = dotOK (s.drop c) := by
          conv_lhs => rw [← List.take_append_drop c s]
          exact dotOK_append_nodots _ _ (fun x hx => hex_ne_dot x (hhex x hx))
        split at h
        · split at h
          · simp at h
          · split at h
            · simp at h
            · split at h
              · simp at h
              · rename_i p4 hp4
                exact parseIPv4Loop_dotOK _ _ _ _ hp4
        · split at h
          · rename_i hdrop
            rw [hsplit, hdrop]; rfl
          · rename_i c0 s1 hdrop
            split at h
            · simp at h
            · rename_i hc0
              simp only [ne_eq, List.length_eq_zero, not_or, not_not] at hc0
              obtain ⟨hc0, _⟩ := hc0
              subst hc0
              split at h
              · simp at h
              · rename_i c1 s2
                rw [hsplit, hdrop, dotOK_cons_of_ne _ _ (by decide)]
                split at h
                · rename_i hc1
                  subst hc1
                  rw [dotOK_cons_of_ne _ _ (by decide)]
                  split at h
                  · simp at h
                  · split at h
                    · rename_i hs2
                      simp only [List.length_eq_zero] at hs2
                      subst hs2; rfl
                    · exact ih _ _ _ _ h
                · exact ih _ _ _ _ h

theorem parseIPv6_dotOK (s : List Char) (h : parseIPv6 s ≠ []) : dotOK s = true := by
  have key : ∀ (ell : Option Nat) (t : List Char),
      (match parseIPv6Loop 8 [] ell t with | none => [] | some ip => ip) ≠ [] →
      dotOK t = true := by
    intro ell t ht
    cases hr : parseIPv6Loop 8 [] ell t with
    | none => simp [hr] at ht
    | some r => exact parseIPv6Loop_dotOK _ _ _ _ _ hr
  unfold parseIPv6 at h
  split at h
  · rename_i c0 c1 t
    by_cases hcc : c0 = ':' ∧ c1 = ':'
    · obtain ⟨rfl, rfl⟩ := hcc
      rw [dotOK_cons_of_ne _ _ (by decide), dotOK_cons_of_ne _ _ (by decide)]
      simp only [and_self, if_true] at h
      by_cases ht : t.length = 0
      · simp only [List.length_eq_zero] at ht
        subst ht; rfl
      · simp only [ht, if_false] at h
        exact key _ _ h
    · simp only [hcc, if_false] at h
      exact key _ _ h
  · exact key _ _ h

theorem ParseIP_go_dotOK (whole : List Char) : ∀ (s : List Char), ParseIP.go whole s ≠ [] →
    dotOK whole = true := by
  intro s
  induction s with
  | nil => intro h; simp [ParseIP.go] at h
  | cons c cs ih =>
    intro h
    simp only [ParseIP.go] at h
    split at h
    · obtain ⟨_, _, _, _, p, hp, _⟩ := parseIPv4_spec whole h
      exact parseIPv4Loop_dotOK _ _ _ _ hp
    · split at h
      · exact parseIPv6_dotOK whole h
      · exact ih h

/-- The text of an address has no `..` and does not end in `.`. -/
theorem ParseIP_dotOK (s : List Char) (h : ParseIP s ≠ []) : dotOK s = true :=
  ParseIP_go_dotOK s s h

/-- Go `strings.Split(s + ".." + e, "..")` for two addresses. -/
theorem splitDotDot_addresses (s e : List Char) (hs : ParseIP s ≠ []) (he : ParseIP e ≠ []) :
    splitDotDot (s ++ "..".toList ++ e) = [s, e] := by
  have := splitDotDot_range s e (ParseIP_dotOK s hs)
    (containsDotDot_of_dotOK e (ParseIP_dotOK e he))
  simpa using this

set_option exponentiation.threshold 2000 in
set_option maxRecDepth 100000 in
/-- The float64 difference `2^h - 2` is exact up to `h = 54` and rounds to
`2^h` above. -/
theorem roundF64_pow_sub_two : ∀ h, h < 129 → 2 ≤ h →
    roundF64 (2 ^ h - 2) = F64.fin (if h ≤ 54 then 2 ^ h - 2 else 2 ^ h) := by
  decide

theorem To4_ne_nil_iff_range (q : List Nat) (hl : q.length = 16) (hb : ∀ b ∈ q, b < 256) :
    To4 q ≠ [] ↔ (0xffff00000000 ≤ setBytes q ∧ setBytes q < 2 ^ 48) := by
  have hsplit : setBytes q = setBytes (q.take 12) * 256 ^ 4 + setBytes (q.drop 12) := by
    conv_lhs => rw [← List.take_append_drop 12 q, setBytes_append]
    simp [hl]
  have hd : setBytes (q.drop 12) < 256 ^ 4 := by
    have := setBytes_lt (q.drop 12) (fun b hb' => hb b (List.mem_of_mem_drop hb'))
    simpa [hl] using this
  have hpfx : setBytes v4InV6Pfx = 0xffff := by decide
  rw [ne_eq, To4_eq_nil_iff q hl, not_not]
  constructor
  · intro h
    rw [h, hpfx] at hsplit
    constructor <;> omega
  · rintro ⟨h1, h2⟩
    apply setBytes_inj _ _ (by simp [hl, v4InV6Pfx])
      (fun b hb' => hb b (List.mem_of_mem_take hb')) (by decide)
    rw [hpfx]
    omega

theorem split1_of_mem (sep : Char) (s : List Char) (h : sep ∈ s) :
    split1 sep s = s.takeWhile (· ≠ sep) :: split1 sep ((s.dropWhile (· ≠ sep)).drop 1) := by
  induction s with
  | nil => simp at h
  | cons c cs ih =>
    by_cases hc : c = sep
    · simp [split1, hc, List.takeWhile, List.dropWhile]
    · have hm : sep ∈ cs := by
        rcases List.mem_cons.1 h with h | h
        · exact absurd h.symm hc
        · exact h
      simp only [split1, hc, if_false, List.takeWhile, List.dropWhile, ne_eq, not_false_eq_true,
        decide_True]
      rw [ih hm]
      rfl

theorem dtoiLoop_atoi (s : List Char) : ∀ (n i n1 : Nat),
    dtoiLoop s n i = (n1, i + s.length, true) → atoiDigits s n = some n1 := by
  induction s with
  | nil =>
    intro n i n1 h
    simp only [dtoiLoop] at h
    split at h
    · simp at h
    · simp only [Prod.mk.injEq] at h
      simp [atoiDigits, h.1]
  | cons c cs ih =>
    intro n i n1 h
    simp only [dtoiLoop] at h
    by_cases hd : isDigit c = true
    · simp only [hd, if_true] at h
      split at h
      · simp at h
      · rename_i hbig
        simp only [atoiDigits, hd, if_true]
        rw [if_neg (by unfold parseBig at hbig; omega)]
        apply ih _ (i + 1)
        rw [h]
        simp only [List.length_cons]
        congr 2
        omega
    · simp only [hd, Bool.false_eq_true, if_false] at h
      split at h
      · simp at h
      · simp only [Prod.mk.injEq, List.length_cons] at h
        omega

theorem Atoi_of_dtoi (s : List Char) (n : Nat) (h : dtoi s = (n, s.length, true))
    (hn : n < 2 ^ 63) : Atoi s = (n : Int) := by
  have hat : atoiDigits s 0 = some n := dtoiLoop_atoi s 0 0 n (by simpa [dtoi] using h)
  have hpos : 0 < s.length := dtoiLoop_pos s 0 0 n s.length h
  obtain ⟨hle, hdig⟩ := dtoiLoop_digits s 0 0 n s.length h
  cases s with
  | nil => simp at hpos
  | cons c cs =>
    have hc : isDigit c = true := hdig c (by simp)
    have h1 : c ≠ '-' := by rintro rfl; revert hc; decide
    have h2 : c ≠ '+' := by rintro rfl; revert hc; decide
    unfold Atoi
    simp only [List.head?_cons, Option.some.injEq, h1, h2, or_self, if_false, hat]
    simp
    omega

theorem ParseCIDR_mask (c : List Char) (ip : List Nat) (net : IPNet)
    (h : ParseCIDR c = some (ip, net)) :
    '/' ∈ c ∧ ∃ n, dtoi ((c.dropWhile (· ≠ '/')).drop 1)
        = (n, ((c.dropWhile (· ≠ '/')).drop 1).length, true) ∧
      (net.Mask = CIDRMask n 32 ∧ n ≤ 32 ∨ net.Mask = CIDRMask n 128 ∧ n ≤ 128) := by
  unfold ParseCIDR at h
  by_cases hslash : '/' ∈ c
  swap
  · simp [hslash] at h
  simp only [hslash, not_true_eq_false, if_false] at h
  rcases hd : dtoi ((c.dropWhile (· ≠ '/')).drop 1) with ⟨n, i, ok⟩
  simp only [hd] at h
  refine ⟨hslash, n, ?_⟩
  by_cases h4 : parseIPv4 (c.takeWhile (· ≠ '/')) = []
  · simp only [h4, if_true] at h
    split at h
    · simp at h
    · rename_i hcond
      simp only [not_or, Bool.not_eq_true, Bool.not_eq_false', ne_eq, not_not, not_lt] at hcond
      obtain ⟨-, hok, hi, hn⟩ := hcond
      simp only [Option.some.injEq, Prod.mk.injEq] at h
      refine ⟨by rw [hok, hi], Or.inr ⟨by rw [← h.2], by omega⟩⟩
  · simp only [h4, if_false] at h
    split at h
    · simp at h
    · rename_i hcond
      simp only [not_or, Bool.not_eq_true, Bool.not_eq_false', ne_eq, not_not, not_lt] at hcond
      obtain ⟨-, hok, hi, hn⟩ := hcond
      simp only [Option.some.injEq, Prod.mk.injEq] at h
      refine ⟨by rw [hok, hi], Or.inl ⟨by rw [← h.2], by omega⟩⟩

theorem bitLenAux_le : ∀ (f a k : Nat), a < 2 ^ k → bitLenAux f a ≤ k := by
  intro f
  induction f with
  | zero => intro a k _; simp [bitLenAux]
  | succ f ih =>
    intro a k h
    simp only [bitLenAux]
    split
    · omega
    · rename_i ha
      cases k with
      | zero => simp at h; exact absurd h ha
      | succ k =>
        have : a / 2 < 2 ^ k := by
          rw [pow_succ] at h
          omega
        have := ih (a / 2) k this
        omega

set_option exponentiation.threshold 2000 in
/-- A natural number below `2^53` is a float64: rounding leaves it as it is. -/
theorem roundF64_exact (v : Nat) (h : v < 2 ^ 53) : roundF64 v = F64.fin v := by
  have hb : bitLen v - 53 = 0 := by
    have := bitLenAux_le v v 53 h
    unfold bitLen
    omega
  have hlt : v < 2 ^ 1024 :=
    lt_trans h (Nat.pow_lt_pow_right Nat.one_lt_two (by norm_num))
  unfold roundF64
  simp only [hb, pow_zero, Nat.div_one, Nat.mod_one, Nat.mul_zero, Nat.mul_one]
  have hq : (if 0 > 1 ∨ 0 = 1 ∧ v % 2 = 1 then v + 1 else v) = v := if_neg (by omega)
  rw [hq, if_pos hlt]

theorem roundInt_exact (x : Int) (h0 : 0 ≤ x) (h : x < 2 ^ 53) : roundInt x = Float64.fin x := by
  obtain ⟨v, rfl⟩ := Int.eq_ofNat_of_zero_le h0
  have hv : v < 2 ^ 53 := by exact_mod_cast h
  unfold roundInt
  simp only [Int.natAbs_ofNat, roundF64_exact v hv]
  simp

theorem containsDotDot_range (s e : List Char) :
    containsDotDot (s ++ '.' :: '.' :: e) = true := by
  induction s with
  | nil => simp [containsDotDot]
  | cons c s ih =>
    cases s with
    | nil => simp [containsDotDot]
    | cons d s =>
      simp only [List.cons_append] at ih ⊢
      simp only [containsDotDot, ih]
      simp

set_option exponentiation.threshold 2000 in
set_option maxRecDepth 100000 in
/-- The number `2^53 + 1` lies halfway between two float64 values and is
rounded to the even one, `2^53`. -/
theorem roundF64_tie :
    roundF64 9007199254740993 = F64.fin 9007199254740992 ∧
      roundF64 9007199254740992 = F64.fin 9007199254740992 := by
  decide

theorem roundInt_tie :
    roundInt 9007199254740993 = Float64.fin 9007199254740992 ∧
      roundInt 9007199254740992 = Float64.fin 9007199254740992 := by
  unfold roundInt
  have e : (9007199254740993 : Int).natAbs = 9007199254740993 := by decide
  have e2 : (9007199254740992 : Int).natAbs = 9007199254740992 := by decide
  rw [e, e2, roundF64_tie.1, roundF64_tie.2]
  simp

end GoStd

/-! ## Lemmas on the address functions -/

namespace Util

open GoStd

theorem beforeSlash_of_not_mem (s : List Char) (h : '/' ∉ s) : beforeSlash s = s := by
  simp [beforeSlash, split1_of_not_mem _ _ h]

theorem CheckProtocol_of_no_comma (s : List Char) (h : ',' ∉ s) :
    CheckProtocol s =
      if To4 (ParseIP (beforeSlash s)) ≠ [] then Protocol.IPv4 else Protocol.IPv6 := by
  simp [CheckProtocol, split1_of_not_mem _ _ h]

theorem CheckProtocol_v4 (s : List Char) (h : To4 (ParseIP s) ≠ []) :
    CheckProtocol s = Protocol.IPv4 := by
  have hp := To4_ne_nil_imp _ h
  rw [CheckProtocol_of_no_comma s (ParseIP_no_comma s hp),
    beforeSlash_of_not_mem s (ParseIP_no_slash s hp)]
  simp [h]

theorem CheckProtocol_v6 (s : List Char) (hp : ParseIP s ≠ []) (h : To4 (ParseIP s) = []) :
    CheckProtocol s = Protocol.IPv6 := by
  rw [CheckProtocol_of_no_comma s (ParseIP_no_comma s hp),
    beforeSlash_of_not_mem s (ParseIP_no_slash s hp)]
  simp [h]

theorem CheckProtocol_dual (v4 v6 : List Char) (h4 : To4 (ParseIP v4) ≠ [])
    (h6 : ParseIP v6 ≠ []) : CheckProtocol (v4 ++ ",".toList ++ v6) = Protocol.Dual := by
  have hp := To4_ne_nil_imp _ h4
  have hs : split1 ',' (v4 ++ ",".toList ++ v6) = [v4, v6] := by
    have : v4 ++ ",".toList ++ v6 = v4 ++ ',' :: v6 := by simp
    rw [this, split1_append_sep _ _ _ (ParseIP_no_comma v4 hp),
      split1_of_not_mem _ _ (ParseIP_no_comma v6 h6)]
  unfold CheckProtocol
  simp only [hs]
  rw [beforeSlash_of_not_mem v4 (ParseIP_no_slash v4 hp),
    beforeSlash_of_not_mem v6 (ParseIP_no_slash v6 h6)]
  simp [h4, To16_ne_nil_of_length _ (ParseIP_spec v6 h6).2.1]

theorem beforeSlash_eq (s : List Char) : beforeSlash s = s.takeWhile (· ≠ '/') :=
  split1_headD '/' s

theorem To4_mkIPv4 (p : List Nat) (hp : p.length = 4) : To4 (mkIPv4 p) = p := by
  simp [To4, mkIPv4, v4InV6Pfx, hp]

theorem ipBytes_mkIPv4 (p : List Nat) (hp : p.length = 4) : ipBytes (mkIPv4 p) = p := by
  have : p ≠ [] := by intro e; simp [e] at hp
  simp [ipBytes, To4_mkIPv4 p hp, this]

theorem ParseCIDR_no_comma (c : List Char) (ip : List Nat) (net : IPNet)
    (h : ParseCIDR c = some (ip, net)) : ',' ∉ c := by
  intro hm
  rcases (ParseCIDR_spec c ip net h).2.2.1 _ hm with h1 | h1
  · revert h1; decide
  · revert h1; decide

theorem CheckProtocol_of_ParseCIDR (c : List Char) (ip : List Nat) (net : IPNet)
    (h : ParseCIDR c = some (ip, net)) :
    CheckProtocol c = if To4 ip ≠ [] then Protocol.IPv4 else Protocol.IPv6 := by
  rw [CheckProtocol_of_no_comma c (ParseCIDR_no_comma c ip net h), beforeSlash_eq,
    ← (ParseCIDR_spec c ip net h).1]

/-- What `ParseCIDR` returns for a well-formed block: the bytes `p` of the
address of its family (`l` of them), a prefix length `n`, and the network
obtained by masking `p`. -/
theorem block_view (c : List Char) (f : Protocol) (h : blockFamily c = some f) :
    ∃ (ip : List Nat) (net : IPNet) (l n : Nat) (p : List Nat),
      ParseCIDR c = some (ip, net) ∧ (f = Protocol.IPv4 ∧ l = 4 ∨ f = Protocol.IPv6 ∧ l = 16) ∧
      p.length = l ∧ (∀ b ∈ p, b < 256) ∧ n ≤ 8 * l ∧ p = ipBytes ip ∧
      ip.length = 16 ∧ (∀ b ∈ ip, b < 256) ∧
      net = { IP := andBytes p (cidrMaskLoop l n), Mask := cidrMaskLoop l n } ∧
      (l = 16 → To4 (andBytes p (cidrMaskLoop l n)) = []) ∧
      CheckProtocol c = f := by
  unfold blockFamily at h
  split at h
  · simp at h
  · rename_i ip net hpc
    obtain ⟨hip, hne, _, n, hcase⟩ := ParseCIDR_spec c ip net hpc
    have hcp := CheckProtocol_of_ParseCIDR c ip net hpc
    have hipspec := ParseIP_spec _ (hip ▸ hne)
    rw [← hip] at hipspec
    rcases hcase with ⟨h4, hn, hnet⟩ | ⟨h4, hn, hnet⟩
    · obtain ⟨_, _, _, hb4, p, _, hpl, hmk⟩ := parseIPv4_spec _ h4
      have hipp : ip = mkIPv4 p := by rw [hip, ParseIP_eq_parseIPv4 _ h4, hmk]
      have hpb : ∀ b ∈ p, b < 256 := by
        intro b hb
        apply hipspec.2.2
        rw [hipp]; simp [mkIPv4, hb]
      rw [CIDRMask_32 n hn, hipp, ipMask_v4 p _ hpl (length_cidrMaskLoop 4 n)] at hnet
      have hlen : net.IP.length = 4 := by
        rw [hnet]
        simp only
        rw [length_andBytes _ _ (by rw [length_cidrMaskLoop, hpl]), hpl]
      simp only [hlen, if_true, Option.some.injEq] at h
      refine ⟨ip, net, 4, n, p, hpc, Or.inl ⟨h.symm, rfl⟩, hpl, hpb, by omega, ?_, hipspec.2.1,
        hipspec.2.2, hnet, by simp, ?_⟩
      · rw [hipp, ipBytes_mkIPv4 p hpl]
      · have : p ≠ [] := by intro e; simp [e] at hpl
        rw [hcp, hipp, To4_mkIPv4 p hpl, ← h]; simp [this]
    · rw [CIDRMask_128 n hn, ipMask_v6 ip _ hipspec.2.1 (length_cidrMaskLoop 16 n)] at hnet
      have hlen : net.IP.length = 16 := by
        rw [hnet]
        simp only
        rw [length_andBytes _ _ (by rw [length_cidrMaskLoop, hipspec.2.1]), hipspec.2.1]
      simp only [hlen, show ¬ (16 = 4) by decide, if_false] at h
      split at h
      · rename_i h4'
        simp only [Option.some.injEq] at h
        refine ⟨ip, net, 16, n, ip, hpc, Or.inr ⟨h.symm, rfl⟩, hipspec.2.1, hipspec.2.2, by omega,
          ?_, hipspec.2.1, hipspec.2.2, hnet,
          fun _ => To4_masked_v6 ip n hipspec.2.1 hipspec.2.2 hn h4', ?_⟩
        · simp [ipBytes, h4']
        · rw [hcp, ← h]; simp [h4']
      · simp at h

theorem blockView_of_family (c : List Char) (f : Protocol) (h : blockFamily c = some f) :
    ∃ l n p, BlockView c f l n p := by
  obtain ⟨ip, net, l, n, p, h1, h2, h3, h4, h5, h6, h7, h8, h9, h10, h11⟩ := block_view c f h
  have e1 : ipOf c = ip := by simp [ipOf, h1]
  have e2 : netOf c = net := by simp [netOf, h1]
  exact ⟨l, n, p, ⟨by rw [e1, e2]; exact h1, h2, h3, h4, h5, by rw [e1]; exact h6,
    by rw [e1]; exact ⟨Or.inr h7, h8⟩, by rw [e2]; exact h9, h10, h11⟩⟩

theorem BlockView.contains {c : List Char} {f : Protocol} {l n : Nat} {p : List Nat}
    (v : BlockView c f l n p) (x : List Nat) (hx : ∀ b ∈ x, b < 256) :
    (netOf c).Contains x = true ↔
      (ipBytes x).length = l ∧
        setBytes (ipBytes x) / 2 ^ (8 * l - n) = setBytes p / 2 ^ (8 * l - n) := by
  rw [v.net]
  have hl : l = 4 ∨ l = 16 := by rcases v.fam with h | h <;> simp [h.2]
  exact contains_iff l n p x hl v.len v.bytes v.ones v.notv4 hx

theorem BlockView.netIP {c : List Char} {f : Protocol} {l n : Nat} {p : List Nat}
    (v : BlockView c f l n p) :
    (netOf c).IP.length = l ∧ (∀ b ∈ (netOf c).IP, b < 256) ∧ ipBytes (netOf c).IP = (netOf c).IP ∧
      setBytes (netOf c).IP = setBytes p / 2 ^ (8 * l - n) * 2 ^ (8 * l - n) := by
  rw [v.net]
  have hlen : (andBytes p (cidrMaskLoop l n)).length = l := by
    rw [length_andBytes _ _ (by rw [length_cidrMaskLoop, v.len]), v.len]
  refine ⟨hlen, andBytes_lt _ _ v.bytes, ?_, setBytes_andBytes_mask l n p v.len v.bytes v.ones⟩
  rcases v.fam with h | h
  · exact ipBytes_of_length4 _ (by rw [hlen, h.2])
  · exact ipBytes_of_To4_nil _ (v.notv4 h.2)

theorem BlockView.family {c : List Char} {f : Protocol} {l n : Nat} {p : List Nat}
    (v : BlockView c f l n p) : blockFamily c = some f := by
  have hp := v.parse
  have hl := v.netIP.1
  unfold blockFamily
  rw [hp]
  simp only
  rcases v.fam with ⟨rfl, rfl⟩ | ⟨rfl, rfl⟩
  · simp [hl]
  · have h4 : To4 (ipOf c) = [] := by
      by_contra hne
      have hpip := v.pip
      simp only [ipBytes, hne, ne_eq, not_false_eq_true, if_true] at hpip
      have hlen := v.len
      rw [hpip] at hlen
      have := v.isip.1
      simp only [To4] at hlen
      split at hlen
      · omega
      · split at hlen
        · simp at hlen; omega
        · simp at hlen
    simp [hl, h4]

theorem conflictInner_valid (ca : List Char) (hca : ParseCIDR ca = some (ipOf ca, netOf ca)) :
    ∀ (bs : List (List Char)), (∀ cb ∈ bs, ParseCIDR cb = some (ipOf cb, netOf cb)) →
      ((∃ cb ∈ bs, pairHit ca cb) → conflictInner ca bs = some true) ∧
      ((¬ ∃ cb ∈ bs, pairHit ca cb) → conflictInner ca bs = none) := by
  intro bs
  induction bs with
  | nil => intro _; simp [conflictInner]
  | cons cb rest ih =>
    intro hb
    have hcb := hb cb (by simp)
    obtain ⟨ih1, ih2⟩ := ih (fun x hx => hb x (List.mem_cons_of_mem _ hx))
    simp only [conflictInner, hca, hcb]
    by_cases hp : CheckProtocol ca = CheckProtocol cb
    · by_cases hc : (netOf ca).Contains (ipOf cb) = true ∨ (netOf cb).Contains (ipOf ca) = true
      · have : ((netOf ca).Contains (ipOf cb) || (netOf cb).Contains (ipOf ca)) = true := by
          simpa using hc
        simp only [hp, ne_eq, not_true_eq_false, if_false, this, if_true, implies_true, true_and]
        intro hno
        exact absurd ⟨cb, by simp, hp, hc⟩ hno
      · have : ((netOf ca).Contains (ipOf cb) || (netOf cb).Contains (ipOf ca)) = false := by
          simpa using hc
        simp only [hp, ne_eq, not_true_eq_false, if_false, this, Bool.false_eq_true]
        constructor
        · rintro ⟨x, hx, hhit⟩
          rcases List.mem_cons.1 hx with rfl | hx
          · exact absurd hhit.2 hc
          · exact ih1 ⟨x, hx, hhit⟩
        · intro hno
          exact ih2 (fun ⟨x, hx, hhit⟩ => hno ⟨x, List.mem_cons_of_mem _ hx, hhit⟩)
    · simp only [ne_eq, hp, not_false_eq_true, if_true]
      constructor
      · rintro ⟨x, hx, hhit⟩
        rcases List.mem_cons.1 hx with rfl | hx
        · exact absurd hhit.1 hp
        · exact ih1 ⟨x, hx, hhit⟩
      · intro hno
        exact ih2 (fun ⟨x, hx, hhit⟩ => hno ⟨x, List.mem_cons_of_mem _ hx, hhit⟩)

theorem conflictOuter_valid (bs : List (List Char))
    (hb : ∀ cb ∈ bs, ParseCIDR cb = some (ipOf cb, netOf cb)) :
    ∀ (as : List (List Char)), (∀ ca ∈ as, ParseCIDR ca = some (ipOf ca, netOf ca)) →
      (conflictOuter bs as = true ↔ ∃ ca ∈ as, ∃ cb ∈ bs, pairHit ca cb) := by
  intro as
  induction as with
  | nil => intro _; simp [conflictOuter]
  | cons ca rest ih =>
    intro ha
    obtain ⟨h1, h2⟩ := conflictInner_valid ca (ha ca (by simp)) bs hb
    have ih' := ih (fun x hx => ha x (List.mem_cons_of_mem _ hx))
    simp only [conflictOuter]
    by_cases hex : ∃ cb ∈ bs, pairHit ca cb
    · rw [h1 hex]
      simp only [true_iff]
      exact ⟨ca, by simp, hex⟩
    · rw [h2 hex]
      simp only
      rw [ih']
      constructor
      · rintro ⟨x, hx, h⟩
        exact ⟨x, List.mem_cons_of_mem _ hx, h⟩
      · rintro ⟨x, hx, h⟩
        rcases List.mem_cons.1 hx with rfl | hx
        · exact absurd h hex
        · exact ⟨x, hx, h⟩

theorem BlockView.self_ip {c : List Char} {f : Protocol} {l n : Nat} {p : List Nat}
    (v : BlockView c f l n p) :
    (ipBytes (ipOf c)).length = l ∧ setBytes (ipBytes (ipOf c)) = setBytes p := by
  rw [← v.pip]; exact ⟨v.len, rfl⟩

theorem shares_iff_hit {ca cb : List Char} {f : Protocol} {l na nb : Nat} {pa pb : List Nat}
    (va : BlockView ca f l na pa) (vb : BlockView cb f l nb pb) :
    (SharesAddress ca cb ↔
      ((netOf ca).Contains (ipOf cb) = true ∨ (netOf cb).Contains (ipOf ca) = true)) ∧
    (SharesAddress ca cb ↔
      ((netOf ca).Contains (netOf cb).IP = true ∨ (netOf cb).Contains (netOf ca).IP = true)) := by
  have cA := fun x hx => va.contains x hx
  have cB := fun x hx => vb.contains x hx
  obtain ⟨sa1, sa2⟩ := va.self_ip
  obtain ⟨sb1, sb2⟩ := vb.self_ip
  obtain ⟨na1, na2, na3, na4⟩ := va.netIP
  obtain ⟨nb1, nb2, nb3, nb4⟩ := vb.netIP
  have hAa : (netOf ca).Contains (ipOf ca) = true := by
    rw [cA _ va.isip.2]; exact ⟨sa1, by rw [sa2]⟩
  have hBb : (netOf cb).Contains (ipOf cb) = true := by
    rw [cB _ vb.isip.2]; exact ⟨sb1, by rw [sb2]⟩
  have hAn : (netOf ca).Contains (netOf ca).IP = true := by
    rw [cA _ na2, na3]; exact ⟨na1, by rw [na4, floor_div_self]⟩
  have hBn : (netOf cb).Contains (netOf cb).IP = true := by
    rw [cB _ nb2, nb3]; exact ⟨nb1, by rw [nb4, floor_div_self]⟩
  have hipA : IsIP (netOf ca).IP := by
    refine ⟨?_, na2⟩
    rcases va.fam with h | h <;> simp [na1, h.2]
  have hipB : IsIP (netOf cb).IP := by
    refine ⟨?_, nb2⟩
    rcases vb.fam with h | h <;> simp [nb1, h.2]
  have fwd : SharesAddress ca cb →
      ((netOf ca).Contains (ipOf cb) = true ∨ (netOf cb).Contains (ipOf ca) = true) ∧
      ((netOf ca).Contains (netOf cb).IP = true ∨ (netOf cb).Contains (netOf ca).IP = true) := by
    rintro ⟨x, hx, hxa, hxb⟩
    rw [cA x hx.2] at hxa
    rw [cB x hx.2] at hxb
    rcases Nat.le_total (8 * l - na) (8 * l - nb) with hle | hle
    · -- the block `ca` is the smaller one
      have e := div_pow_mono _ _ _ _ hle hxa.2
      constructor
      · right
        rw [cB _ va.isip.2]
        exact ⟨sa1, by rw [sa2, ← e, hxb.2]⟩
      · right
        rw [cB _ na2, na3]
        exact ⟨na1, by rw [na4, floor_div_pow _ _ _ hle, ← e, hxb.2]⟩
    · have e := div_pow_mono _ _ _ _ hle hxb.2
      constructor
      · left
        rw [cA _ vb.isip.2]
        exact ⟨sb1, by rw [sb2, ← e, hxa.2]⟩
      · left
        rw [cA _ nb2, nb3]
        exact ⟨nb1, by rw [nb4, floor_div_pow _ _ _ hle, ← e, hxa.2]⟩
  constructor
  · constructor
    · exact fun h => (fwd h).1
    · rintro (h | h)
      · exact ⟨ipOf cb, vb.isip, h, hBb⟩
      · exact ⟨ipOf ca, va.isip, hAa, h⟩
  · constructor
    · exact fun h => (fwd h).2
    · rintro (h | h)
      · exact ⟨(netOf cb).IP, hipB, h, hBn⟩
      · exact ⟨(netOf ca).IP, hipA, hAn, h⟩

theorem not_shares_of_length {ca cb : List Char} {fa fb : Protocol} {la lb na nb : Nat}
    {pa pb : List Nat} (va : BlockView ca fa la na pa) (vb : BlockView cb fb lb nb pb)
    (hne : la ≠ lb) : ¬ SharesAddress ca cb := by
  rintro ⟨x, hx, hxa, hxb⟩
  rw [va.contains x hx.2] at hxa
  rw [vb.contains x hx.2] at hxb
  exact hne (hxa.1.symm.trans hxb.1)

theorem BlockView.length_of_family {c : List Char} {f : Protocol} {l n : Nat} {p : List Nat}
    (v : BlockView c f l n p) : l = if f = Protocol.IPv4 then 4 else 16 := by
  rcases v.fam with ⟨rfl, rfl⟩ | ⟨rfl, rfl⟩ <;> simp

theorem parse_of_valid (c : List Char) (h : IsValidBlock c) :
    ParseCIDR c = some (ipOf c, netOf c) ∧ ∃ f, blockFamily c = some f := by
  cases hf : blockFamily c with
  | none => exact absurd hf h
  | some f =>
    obtain ⟨l, n, p, v⟩ := blockView_of_family c f hf
    exact ⟨v.parse, f, rfl⟩

theorem Ip2BigInt_eq (s : List Char) (h : ParseIP s ≠ []) :
    Ip2BigInt s = (setBytes (ipBytes (ParseIP s)) : Int) := by
  unfold Ip2BigInt
  by_cases h4 : To4 (ParseIP s) = []
  · rw [CheckProtocol_v6 s h h4]
    simp [ipBytes, h4, To16, (ParseIP_spec s h).2.1]
  · rw [CheckProtocol_v4 s h4]
    simp [ipBytes, h4]

theorem ipBytes_To16 (ip : List Nat) (hl : ip.length = 4 ∨ ip.length = 16) :
    ipBytes (To16 ip) = ipBytes ip := by
  unfold ipBytes
  rw [To4_To16 ip hl]
  by_cases h4 : To4 ip = []
  · have h16 : ip.length = 16 := by
      rcases hl with h | h
      · simp [To4, h] at h4
        subst h4; simp at h
      · exact h
    simp [h4, To16, h16]
  · simp [h4]

/-- The value that `Ip2BigInt` reads from the printed form of an address. -/
theorem Ip2BigInt_ipString (ip : List Nat) (h : IsIP ip) :
    Ip2BigInt (ipString ip) = (setBytes (ipBytes ip) : Int) := by
  have hp := ParseIP_ipString ip h
  have hne : ParseIP (ipString ip) ≠ [] := by
    rw [hp]
    intro e
    have := To16_length ip h.1
    rw [e] at this
    simp at this
  rw [Ip2BigInt_eq _ hne, hp, ipBytes_To16 ip h.1]

theorem Ip2BigInt_nonneg_lt (s : List Char) : 0 ≤ Ip2BigInt s ∧ Ip2BigInt s < 2 ^ 128 := by
  by_cases h : ParseIP s = []
  · have : Ip2BigInt s = 0 := by
      unfold Ip2BigInt
      simp [h, To4, To16, setBytes]
    rw [this]; simp
  · rw [Ip2BigInt_eq s h]
    obtain ⟨_, hl, hb⟩ := ParseIP_spec s h
    have hbl := ipBytes_lt _ hb
    have hlt := setBytes_lt _ hbl
    have hlen : (ipBytes (ParseIP s)).length ≤ 16 := by
      unfold ipBytes
      split
      · rename_i h4
        rw [To4_length _ h4 (Or.inr hl)]; omega
      · omega
    have : (256 : Nat) ^ (ipBytes (ParseIP s)).length ≤ 2 ^ 128 := by
      calc (256 : Nat) ^ (ipBytes (ParseIP s)).length ≤ 256 ^ 16 :=
            Nat.pow_le_pow_right (by norm_num) hlen
        _ = 2 ^ 128 := by norm_num
    constructor
    · exact Int.natCast_nonneg _
    · have h2 : setBytes (ipBytes (ParseIP s)) < 2 ^ 128 := lt_of_lt_of_le hlt this
      exact_mod_cast h2

/-- Printing of a big integer in the address range: the text is the
printed form of the 4 or 16 bytes of the value. -/
theorem BigInt2Ip_of_nat (v : Nat) (hv : v < 2 ^ 128) :
    ∃ q, BigInt2Ip (v : Int) = some (ipString q) ∧ IsIP q ∧ setBytes q = v ∧
      (q.length = 4 ↔ v < 2 ^ 32) := by
  unfold BigInt2Ip fillBytes
  simp only [Int.natAbs_ofNat]
  by_cases h : 2 ^ 32 ≤ v
  · have hl : bytesLen v > 4 := (bytesLen_gt4 v).2 h
    obtain ⟨t1, t2, t3⟩ := toBytes_spec 16 v
    simp only [hl, if_true, show v < 256 ^ 16 by norm_num at hv ⊢; omega, Option.map_some']
    refine ⟨toBytes 16 v, rfl, ⟨Or.inr t1, t2⟩, ?_, ?_⟩
    · rw [t3]; exact Nat.mod_eq_of_lt (by norm_num at hv ⊢; omega)
    · rw [t1]; constructor
      · intro h'; omega
      · intro h'; omega
  · have hl : ¬ bytesLen v > 4 := fun h' => h ((bytesLen_gt4 v).1 h')
    obtain ⟨t1, t2, t3⟩ := toBytes_spec 4 v
    simp only [hl, if_false, show v < 256 ^ 4 by norm_num at h ⊢; omega, if_true,
      Option.map_some']
    refine ⟨toBytes 4 v, rfl, ⟨Or.inl t1, t2⟩, ?_, ?_⟩
    · rw [t3]; exact Nat.mod_eq_of_lt (by norm_num at h ⊢; omega)
    · rw [t1]; constructor
      · intro _; omega
      · intro _; rfl

theorem BigInt2Ip_of_range (x : Int) (h0 : 0 ≤ x) (h1 : x < 2 ^ 128) :
    ∃ s, BigInt2Ip x = some s ∧ Ip2BigInt s % 2 ^ 32 = x % 2 ^ 32 ∧
      (x < 2 ^ 32 → Ip2BigInt s = x) := by
  obtain ⟨v, rfl⟩ := Int.eq_ofNat_of_zero_le h0
  have hv : v < 2 ^ 128 := by exact_mod_cast h1
  obtain ⟨q, hq1, hq2, hq3, hq4⟩ := BigInt2Ip_of_nat v hv
  refine ⟨ipString q, hq1, ?_, ?_⟩
  · rw [Ip2BigInt_ipString q hq2]
    have := setBytes_ipBytes_mod q hq2
    rw [hq3] at this
    exact_mod_cast this
  · intro hlt
    have hlt' : v < 2 ^ 32 := by exact_mod_cast hlt
    rw [Ip2BigInt_ipString q hq2, ipBytes_of_length4 q (hq4.2 hlt'), hq3]

theorem BlockView.maskSize_eq {c : List Char} {f : Protocol} {l n : Nat} {p : List Nat}
    (v : BlockView c f l n p) : maskSize (netOf c).Mask = (n, 8 * l) := by
  rw [v.net]
  have := v.ones
  rcases v.fam with ⟨_, rfl⟩ | ⟨_, rfl⟩
  · exact maskSize_v4 n (by omega)
  · exact maskSize_v6 n (by omega)

theorem BlockView.hostBits_eq {c : List Char} {f : Protocol} {l n : Nat} {p : List Nat}
    (v : BlockView c f l n p) : hostBits c = 8 * l - n := by
  simp [hostBits, v.maskSize_eq]

/-- The arithmetic of a well-formed block with `h` host bits: the network
number is `base`, a multiple of `2^h`, and the functions of the source add
`1`, `2^h - 1` and `2^h - 2` to it. -/
theorem BlockView.arith {c : List Char} {f : Protocol} {l n : Nat} {p : List Nat}
    (v : BlockView c f l n p) :
    ∃ base : Nat, base = setBytes p / 2 ^ (8 * l - n) * 2 ^ (8 * l - n) ∧
      base + 2 ^ (8 * l - n) ≤ 2 ^ (8 * l) ∧
      SubnetNumber c = some (ipString (netOf c).IP) ∧
      Ip2BigInt (ipString (netOf c).IP) = (base : Int) ∧
      SubnetBroadcast c = BigInt2Ip ((base : Int) + (2 ^ (8 * l - n) - 1)) ∧
      FirstIP c = (BigInt2Ip ((base : Int) + 1)).map (fun ip => (ip, none)) ∧
      LastIP c = (BigInt2Ip ((base : Int) + (2 ^ (8 * l - n) - 2))).map (fun ip => (ip, none)) := by
  obtain ⟨n1, n2, n3, n4⟩ := v.netIP
  have hl : l = 4 ∨ l = 16 := by rcases v.fam with h | h <;> simp [h.2]
  have hip : IsIP (netOf c).IP := ⟨by rw [n1]; exact hl, n2⟩
  have hbase : Ip2BigInt (ipString (netOf c).IP)
      = ((setBytes p / 2 ^ (8 * l - n) * 2 ^ (8 * l - n) : Nat) : Int) := by
    rw [Ip2BigInt_ipString _ hip, n3, n4]
  have hP : setBytes p < 2 ^ (8 * l) := by
    have := setBytes_lt p v.bytes
    rw [v.len] at this
    rw [pow_mul]; exact_mod_cast this
  have hlen : (if CheckProtocol c = Protocol.IPv4 then 32 else 128) = 8 * l := by
    rw [v.proto]
    rcases v.fam with ⟨rfl, rfl⟩ | ⟨rfl, rfl⟩ <;> simp
  have hones := v.ones
  have htop : ∀ k : Int, topAddress c (netOf c) k
      = BigInt2Ip (((setBytes p / 2 ^ (8 * l - n) * 2 ^ (8 * l - n) : Nat) : Int)
          + (2 ^ (8 * l - n) - k)) := by
    intro k
    unfold topAddress
    simp only [hlen, v.maskSize_eq, hbase]
    rw [uintSub_small _ _ hones (by rcases hl with rfl | rfl <;> omega)]
    have : 8 * l - n < maxShift := by
      have : 8 * l - n ≤ 128 := by rcases hl with rfl | rfl <;> omega
      unfold maxShift
      omega
    simp [lshOne, this]
  refine ⟨_, rfl, floor_add_le _ _ _ hP (by omega), ?_, hbase, ?_, ?_, ?_⟩
  · simp [SubnetNumber, v.parse]
  · simp only [SubnetBroadcast, v.parse, htop]
  · simp only [FirstIP, v.parse, hbase]
  · simp only [LastIP, v.parse, htop]

theorem CIDRContainIP_parses (blk a : List Char) (hb : ',' ∉ blk)
    (h : CIDRContainIP blk a = true) : ParseCIDR blk ≠ none := by
  intro hp
  simp [CIDRContainIP, split1_of_not_mem _ _ hb, containOuter, hp] at h

theorem valid_block_returns (blk : List Char) (hv : IsValidBlock blk) :
    ∃ num b, SubnetNumber blk = some num ∧ SubnetBroadcast blk = some b := by
  obtain ⟨_, f, hf⟩ := parse_of_valid blk hv
  obtain ⟨l, n, p, v⟩ := blockView_of_family blk f hf
  obtain ⟨base, _, hle, hnum, _, hb, _, _⟩ := v.arith
  have hl : 8 * l ≤ 128 := by rcases v.fam with ⟨_, rfl⟩ | ⟨_, rfl⟩ <;> omega
  have hpow : (2 : Nat) ^ (8 * l) ≤ 2 ^ 128 := Nat.pow_le_pow_right (by norm_num) hl
  have hpos : 0 < 2 ^ (8 * l - n) := by positivity
  have h1 : (0 : Int) ≤ (base : Int) + (2 ^ (8 * l - n) - 1) := by
    have : (1 : Int) ≤ 2 ^ (8 * l - n) := by exact_mod_cast hpos
    have : (0 : Int) ≤ (base : Int) := Int.natCast_nonneg _
    omega
  have h2 : (base : Int) + (2 ^ (8 * l - n) - 1) < 2 ^ 128 := by
    have : ((base + 2 ^ (8 * l - n) : Nat) : Int) ≤ ((2 ^ 128 : Nat) : Int) := by
      exact_mod_cast le_trans hle hpow
    push_cast at this
    omega
  obtain ⟨s, hs, _⟩ := BigInt2Ip_of_range _ h1 h2
  exact ⟨_, s, hnum, by rw [hb, hs]⟩

theorem expandSingle_spec (a : List Char) : ∀ (blocks rv : List (List Char)),
    (∀ blk ∈ blocks, ',' ∉ blk ∧ (ParseCIDR blk = none ∨ IsValidBlock blk)) →
    ((∃ blk ∈ blocks, acceptsSingle a blk) → expandSingle a blocks rv = some (rv ++ [a])) ∧
    ((¬ ∃ blk ∈ blocks, acceptsSingle a blk) → expandSingle a blocks rv = some rv) := by
  intro blocks
  induction blocks with
  | nil => intro rv _; simp [expandSingle]
  | cons blk rest ih =>
    intro rv hb
    obtain ⟨hcomma, hvalid⟩ := hb blk (by simp)
    obtain ⟨ih1, ih2⟩ := ih rv (fun x hx => hb x (List.mem_cons_of_mem _ hx))
    have hskip : ¬ acceptsSingle a blk → expandSingle a rest rv = some (rv ++ [a]) ∨
        expandSingle a rest rv = some rv →
        ((∃ b ∈ blk :: rest, acceptsSingle a b) → expandSingle a rest rv = some (rv ++ [a])) ∧
        ((¬ ∃ b ∈ blk :: rest, acceptsSingle a b) → expandSingle a rest rv = some rv) := by
      intro hna _
      constructor
      · rintro ⟨x, hx, hacc⟩
        rcases List.mem_cons.1 hx with rfl | hx
        · exact absurd hacc hna
        · exact ih1 ⟨x, hx, hacc⟩
      · intro hno
        exact ih2 (fun ⟨x, hx, hacc⟩ => hno ⟨x, List.mem_cons_of_mem _ hx, hacc⟩)
    have hrest : expandSingle a rest rv = some (rv ++ [a]) ∨ expandSingle a rest rv = some rv := by
      by_cases hex : ∃ b ∈ rest, acceptsSingle a b
      · exact Or.inl (ih1 hex)
      · exact Or.inr (ih2 hex)
    simp only [expandSingle]
    by_cases hcon : CIDRContainIP blk a = true
    · have hv : IsValidBlock blk := by
        rcases hvalid with h | h
        · exact absurd h (CIDRContainIP_parses blk a hcomma hcon)
        · exact h
      obtain ⟨num, b, hnum, hbc⟩ := valid_block_returns blk hv
      simp only [hcon, if_true, hnum, hbc]
      by_cases h1 : a = num
      · have hna : ¬ acceptsSingle a blk := by
          rintro ⟨_, h, _⟩; exact h (by rw [hnum, h1])
        rw [if_neg (not_not.2 h1)]
        exact hskip hna hrest
      · rw [if_pos h1]
        by_cases h2 : a = b
        · have hna : ¬ acceptsSingle a blk := by
            rintro ⟨_, _, h⟩; exact h (by rw [hbc, h2])
          rw [if_neg (not_not.2 h2)]
          exact hskip hna hrest
        · have hacc : acceptsSingle a blk :=
            ⟨hcon, by rw [hnum]; simpa using fun e => h1 e.symm,
              by rw [hbc]; simpa using fun e => h2 e.symm⟩
          rw [if_pos h2]
          constructor
          · intro _; rfl
          · intro hno
            exact absurd ⟨blk, by simp, hacc⟩ hno
    · have hna : ¬ acceptsSingle a blk := fun h => hcon h.1
      simp only [hcon, Bool.false_eq_true, if_false]
      exact hskip hna hrest

theorem BigInt2Ip_Ip2BigInt_some (t : List Char) : ∃ p, BigInt2Ip (Ip2BigInt t) = some p := by
  obtain ⟨h0, h1⟩ := Ip2BigInt_nonneg_lt t
  obtain ⟨p, hp, _⟩ := BigInt2Ip_of_range _ h0 h1
  exact ⟨p, hp⟩

/-- Membership in a well-formed block is membership in the numeric range
of `2^hostBits` addresses that starts at the network number. -/
theorem BlockView.contains_range {c : List Char} {f : Protocol} {l n : Nat} {p : List Nat}
    (v : BlockView c f l n p) (x : List Nat) (hx : ∀ b ∈ x, b < 256) :
    (netOf c).Contains x = true ↔
      (ipBytes x).length = (netOf c).IP.length ∧
        setBytes (netOf c).IP ≤ setBytes (ipBytes x) ∧
        setBytes (ipBytes x) < setBytes (netOf c).IP + 2 ^ hostBits c := by
  obtain ⟨n1, _, _, n4⟩ := v.netIP
  rw [v.contains x hx, v.hostBits_eq, n1, n4,
    div_eq_div_iff_range _ _ _ (by positivity : 0 < 2 ^ (8 * l - n))]

theorem parse_eq_of_ne_none (c : List Char) (h : ParseCIDR c ≠ none) :
    ParseCIDR c = some (ipOf c, netOf c) := by
  cases hp : ParseCIDR c with
  | none => exact absurd hp h
  | some r => simp [ipOf, netOf, hp]

theorem pairHit_symm (ca cb : List Char) : pairHit ca cb ↔ pairHit cb ca := by
  unfold pairHit
  constructor
  · rintro ⟨h1, h2⟩; exact ⟨h1.symm, h2.symm⟩
  · rintro ⟨h1, h2⟩; exact ⟨h1.symm, h2.symm⟩

/-- The range branch on one block: for a well-formed block `c` with at least two host bits and an
entry that splits at `..` into `s` and `e` of the family of `c`,
`FirstIP c` and `LastIP c` return addresses and `ExpandExcludeIPs [entry] c`
returns the intersection of the range `s .. e` with `FirstIP c .. LastIP c`
(compared as the numbers `Ip2BigInt` reads, printed by `BigInt2Ip`):
nothing when `s > e` or the intersection is empty, one address when it is a
single address, and the range `max(s,first)..min(e,last)` otherwise. -/
theorem expand_range_entry (c entry s e : List Char) (f : Protocol)
    (hc : blockFamily c = some f) (hh : 2 ≤ hostBits c) (hsplit : splitDotDot entry = [s, e])
    (hs : CheckProtocol s = f) (he : CheckProtocol e = f) :
    ∃ first last, FirstIP c = some (first, none) ∧ LastIP c = some (last, none) ∧
      ExpandExcludeIPs [entry] c
        = renderRange (intersectRange (Ip2BigInt s) (Ip2BigInt e) (Ip2BigInt first)
            (Ip2BigInt last)) ∧
      ExpandExcludeIPs [entry] c ≠ none := by
  obtain ⟨l, n, p, v⟩ := blockView_of_family c f hc
  obtain ⟨base, _, hle, _, _, hbc, hfirst, hlast⟩ := v.arith
  rw [v.hostBits_eq] at hh
  set h := 8 * l - n with hdef
  have hl : 8 * l ≤ 128 := by rcases v.fam with ⟨_, rfl⟩ | ⟨_, rfl⟩ <;> omega
  have hpow : (2 : Nat) ^ (8 * l) ≤ 2 ^ 128 := Nat.pow_le_pow_right (by norm_num) hl
  -- the three numbers
  obtain ⟨k, hk⟩ : ∃ k, 2 ^ h = 4 * k + 4 := by
    have e : h = (h - 2) + 2 := by omega
    have hpos : 0 < 2 ^ (h - 2) := by positivity
    refine ⟨2 ^ (h - 2) - 1, ?_⟩
    rw [e, pow_add]
    norm_num
    omega
  obtain ⟨j, hj⟩ : ∃ j, base = 4 * j := by
    rename_i hb
    rw [hb, hk]
    exact ⟨setBytes p / (4 * k + 4) * (k + 1), by ring⟩
  have hkI : ((2 : Int) ^ h) = 4 * (k : Int) + 4 := by exact_mod_cast hk
  have hjI : (base : Int) = 4 * (j : Int) := by exact_mod_cast hj
  have hleI : (base : Int) + 2 ^ h ≤ 2 ^ 128 := by
    have : ((base + 2 ^ h : Nat) : Int) ≤ ((2 ^ 128 : Nat) : Int) := by
      exact_mod_cast le_trans hle hpow
    push_cast at this
    omega
  have hj0 : (0 : Int) ≤ (j : Int) := Int.natCast_nonneg _
  have hk0 : (0 : Int) ≤ (k : Int) := Int.natCast_nonneg _
  obtain ⟨sx, hsx, mx, _⟩ := BigInt2Ip_of_range ((base : Int) + 1) (by omega) (by omega)
  obtain ⟨sy, hsy, my, _⟩ := BigInt2Ip_of_range ((base : Int) + (2 ^ h - 1)) (by omega) (by omega)
  obtain ⟨sz, hsz, _⟩ := BigInt2Ip_of_range ((base : Int) + (2 ^ h - 2)) (by omega) (by omega)
  have hne : sx ≠ sy := by
    intro e
    rw [e] at mx
    rw [mx] at my
    norm_num at my
    omega
  have hF : FirstIP c = some (sx, none) := by rw [hfirst, hsx]; rfl
  have hB : SubnetBroadcast c = some sy := by rw [hbc, hsy]
  have hL : LastIP c = some (sz, none) := by rw [hlast, hsz]; rfl
  have hcontains : containsDotDot entry = true := by
    by_contra hcd
    have := splitDotDot_of_not_contains entry (by simpa using hcd)
    rw [hsplit] at this
    simp at this
  have hcomma : split1 ',' c = [c] := split1_of_not_mem _ _ (ParseCIDR_no_comma _ _ _ v.parse)
  have hproto : CheckProtocol c = CheckProtocol s := by rw [v.proto, hs]
  refine ⟨sx, sz, hF, hL, ?_⟩
  have hexp : ExpandExcludeIPs [entry] c
      = renderRange (intersectRange (Ip2BigInt s) (Ip2BigInt e) (Ip2BigInt sx)
          (Ip2BigInt sz)) := by
    simp only [ExpandExcludeIPs, expandLoop, hcontains, if_true, hsplit, hs, he, ne_eq,
      not_true_eq_false, if_false, hcomma]
    by_cases hse : Ip2BigInt s > Ip2BigInt e
    · simp [hse, intersectRange, renderRange]
    · simp only [hse, if_false, expandRange, hproto, ne_eq, not_true_eq_false, hF, hB, hne, hL,
        intersectRange]
      have hmax : (if Ip2BigInt s < Ip2BigInt sx then Ip2BigInt sx else Ip2BigInt s)
          = max (Ip2BigInt s) (Ip2BigInt sx) := by
        rw [max_def]; split_ifs <;> omega
      have hmin : (if Ip2BigInt e > Ip2BigInt sz then Ip2BigInt sz else Ip2BigInt e)
          = min (Ip2BigInt e) (Ip2BigInt sz) := by
        rw [min_def]; split_ifs <;> omega
      rw [hmax, hmin]
      obtain ⟨p, hp⟩ : ∃ p, BigInt2Ip (max (Ip2BigInt s) (Ip2BigInt sx)) = some p := by
        rcases max_choice (Ip2BigInt s) (Ip2BigInt sx) with h | h <;> rw [h] <;>
          exact BigInt2Ip_Ip2BigInt_some _
      obtain ⟨q, hq⟩ : ∃ q, BigInt2Ip (min (Ip2BigInt e) (Ip2BigInt sz)) = some q := by
        rcases min_choice (Ip2BigInt e) (Ip2BigInt sz) with h | h <;> rw [h] <;>
          exact BigInt2Ip_Ip2BigInt_some _
      generalize max (Ip2BigInt s) (Ip2BigInt sx) = lo at hp ⊢
      generalize min (Ip2BigInt e) (Ip2BigInt sz) = hi at hq ⊢
      rcases lt_trichotomy lo hi with hlt | heq | hgt
      · rw [if_neg (ne_of_lt hlt), if_pos hlt, if_pos (le_of_lt hlt)]
        simp only [hp, hq, renderRange, if_neg (ne_of_lt hlt), expandRange, List.nil_append]
      · subst heq
        rw [if_pos rfl, if_pos (le_refl _)]
        simp only [hp, renderRange, if_true, expandRange, List.nil_append, Option.map_some']
      · rw [if_neg (ne_of_gt hgt), if_neg (not_lt.2 (le_of_lt hgt)), if_neg (not_le.2 hgt)]
        simp only [renderRange, expandRange]
  refine ⟨hexp, ?_⟩
  rw [hexp]
  obtain ⟨p, hp⟩ : ∃ p, BigInt2Ip (max (Ip2BigInt s) (Ip2BigInt sx)) = some p := by
    rcases max_choice (Ip2BigInt s) (Ip2BigInt sx) with h | h <;> rw [h] <;>
      exact BigInt2Ip_Ip2BigInt_some _
  obtain ⟨q, hq⟩ : ∃ q, BigInt2Ip (min (Ip2BigInt e) (Ip2BigInt sz)) = some q := by
    rcases min_choice (Ip2BigInt e) (Ip2BigInt sz) with h | h <;> rw [h] <;>
      exact BigInt2Ip_Ip2BigInt_some _
  unfold intersectRange
  generalize max (Ip2BigInt s) (Ip2BigInt sx) = lo at hp ⊢
  generalize min (Ip2BigInt e) (Ip2BigInt sz) = hi at hq ⊢
  by_cases hse : Ip2BigInt s > Ip2BigInt e
  · rw [if_pos hse]; simp [renderRange]
  · rw [if_neg hse]
    by_cases hle' : lo ≤ hi
    · rw [if_pos hle']
      by_cases heq : lo = hi
      · subst heq
        simp only [renderRange, if_true, hp]
        simp
      · simp only [renderRange, heq, if_false, hp, hq]
        simp
    · rw [if_neg hle']; simp [renderRange]

theorem To16_ne_nil_iff (s : List Char) : To16 (ParseIP s) ≠ [] ↔ ParseIP s ≠ [] := by
  constructor
  · intro h hp
    rw [hp] at h
    exact h (by decide)
  · intro h
    exact To16_ne_nil_of_length _ (ParseIP_spec s h).2.1

theorem CheckProtocol_dual_iff (s : List Char) :
    CheckProtocol s = Protocol.Dual ↔
      ∃ p0 p1, split1 ',' s = [p0, p1] ∧ To4 (ParseIP (beforeSlash p0)) ≠ [] ∧
        ParseIP (beforeSlash p1) ≠ [] := by
  unfold CheckProtocol
  constructor
  · intro h
    rcases hs : split1 ',' s with _ | ⟨p0, _ | ⟨p1, _ | ⟨p2, t⟩⟩⟩
    · simp only [hs] at h
      split at h
      · simp at *
      · split at h <;> simp at h
    · simp only [hs] at h
      split at h
      · simp at *
      · split at h <;> simp at h
    · simp only [hs] at h
      split at h
      · rename_i hd
        simp only [decide_eq_true_eq] at hd
        exact ⟨p0, p1, rfl, hd.1, (To16_ne_nil_iff _).1 hd.2⟩
      · split at h <;> simp at h
    · simp only [hs] at h
      split at h
      · simp at *
      · split at h <;> simp at h
  · rintro ⟨p0, p1, hs, h4, h6⟩
    simp [hs, h4, (To16_ne_nil_iff _).2 h6]

theorem split1_pair (a b : List Char) (ha : ',' ∉ a) (hb : ',' ∉ b) :
    split1 ',' (a ++ ",".toList ++ b) = [a, b] := by
  have : a ++ ",".toList ++ b = a ++ ',' :: b := by simp
  rw [this, split1_append_sep _ _ _ ha, split1_of_not_mem _ _ hb]

theorem AddressCount_eq (network : IPNet) (p bits : Nat)
    (hm : maskSize network.Mask = (p, bits)) (hb : bits ≤ 128) :
    AddressCount network =
      if bits - p < 2 then F64.fin 0
      else F64.fin (if bits - p ≤ 54 then 2 ^ (bits - p) - 2 else 2 ^ (bits - p)) := by
  unfold AddressCount
  simp only [hm]
  by_cases h2 : bits - p < 2
  · simp [h2]
  · simp only [h2, if_false]
    have hlt : bits - p < 1024 := by omega
    simp only [pow2, hlt, if_true, F64.subTwo]
    exact roundF64_pow_sub_two (bits - p) (by omega) (by omega)

theorem BigInt2Ip_value (x : Int) (h0 : 0 ≤ x) (h1 : x < 2 ^ 128) :
    ∃ s, BigInt2Ip x = some s ∧ Ip2BigInt s = printedValue x := by
  obtain ⟨v, rfl⟩ := Int.eq_ofNat_of_zero_le h0
  have hv : v < 2 ^ 128 := by exact_mod_cast h1
  obtain ⟨q, hq1, hq2, hq3, hq4⟩ := BigInt2Ip_of_nat v hv
  refine ⟨ipString q, hq1, ?_⟩
  rw [Ip2BigInt_ipString q hq2]
  unfold printedValue
  by_cases h32 : v < 2 ^ 32
  · rw [ipBytes_of_length4 q (hq4.2 h32), hq3, if_neg]
    intro h
    have : (0xffff00000000 : Int) ≤ (v : Int) := h.1
    omega
  · have hl : q.length = 16 := by
      rcases hq2.1 with h | h
      · exact absurd (hq4.1 h) h32
      · exact h
    have hiff := To4_ne_nil_iff_range q hl hq2.2
    rw [hq3] at hiff
    by_cases hm : To4 q = []
    · rw [ipBytes_of_To4_nil q hm, hq3, if_neg]
      intro h
      apply (not_not.2 hm) 
      apply hiff.2
      constructor
      · have := h.1; omega
      · have := h.2; omega
    · have hr := hiff.1 hm
      have hr1 := hr.1
      have hr2 := hr.2
      rw [if_pos ⟨by omega, by omega⟩]
      unfold ipBytes
      simp only [hm, ne_eq, not_false_eq_true, if_true]
      have hsplit : setBytes q = setBytes (q.take 12) * 256 ^ 4 + setBytes (q.drop 12) := by
        conv_lhs => rw [← List.take_append_drop 12 q, setBytes_append]
        simp [hl]
      have hto4 : To4 q = q.drop 12 := by
        have ht : q.take 12 = v4InV6Pfx := by
          have := (To4_eq_nil_iff q hl).not.1 hm
          exact not_not.1 this
        simp [To4, hl, ht]
      have ht : q.take 12 = v4InV6Pfx := by
        have := (To4_eq_nil_iff q hl).not.1 hm
        exact not_not.1 this
      have hpfx : setBytes v4InV6Pfx = 0xffff := by decide
      rw [ht, hpfx, hq3] at hsplit
      rw [hto4]
      omega

theorem BlockView.values {c : List Char} {f : Protocol} {l n : Nat} {p : List Nat}
    (v : BlockView c f l n p) :
    ∃ base : Nat, 2 ^ hostBits c ∣ base ∧ base + 2 ^ hostBits c ≤ 2 ^ (8 * l) ∧
      (f = Protocol.IPv4 → base + 2 ^ hostBits c ≤ 2 ^ 32) ∧
      ¬ (0xffff00000000 ≤ base ∧ base < 2 ^ 48) ∧
      SubnetNumber c = some (ipString (netOf c).IP) ∧
      Ip2BigInt (ipString (netOf c).IP) = (base : Int) ∧
      SubnetBroadcast c = BigInt2Ip ((base : Int) + (2 ^ hostBits c - 1)) ∧
      FirstIP c = (BigInt2Ip ((base : Int) + 1)).map (fun ip => (ip, none)) ∧
      LastIP c = (BigInt2Ip ((base : Int) + (2 ^ hostBits c - 2))).map (fun ip => (ip, none)) ∧
      setBytes (netOf c).IP = base := by
  obtain ⟨base, hb, hle, h1, h2, h3, h4, h5⟩ := v.arith
  obtain ⟨n1, n2, n3, n4⟩ := v.netIP
  rw [← v.hostBits_eq] at hb hle h3 h5 n4
  refine ⟨base, ?_, hle, ?_, ?_, h1, h2, h3, h4, h5, by rw [n4, hb]⟩
  · rw [hb]; exact Dvd.intro_left _ rfl
  · intro hf
    rcases v.fam with ⟨_, rfl⟩ | ⟨h6, _⟩
    · simpa using hle
    · rw [hf] at h6; cases h6
  · rcases v.fam with ⟨_, rfl⟩ | ⟨_, rfl⟩
    · intro h
      have : base + 2 ^ hostBits c ≤ 2 ^ 32 := by simpa using hle
      have : 0 < 2 ^ hostBits c := Nat.pos_of_ne_zero (by positivity)
      omega
    · have hnot := v.notv4 rfl
      have hnet : (netOf c).IP = andBytes p (cidrMaskLoop 16 n) := by rw [v.net]
      rw [← hnet] at hnot
      have := (To4_ne_nil_iff_range _ n1 n2).not.1 (not_not.2 hnot)
      rw [n4, ← hb] at this
      exact this

theorem valid_block_values (c : List Char) (hv : IsValidBlock c) :
    ∃ (base : Nat) (num : List Char), 2 ^ hostBits c ∣ base ∧ base + 2 ^ hostBits c ≤ 2 ^ 128 ∧
      (blockFamily c = some Protocol.IPv4 → base + 2 ^ hostBits c ≤ 2 ^ 32) ∧
      ¬ (0xffff00000000 ≤ base ∧ base < 2 ^ 48) ∧
      SubnetNumber c = some num ∧ Ip2BigInt num = (base : Int) ∧
      SubnetBroadcast c = BigInt2Ip ((base : Int) + (2 ^ hostBits c - 1)) ∧
      FirstIP c = (BigInt2Ip ((base : Int) + 1)).map (fun ip => (ip, none)) ∧
      LastIP c = (BigInt2Ip ((base : Int) + (2 ^ hostBits c - 2))).map (fun ip => (ip, none)) ∧
      setBytes (netOf c).IP = base := by
  obtain ⟨_, f, hf⟩ := parse_of_valid c hv
  obtain ⟨l, n, p, v⟩ := blockView_of_family c f hf
  obtain ⟨base, h1, h2, h3, h4, h5, h6, h7, h8, h9, h10⟩ := v.values
  refine ⟨base, _, h1, ?_, ?_, h4, h5, h6, h7, h8, h9, h10⟩
  · rcases v.fam with ⟨_, rfl⟩ | ⟨_, rfl⟩
    · have : base + 2 ^ hostBits c ≤ 2 ^ 32 := by simpa using h2
      omega
    · simpa using h2
  · intro h
    rw [hf] at h
    exact h3 (Option.some.inj h)

theorem first_last_with_host_bit (c : List Char) (hv : IsValidBlock c)
    (hh : 1 ≤ hostBits c) :
    ∃ num bcast first last, SubnetNumber c = some num ∧ SubnetBroadcast c = some bcast ∧
      FirstIP c = some (first, none) ∧ LastIP c = some (last, none) ∧
      Ip2BigInt first = Ip2BigInt num + 1 ∧ Ip2BigInt last = Ip2BigInt bcast - 1 := by
  obtain ⟨base, num, hd, hle, -, hM, h1, h2, h3, h4, h5, -⟩ := valid_block_values c hv
  obtain ⟨a, ha⟩ := hd
  obtain ⟨k, hk⟩ : ∃ k, hostBits c = k + 1 := ⟨hostBits c - 1, by omega⟩
  have hpow : (2 : Nat) ^ hostBits c = 2 * 2 ^ k := by rw [hk, pow_succ, Nat.mul_comm]
  have hbase : base = 2 * (2 ^ k * a) := by rw [ha, hpow]; ring
  have hpos : 0 < 2 ^ k := Nat.pos_of_ne_zero (by positivity)
  set u := 2 ^ k * a with hu
  set t := 2 ^ k with ht
  have hpowZ : (2 : Int) ^ hostBits c = 2 * (t : Int) := by
    have : ((2 ^ hostBits c : Nat) : Int) = ((2 * t : Nat) : Int) := by rw [hpow]
    push_cast at this
    exact this
  rw [hpow] at hle
  have e128 : (2 : Int) ^ 128 = 340282366920938463463374607431768211456 := by norm_num
  have e48 : (2 : Int) ^ 48 = 281474976710656 := by norm_num
  obtain ⟨sb, hsb1, hsb2⟩ := BigInt2Ip_value ((base : Int) + (2 ^ hostBits c - 1))
    (by rw [hpowZ]; omega) (by rw [hpowZ, e128]; norm_num at hle; omega)
  obtain ⟨sf, hsf1, hsf2⟩ := BigInt2Ip_value ((base : Int) + 1)
    (by omega) (by rw [e128]; norm_num at hle; omega)
  obtain ⟨sl, hsl1, hsl2⟩ := BigInt2Ip_value ((base : Int) + (2 ^ hostBits c - 2))
    (by rw [hpowZ]; omega) (by rw [hpowZ, e128]; norm_num at hle; omega)
  refine ⟨num, sb, sf, sl, h1, by rw [h3, hsb1], by rw [h4, hsf1]; rfl, by rw [h5, hsl1]; rfl,
    ?_, ?_⟩
  · rw [hsf2, h2]
    unfold printedValue
    rw [if_neg]
    rw [e48]
    intro h
    apply hM
    norm_num
    omega
  · rw [hsl2, hsb2]
    unfold printedValue
    rw [hpowZ, e48]
    split_ifs with c1 c2 c2 <;> omega

theorem first_last_single_address (c : List Char) (hv : IsValidBlock c)
    (hh : hostBits c = 0)
    (hx : setBytes (netOf c).IP ∉ [0, 0xfffeffffffff, 2 ^ 48, 2 ^ 128 - 1]) :
    ∃ num bcast first last, SubnetNumber c = some num ∧ SubnetBroadcast c = some bcast ∧
      FirstIP c = some (first, none) ∧ LastIP c = some (last, none) ∧
      Ip2BigInt first = Ip2BigInt num + 1 ∧ Ip2BigInt last = Ip2BigInt bcast - 1 := by
  obtain ⟨base, num, hd, hle, -, hM, h1, h2, h3, h4, h5, h6⟩ := valid_block_values c hv
  rw [h6] at hx
  rw [hh] at hle h3 h5
  simp only [pow_zero] at hle h3 h5
  norm_num at hx hle hM
  obtain ⟨x1, x2, x3, x4⟩ := hx
  have e128 : (2 : Int) ^ 128 = 340282366920938463463374607431768211456 := by norm_num
  have e48 : (2 : Int) ^ 48 = 281474976710656 := by norm_num
  obtain ⟨sb, hsb1, hsb2⟩ := BigInt2Ip_value ((base : Int) + (1 - 1))
    (by omega) (by rw [e128]; omega)
  obtain ⟨sf, hsf1, hsf2⟩ := BigInt2Ip_value ((base : Int) + 1)
    (by omega) (by rw [e128]; omega)
  obtain ⟨sl, hsl1, hsl2⟩ := BigInt2Ip_value ((base : Int) + (1 - 2))
    (by omega) (by rw [e128]; omega)
  refine ⟨num, sb, sf, sl, h1, by rw [h3, hsb1], by rw [h4, hsf1]; rfl, by rw [h5, hsl1]; rfl,
    ?_, ?_⟩
  · rw [hsf2, h2]
    unfold printedValue
    rw [e48]
    split_ifs with c1 <;> omega
  · rw [hsl2, hsb2]
    unfold printedValue
    rw [e48]
    split_ifs with c1 c2 c2 <;> omega

theorem broadcast_number (c : List Char) (hv : IsValidBlock c) :
    ∃ num bcast, SubnetNumber c = some num ∧ SubnetBroadcast c = some bcast ∧
      Ip2BigInt bcast = printedValue (Ip2BigInt num + (2 ^ hostBits c - 1)) ∧
      (blockFamily c = some Protocol.IPv4 →
        Ip2BigInt bcast = Ip2BigInt num + (2 ^ hostBits c - 1)) := by
  obtain ⟨base, num, hd, hle, h4, hM, h1, h2, h3, -, -, -⟩ := valid_block_values c hv
  have hpos : 0 < 2 ^ hostBits c := Nat.pos_of_ne_zero (by positivity)
  have e128 : (2 : Int) ^ 128 = 340282366920938463463374607431768211456 := by norm_num
  have e48 : (2 : Int) ^ 48 = 281474976710656 := by norm_num
  have hcast : ((2 ^ hostBits c : Nat) : Int) = (2 : Int) ^ hostBits c := by push_cast; rfl
  obtain ⟨sb, hsb1, hsb2⟩ := BigInt2Ip_value ((base : Int) + (2 ^ hostBits c - 1))
    (by rw [← hcast]; omega) (by rw [← hcast, e128]; norm_num at hle; omega)
  refine ⟨num, sb, h1, by rw [h3, hsb1], by rw [hsb2, h2], ?_⟩
  intro hf
  have := h4 hf
  rw [hsb2, h2]
  unfold printedValue
  rw [if_neg]
  rw [← hcast]
  norm_num at this ⊢
  omega

theorem first_last_between (c : List Char) (hv : IsValidBlock c) (hh : 2 ≤ hostBits c)
    (hx : blockFamily c = some Protocol.IPv4 ∨
      ¬ (0xffff00000000 ≤ setBytes (netOf c).IP + 2 ^ hostBits c - 1 ∧
          setBytes (netOf c).IP + 2 ^ hostBits c - 1 < 2 ^ 48)) :
    ∃ num bcast first last, SubnetNumber c = some num ∧ SubnetBroadcast c = some bcast ∧
      FirstIP c = some (first, none) ∧ LastIP c = some (last, none) ∧
      Ip2BigInt num < Ip2BigInt first ∧ Ip2BigInt first ≤ Ip2BigInt last ∧
      Ip2BigInt last < Ip2BigInt bcast := by
  obtain ⟨base, num, hd, hle, h4, hM, h1, h2, h3, h5, h6, h7⟩ := valid_block_values c hv
  rw [h7] at hx
  obtain ⟨a, ha⟩ := hd
  obtain ⟨k, hk⟩ : ∃ k, hostBits c = k + 2 := ⟨hostBits c - 2, by omega⟩
  have hpow : (2 : Nat) ^ hostBits c = 4 * 2 ^ k := by rw [hk, pow_add]; ring
  have hpos : 0 < 2 ^ k := Nat.pos_of_ne_zero (by positivity)
  have hbase : base = 4 * (2 ^ k * a) := by rw [ha, hpow]; ring
  set u := 2 ^ k * a with hu
  set t := 2 ^ k with ht
  have hpowZ : (2 : Int) ^ hostBits c = 4 * (t : Int) := by
    have : ((2 ^ hostBits c : Nat) : Int) = ((4 * t : Nat) : Int) := by rw [hpow]
    push_cast at this
    exact this
  have hx' : ¬ (0xffff00000000 ≤ base + 4 * t - 1 ∧ base + 4 * t - 1 < 2 ^ 48) := by
    rcases hx with hx | hx
    · have := h4 hx
      rw [hpow] at this
      norm_num at this ⊢
      omega
    · rw [hpow] at hx
      exact hx
  rw [hpow] at hle
  have e128 : (2 : Int) ^ 128 = 340282366920938463463374607431768211456 := by norm_num
  have e48 : (2 : Int) ^ 48 = 281474976710656 := by norm_num
  obtain ⟨sb, hsb1, hsb2⟩ := BigInt2Ip_value ((base : Int) + (2 ^ hostBits c - 1))
    (by rw [hpowZ]; omega) (by rw [hpowZ, e128]; norm_num at hle; omega)
  obtain ⟨sf, hsf1, hsf2⟩ := BigInt2Ip_value ((base : Int) + 1)
    (by omega) (by rw [e128]; norm_num at hle; omega)
  obtain ⟨sl, hsl1, hsl2⟩ := BigInt2Ip_value ((base : Int) + (2 ^ hostBits c - 2))
    (by rw [hpowZ]; omega) (by rw [hpowZ, e128]; norm_num at hle; omega)
  refine ⟨num, sb, sf, sl, h1, by rw [h3, hsb1], by rw [h5, hsf1]; rfl, by rw [h6, hsl1]; rfl,
    ?_⟩
  rw [hsf2, hsl2, hsb2, h2]
  unfold printedValue
  rw [hpowZ, e48]
  norm_num at hx' hM
  split_ifs <;> omega

theorem FirstIP_error_iff (c : List Char) :
    ((∃ e, FirstIP c = some ([], some e)) ↔ ParseCIDR c = none) ∧
    ((∃ e, LastIP c = some ([], some e)) ↔ ParseCIDR c = none) := by
  unfold FirstIP LastIP
  rcases h : ParseCIDR c with _ | ⟨ip, net⟩
  · simp
  · simp only [reduceCtorEq, iff_false, not_exists]
    constructor
    · intro e he
      rcases hb : BigInt2Ip (Ip2BigInt (ipString net.IP) + 1) with _ | s
      · simp [hb] at he
      · simp [hb] at he
    · intro e he
      rcases hb : topAddress c net 2 with _ | s
      · simp [hb] at he
      · simp [hb] at he

theorem getGwLoop_spec : ∀ (blocks gws : List (List Char)),
    (∀ b ∈ blocks, FirstIP b ≠ none) →
    (checkCidrsLoop blocks = none →
      ∃ gs, List.Forall₂ (fun b g => FirstIP b = some (g, none)) blocks gs ∧
        getGwLoop blocks gws = some (joinComma (gws ++ gs), none)) ∧
    (checkCidrsLoop blocks ≠ none → ∃ e, getGwLoop blocks gws = some ([], some e)) := by
  intro blocks
  induction blocks with
  | nil =>
    intro gws _
    refine ⟨fun _ => ⟨[], List.Forall₂.nil, by simp [getGwLoop]⟩, fun h => ?_⟩
    simp [checkCidrsLoop] at h
  | cons b rest ih =>
    intro gws hne
    have hb := hne b (List.mem_cons_self _ _)
    have hrest : ∀ x ∈ rest, FirstIP x ≠ none := fun x hx => hne x (List.mem_cons_of_mem _ hx)
    have herr := (FirstIP_error_iff b).1
    rcases hp : ParseCIDR b with _ | ⟨ip, net⟩
    · obtain ⟨e, he⟩ := herr.2 hp
      constructor
      · intro h
        simp [checkCidrsLoop, hp] at h
      · intro _
        exact ⟨e, by simp [getGwLoop, he]⟩
    · rcases hf : FirstIP b with _ | ⟨g, _ | e⟩
      · exact absurd hf hb
      · obtain ⟨i1, i2⟩ := ih (gws ++ [g]) hrest
        constructor
        · intro h
          have h' : checkCidrsLoop rest = none := by simpa [checkCidrsLoop, hp] using h
          obtain ⟨gs, hgs, hres⟩ := i1 h'
          refine ⟨g :: gs, List.Forall₂.cons hf hgs, ?_⟩
          simp only [getGwLoop, hf, hres]
          simp
        · intro h
          have h' : checkCidrsLoop rest ≠ none := by simpa [checkCidrsLoop, hp] using h
          obtain ⟨e, he⟩ := i2 h'
          exact ⟨e, by simp only [getGwLoop, hf, he]⟩
      · exfalso
        have hfe : FirstIP b = some ([], some e) := by
          unfold FirstIP at hf ⊢
          rw [hp] at hf ⊢
          rcases hq : BigInt2Ip (Ip2BigInt (ipString net.IP) + 1) with _ | s
          · simp [hq] at hf
          · simp [hq] at hf
        have := herr.1 ⟨e, hfe⟩
        rw [hp] at this
        cases this

theorem GetGwByCidr_spec (cidrStr : List Char)
    (hne : ∀ b ∈ split1 ',' cidrStr, FirstIP b ≠ none) :
    (CheckCidrs cidrStr = none →
      ∃ gs, List.Forall₂ (fun b g => FirstIP b = some (g, none)) (split1 ',' cidrStr) gs ∧
        GetGwByCidr cidrStr = some (joinComma gs, none)) ∧
    (CheckCidrs cidrStr ≠ none → ∃ e, GetGwByCidr cidrStr = some ([], some e)) := by
  have := getGwLoop_spec (split1 ',' cidrStr) [] hne
  simpa [CheckCidrs, GetGwByCidr] using this

theorem FirstIP_returns (c : List Char) (hv : IsValidBlock c)
    (hx : setBytes (netOf c).IP ≠ 2 ^ 128 - 1) : ∃ g, FirstIP c = some (g, none) := by
  obtain ⟨base, num, hd, hle, -, hM, h1, h2, h3, h4, h5, h6⟩ := valid_block_values c hv
  rw [h6] at hx
  have hpos : 0 < 2 ^ hostBits c := Nat.pos_of_ne_zero (by positivity)
  have e128 : (2 : Int) ^ 128 = 340282366920938463463374607431768211456 := by norm_num
  obtain ⟨sf, hsf1, -⟩ := BigInt2Ip_value ((base : Int) + 1)
    (by omega) (by rw [e128]; norm_num at hle hx; omega)
  exact ⟨sf, by rw [h4, hsf1]; rfl⟩

theorem appendGw_v4_gateway (g c4 c6 gw : List Char) (hg : CheckProtocol g = Protocol.IPv4)
    (h4 : CheckProtocol c4 = Protocol.IPv4) (h6 : CheckProtocol c6 = Protocol.IPv6)
    (hc4 : ',' ∉ c4) (hc6 : ',' ∉ c6) (hf : FirstIP c6 = some (gw, none)) :
    AppendGwByCidr g (c4 ++ ",".toList ++ c6) = some (g ++ ",".toList ++ gw, none) := by
  unfold AppendGwByCidr
  rw [split1_pair c4 c6 hc4 hc6]
  simp [appendGwLoop, hg, h4, h6, hf, joinComma]

theorem appendGw_v6_gateway (g c4 c6 gw : List Char) (hg : CheckProtocol g = Protocol.IPv6)
    (h4 : CheckProtocol c4 = Protocol.IPv4) (h6 : CheckProtocol c6 = Protocol.IPv6)
    (hc4 : ',' ∉ c4) (hc6 : ',' ∉ c6) (hf : FirstIP c4 = some (gw, none)) :
    AppendGwByCidr g (c4 ++ ",".toList ++ c6)
      = some (gw ++ ",".toList ++ g ++ ",".toList ++ g, none) := by
  unfold AppendGwByCidr
  rw [split1_pair c4 c6 hc4 hc6]
  simp [appendGwLoop, hg, h4, h6, hf, joinComma]

theorem bound_of_prefix : ∀ n : Nat, n < 32 →
    shlOne64 (uintSub (toUint (wrapInt (32 - (n : Int)))) 1) = ((2 ^ (31 - n) : Nat) : Int) := by
  decide

theorem block_v4_text (c : List Char) (hf : blockFamily c = some Protocol.IPv4) :
    ∃ n : Nat, n ≤ 32 ∧ hostBits c = 32 - n ∧
      split1 '/' c = [c.takeWhile (· ≠ '/'), (c.dropWhile (· ≠ '/')).drop 1] ∧
      Atoi ((c.dropWhile (· ≠ '/')).drop 1) = (n : Int) ∧
      Ip2BigInt (c.takeWhile (· ≠ '/')) = (setBytes (ipBytes (ipOf c)) : Int) ∧
      setBytes (ipBytes (ipOf c)) < 2 ^ 32 := by
  obtain ⟨l, n0, p, v⟩ := blockView_of_family c _ hf
  have hl : l = 4 := by
    rcases v.fam with ⟨_, h⟩ | ⟨h, _⟩
    · exact h
    · cases h
  subst hl
  obtain ⟨hslash, n, hd, hmask⟩ := ParseCIDR_mask c _ _ v.parse
  obtain ⟨hip1, hip2, -⟩ := ParseCIDR_spec c _ _ v.parse
  have hms := v.maskSize_eq
  have hn : n ≤ 32 ∧ maskSize (netOf c).Mask = (n, 32) := by
    rcases hmask with ⟨h1, h2⟩ | ⟨h1, h2⟩
    · refine ⟨h2, ?_⟩
      rw [h1]
      have : CIDRMask n 32 = cidrMaskLoop 4 n := by
        unfold CIDRMask
        simp [show ¬ n > 32 by omega]
      rw [this]
      exact maskSize_v4 n (by omega)
    · exfalso
      rw [h1] at hms
      have : CIDRMask n 128 = cidrMaskLoop 16 n := by
        unfold CIDRMask
        simp [show ¬ n > 128 by omega]
      rw [this, maskSize_v6 n (by omega)] at hms
      simp at hms
  obtain ⟨_, hdig⟩ := dtoiLoop_digits _ 0 0 n _ hd
  simp only [Nat.sub_zero, List.take_length] at hdig
  have hns : '/' ∉ (c.dropWhile (· ≠ '/')).drop 1 := by
    intro hm
    have := hdig _ hm
    revert this
    decide
  refine ⟨n, hn.1, ?_, ?_, Atoi_of_dtoi _ n hd (by have := hn.1; omega), ?_, ?_⟩
  · simp [hostBits, hn.2]
  · rw [split1_of_mem _ _ hslash, split1_of_not_mem _ _ hns]
  · rw [Ip2BigInt_eq _ (by rw [← hip1]; exact hip2), ← hip1]
  · have := setBytes_lt p v.bytes
    rw [v.len, v.pip] at this
    norm_num at this ⊢
    exact this

/-- The canonical text of an address number parses, and `Ip2BigInt` reads the
number back from it. -/
theorem addrText_facts (f : Protocol) (n : Nat) (h : isAddrNumber f n = true) :
    ParseIP (addrText f n) ≠ [] ∧ Ip2BigInt (addrText f n) = (n : Int) := by
  unfold addrText
  unfold isAddrNumber at h
  by_cases hf : f = Protocol.IPv4
  · simp only [hf, if_true, decide_eq_true_eq] at h ⊢
    obtain ⟨t1, t2, t3⟩ := toBytes_spec 4 n
    have hip : IsIP (toBytes 4 n) := ⟨Or.inl t1, t2⟩
    have e32 : (256 : Nat) ^ 4 = 2 ^ 32 := by norm_num
    refine ⟨?_, ?_⟩
    · rw [ParseIP_ipString _ hip]
      intro h0
      have := To16_length _ hip.1
      rw [h0] at this
      simp at this
    · rw [Ip2BigInt_ipString _ hip, ipBytes_of_length4 _ t1, t3]
      rw [Nat.mod_eq_of_lt (by rw [e32]; exact h)]
  · simp only [hf, if_false, Bool.and_eq_true, decide_eq_true_eq, Bool.not_eq_true',
      Bool.and_eq_false_iff, decide_eq_false_iff_not] at h ⊢
    obtain ⟨t1, t2, t3⟩ := toBytes_spec 16 n
    have hip : IsIP (toBytes 16 n) := ⟨Or.inr t1, t2⟩
    have e128 : (256 : Nat) ^ 16 = 2 ^ 128 := by norm_num
    have hset : setBytes (toBytes 16 n) = n := by
      rw [t3, Nat.mod_eq_of_lt (by rw [e128]; exact h.1)]
    have h4 : To4 (toBytes 16 n) = [] := by
      by_contra hne
      have := (To4_ne_nil_iff_range (toBytes 16 n) t1 t2).1 hne
      rw [hset] at this
      rcases h.2 with h' | h' <;> omega
    refine ⟨?_, ?_⟩
    · rw [ParseIP_ipString _ hip]
      exact To16_ne_nil_of_length _ t1
    · rw [Ip2BigInt_ipString _ hip, ipBytes_of_To4_nil _ h4, hset]

theorem addrText_inj (f : Protocol) (m n : Nat) (hm : isAddrNumber f m = true)
    (hn : isAddrNumber f n = true) (h : addrText f m = addrText f n) : m = n := by
  have h1 := (addrText_facts f m hm).2
  have h2 := (addrText_facts f n hn).2
  rw [h] at h1
  have : (m : Int) = n := by rw [← h1, h2]
  exact_mod_cast this

/-- On the text of a well-formed entry and the canonical text of an address
of the family, `ContainsIPs` is the test on the numbers. -/
theorem ContainsIPs_entry (f : Protocol) (x : ExcludeEntry) (n : Nat)
    (hx : x.wellFormed f = true) (hn : isAddrNumber f n = true) :
    ContainsIPs (x.text f) (addrText f n) = x.covers n := by
  cases x with
  | single m =>
    simp only [ExcludeEntry.wellFormed] at hx
    have hnd : containsDotDot (addrText f m) = false :=
      containsDotDot_of_dotOK _ (ParseIP_dotOK _ (addrText_facts f m hx).1)
    simp only [ContainsIPs, ExcludeEntry.text, hnd, Bool.false_eq_true, if_false,
      ExcludeEntry.covers]
    by_cases hmn : m = n
    · simp [hmn]
    · have : addrText f m ≠ addrText f n := fun h => hmn (addrText_inj f m n hx hn h)
      simp [hmn, this]
  | range s e =>
    simp only [ExcludeEntry.wellFormed, Bool.and_eq_true, decide_eq_true_eq] at hx
    obtain ⟨⟨⟨hs, he⟩, hse⟩, -⟩ := hx
    have fs := addrText_facts f s hs
    have fe := addrText_facts f e he
    have fn := addrText_facts f n hn
    have hsplit := splitDotDot_addresses _ _ fs.1 fe.1
    have hcd : containsDotDot (addrText f s ++ "..".toList ++ addrText f e) = true := by
      have := containsDotDot_range (addrText f s) (addrText f e)
      simpa using this
    simp only [ContainsIPs, ExcludeEntry.text, hcd, if_true, hsplit, List.getD_cons_zero,
      List.getD_cons_succ, fs.2, fe.2, fn.2, ExcludeEntry.covers]
    by_cases h1 : s ≤ n <;> by_cases h2 : n ≤ e <;> simp [h1, h2]

theorem countLoop_cons_single (x : List Char) (rest : List (List Char)) (c : Float64)
    (h : containsDotDot x = false) :
    countLoop (x :: rest) c = countLoop rest (c.add (Float64.fin 1)) := by
  rw [countLoop]
  simp only [h, Bool.false_eq_true, if_false]

theorem countLoop_cons_range (x : List Char) (rest : List (List Char)) (c : Float64)
    (h : containsDotDot x = true) :
    countLoop (x :: rest) c = countLoop rest (c.add (roundInt
      (Ip2BigInt ((splitDotDot x).getD 1 []) - Ip2BigInt ((splitDotDot x).getD 0 []) + 1))) := by
  rw [countLoop]
  simp only [h, if_true]

theorem Float64.add_fin (a b : Int) :
    (Float64.fin a).add (Float64.fin b) = roundInt (a + b) := rfl

/-- While the running count stays below `2^53` every float64 sum in
`CountIpNums` is exact: the loop adds the sizes of the entries. -/
theorem countLoop_texts (f : Protocol) : ∀ (es : List ExcludeEntry) (c : Nat),
    (∀ x ∈ es, x.wellFormed f = true) → c + (es.map ExcludeEntry.size).sum < 2 ^ 53 →
    countLoop (es.map (ExcludeEntry.text f)) (Float64.fin c)
      = Float64.fin ((c + (es.map ExcludeEntry.size).sum : Nat) : Int) := by
  intro es
  induction es with
  | nil => intro c _ _; simp [countLoop]
  | cons x es ih =>
    intro c hw hsum
    have hwx := hw x (List.mem_cons_self _ _)
    have hwes : ∀ y ∈ es, y.wellFormed f = true := fun y hy => hw y (List.mem_cons_of_mem _ hy)
    have e53 : (2 : Int) ^ 53 = 9007199254740992 := by norm_num
    have n53 : (2 : Nat) ^ 53 = 9007199254740992 := by norm_num
    rw [List.map_cons, List.sum_cons, n53] at hsum
    rw [List.map_cons, List.map_cons, List.sum_cons]
    cases x with
    | single m =>
      simp only [ExcludeEntry.wellFormed] at hwx
      have hnd : containsDotDot (addrText f m) = false :=
        containsDotDot_of_dotOK _ (ParseIP_dotOK _ (addrText_facts f m hwx).1)
      simp only [ExcludeEntry.size] at hsum ⊢
      rw [ExcludeEntry.text, countLoop_cons_single _ _ _ hnd, Float64.add_fin]
      have hr : roundInt ((c : Int) + 1) = Float64.fin ((c + 1 : Nat) : Int) := by
        rw [roundInt_exact _ (by omega) (by rw [e53]; omega)]
        rfl
      rw [hr, ih (c + 1) hwes (by rw [n53]; omega), Nat.add_assoc]
    | range s e =>
      simp only [ExcludeEntry.wellFormed, Bool.and_eq_true, decide_eq_true_eq] at hwx
      obtain ⟨⟨⟨hs, he⟩, hse⟩, -⟩ := hwx
      have fs := addrText_facts f s hs
      have fe := addrText_facts f e he
      have hsplit := splitDotDot_addresses _ _ fs.1 fe.1
      have hcd : containsDotDot (addrText f s ++ "..".toList ++ addrText f e) = true := by
        have := containsDotDot_range (addrText f s) (addrText f e)
        simpa using this
      simp only [ExcludeEntry.size] at hsum ⊢
      rw [ExcludeEntry.text, countLoop_cons_range _ _ _ hcd, hsplit]
      simp only [List.getD_cons_zero, List.getD_cons_succ]
      rw [fs.2, fe.2]
      have hv : roundInt ((e : Int) - s + 1) = Float64.fin ((e - s + 1 : Nat) : Int) := by
        rw [roundInt_exact _ (by omega) (by rw [e53]; omega)]
        congr 1
        omega
      rw [hv, Float64.add_fin]
      have hr : roundInt (((c : Nat) : Int) + ((e - s + 1 : Nat) : Int))
          = Float64.fin ((c + (e - s + 1) : Nat) : Int) := by
        rw [roundInt_exact _ (by omega) (by rw [e53]; omega)]
        rfl
      rw [hr, ih (c + (e - s + 1)) hwes (by rw [n53]; omega), Nat.add_assoc]

theorem addrNumber_lt (f : Protocol) (n : Nat) (h : isAddrNumber f n = true) : n < 2 ^ 128 := by
  unfold isAddrNumber at h
  by_cases hf : f = Protocol.IPv4
  · simp only [hf, if_true, decide_eq_true_eq] at h
    exact lt_trans h (Nat.pow_lt_pow_right Nat.one_lt_two (by norm_num))
  · simp only [hf, if_false, Bool.and_eq_true, decide_eq_true_eq] at h
    exact h.1

theorem addrNumber_between (f : Protocol) (s e n : Nat)
    (hw : (ExcludeEntry.range s e).wellFormed f = true) (h1 : s ≤ n) (h2 : n ≤ e) :
    isAddrNumber f n = true := by
  simp only [ExcludeEntry.wellFormed, Bool.and_eq_true, decide_eq_true_eq, Bool.not_eq_true',
    Bool.and_eq_false_iff, decide_eq_false_iff_not] at hw
  obtain ⟨⟨⟨hs, he⟩, -⟩, hspan⟩ := hw
  unfold isAddrNumber at hs he ⊢
  by_cases hf : f = Protocol.IPv4
  · simp only [hf, if_true, decide_eq_true_eq] at hs he ⊢
    omega
  · simp only [hf, if_false, Bool.and_eq_true, decide_eq_true_eq, Bool.not_eq_true',
      Bool.and_eq_false_iff, decide_eq_false_iff_not] at hs he ⊢
    have e48 : (2 : Nat) ^ 48 = 281474976710656 := by norm_num
    rw [e48] at hs he hspan ⊢
    obtain ⟨hs1, hs2⟩ := hs
    obtain ⟨he1, he2⟩ := he
    refine ⟨by omega, ?_⟩
    by_contra hc
    simp only [not_or, not_not] at hc
    omega

/-- The addresses of the family that a well-formed entry has are as many as
its size. -/
theorem entry_card (f : Protocol) (x : ExcludeEntry) (hw : x.wellFormed f = true) :
    ((Finset.range (2 ^ 128)).filter
      (fun n => isAddrNumber f n = true ∧ x.covers n = true)).card = x.size := by
  cases x with
  | single m =>
    have hm : isAddrNumber f m = true := hw
    have : (Finset.range (2 ^ 128)).filter
        (fun n => isAddrNumber f n = true ∧ (ExcludeEntry.single m).covers n = true) = {m} := by
      ext n
      simp only [Finset.mem_filter, Finset.mem_range, ExcludeEntry.covers, decide_eq_true_eq,
        Finset.mem_singleton]
      constructor
      · rintro ⟨_, _, h⟩; exact h.symm
      · rintro rfl; exact ⟨addrNumber_lt f n hm, hm, rfl⟩
    rw [this]
    rfl
  | range s e =>
    have hse : s ≤ e := by
      simp only [ExcludeEntry.wellFormed, Bool.and_eq_true, decide_eq_true_eq] at hw
      exact hw.1.2
    have : (Finset.range (2 ^ 128)).filter
        (fun n => isAddrNumber f n = true ∧ (ExcludeEntry.range s e).covers n = true)
        = Finset.Icc s e := by
      ext n
      simp only [Finset.mem_filter, Finset.mem_range, ExcludeEntry.covers, Bool.and_eq_true,
        decide_eq_true_eq, Finset.mem_Icc]
      constructor
      · rintro ⟨_, _, h⟩; exact h
      · rintro ⟨h1, h2⟩
        have hv := addrNumber_between f s e n hw h1 h2
        exact ⟨addrNumber_lt f n hv, hv, h1, h2⟩
    rw [this, Nat.card_Icc, ExcludeEntry.size]
    omega

theorem covered_card (f : Protocol) : ∀ (es : List ExcludeEntry),
    (∀ x ∈ es, x.wellFormed f = true) → EntriesDisjoint es →
    ((Finset.range (2 ^ 128)).filter
      (fun n => isAddrNumber f n = true ∧ ∃ x ∈ es, x.covers n = true)).card
      = (es.map ExcludeEntry.size).sum := by
  intro es
  induction es with
  | nil => intro _ _; simp
  | cons x es ih =>
    intro hw hd
    have hwx := hw x (List.mem_cons_self _ _)
    have hwes : ∀ y ∈ es, y.wellFormed f = true := fun y hy => hw y (List.mem_cons_of_mem _ hy)
    obtain ⟨hdx, hdes⟩ := List.pairwise_cons.1 hd
    have hsplit : (Finset.range (2 ^ 128)).filter
        (fun n => isAddrNumber f n = true ∧ ∃ y ∈ x :: es, y.covers n = true)
        = (Finset.range (2 ^ 128)).filter
            (fun n => isAddrNumber f n = true ∧ x.covers n = true) ∪
          (Finset.range (2 ^ 128)).filter
            (fun n => isAddrNumber f n = true ∧ ∃ y ∈ es, y.covers n = true) := by
      ext n
      simp only [Finset.mem_filter, Finset.mem_range, List.mem_cons, exists_eq_or_imp,
        Finset.mem_union]
      constructor
      · rintro ⟨h1, h2, h3 | h3⟩
        · exact Or.inl ⟨h1, h2, h3⟩
        · exact Or.inr ⟨h1, h2, h3⟩
      · rintro (⟨h1, h2, h3⟩ | ⟨h1, h2, h3⟩)
        · exact ⟨h1, h2, Or.inl h3⟩
        · exact ⟨h1, h2, Or.inr h3⟩
    have hdisj : Disjoint
        ((Finset.range (2 ^ 128)).filter
          (fun n => isAddrNumber f n = true ∧ x.covers n = true))
        ((Finset.range (2 ^ 128)).filter
          (fun n => isAddrNumber f n = true ∧ ∃ y ∈ es, y.covers n = true)) := by
      rw [Finset.disjoint_filter]
      rintro n _ ⟨_, hx⟩ ⟨_, y, hy, hyn⟩
      exact hdx y hy n ⟨hx, hyn⟩
    rw [hsplit, Finset.card_union_of_disjoint hdisj, entry_card f x hwx, ih hwes hdes]
    simp

theorem containedNumbers_texts (f : Protocol) (es : List ExcludeEntry)
    (hw : ∀ x ∈ es, x.wellFormed f = true) :
    containedNumbers f (es.map (ExcludeEntry.text f)) =
      (Finset.range (2 ^ 128)).filter
        (fun n => isAddrNumber f n = true ∧ ∃ x ∈ es, x.covers n = true) := by
  unfold containedNumbers
  apply Finset.filter_congr
  intro n _
  constructor
  · rintro ⟨hn, t, ht, hc⟩
    obtain ⟨x, hx, rfl⟩ := List.mem_map.1 ht
    exact ⟨hn, x, hx, by rw [← ContainsIPs_entry f x n (hw x hx) hn]; exact hc⟩
  · rintro ⟨hn, x, hx, hc⟩
    exact ⟨hn, x.text f, List.mem_map_of_mem _ hx,
      by rw [ContainsIPs_entry f x n (hw x hx) hn]; exact hc⟩

/-- For well-formed, pairwise disjoint entries the addresses that
`ContainsIPs` finds in some entry are as many as the sizes of the entries
together. -/
theorem containedNumbers_card (f : Protocol) (es : List ExcludeEntry)
    (hw : ∀ x ∈ es, x.wellFormed f = true) (hd : EntriesDisjoint es) :
    (containedNumbers f (es.map (ExcludeEntry.text f))).card
      = (es.map ExcludeEntry.size).sum := by
  rw [containedNumbers_texts f es hw, covered_card f es hw hd]

theorem containedNumbers_v4 (es : List (List Char)) :
    (containedNumbers Protocol.IPv4 es).card ≤ 2 ^ 32 := by
  have hsub : containedNumbers Protocol.IPv4 es ⊆ Finset.range (2 ^ 32) := by
    intro n hn
    unfold containedNumbers at hn
    simp only [Finset.mem_filter, isAddrNumber, if_true, decide_eq_true_eq] at hn
    exact Finset.mem_range.2 hn.2.1
  have := Finset.card_le_card hsub
  simpa using this

/-- The range `1::..1::20:0:0:0` has `2^53 + 1` addresses, which `CountIpNums`
rounds to `2^53`. -/
theorem count_long_range :
    CountIpNums ["1::..1::20:0:0:0".toList] = Float64.fin 9007199254740992 := by
  have h1 : containsDotDot "1::..1::20:0:0:0".toList = true := by decide
  have h2 : Ip2BigInt ((splitDotDot "1::..1::20:0:0:0".toList).getD 1 [])
      - Ip2BigInt ((splitDotDot "1::..1::20:0:0:0".toList).getD 0 []) + 1 = 9007199254740993 := by
    decide
  rw [CountIpNums, countLoop_cons_range _ _ _ h1, h2, roundInt_tie.1, Float64.add_fin]
  have e : (0 : Int) + 9007199254740992 = 9007199254740992 := by decide
  rw [countLoop, e]
  exact roundInt_tie.2

/-- For one block and one address `CIDRContainIP` is the conjunction of its
four tests. -/
theorem CIDRContainIP_single (c a : List Char) (hc : ',' ∉ c) (ha : ',' ∉ a) :
    CIDRContainIP c a = true ↔
      (ParseCIDR c ≠ none ∧ ParseIP a ≠ [] ∧ CheckProtocol c = CheckProtocol a ∧
        (netOf c).Contains (ParseIP a) = true) := by
  unfold CIDRContainIP
  rw [split1_of_not_mem _ _ hc, split1_of_not_mem _ _ ha]
  cases hp : ParseCIDR c with
  | none => simp [containOuter, hp]
  | some r =>
    obtain ⟨ip, net⟩ := r
    have hnet : netOf c = net := by simp [netOf, hp]
    simp only [containOuter, hp, containInner, hnet]
    by_cases hf : CheckProtocol c = CheckProtocol a
    · by_cases hip : ParseIP a = []
      · simp [hf, hip]
      · by_cases hcon : net.Contains (ParseIP a) = true
        · simp [hf, hip, hcon]
        · simp [hf, hip, hcon]
    · simp [hf]

/-- In a well-formed IPv4 block every number of the range of `2^hostBits`
numbers that starts at the network number is printed by `BigInt2Ip` as an
address that `CIDRContainIP` finds in the block. -/
theorem v4_number_in_block (c : List Char) (hf : blockFamily c = some Protocol.IPv4) (x : Nat)
    (h1 : setBytes (netOf c).IP ≤ x) (h2 : x < setBytes (netOf c).IP + 2 ^ hostBits c) :
    ∃ t, BigInt2Ip (x : Int) = some t ∧ CIDRContainIP c t = true := by
  obtain ⟨l, n, p, v⟩ := blockView_of_family c _ hf
  have hl : l = 4 := by
    rcases v.fam with ⟨_, h⟩ | ⟨h, _⟩
    · exact h
    · cases h
  subst hl
  obtain ⟨base, _, _, _, hle, _, _, _, _, _, _, hb⟩ := valid_block_values c (by rw [IsValidBlock, hf]; simp)
  have hle32 := hle hf
  rw [hb] at h1 h2
  have hx32 : x < 2 ^ 32 := by omega
  obtain ⟨q, hq1, hq2, hq3, hq4⟩ := BigInt2Ip_of_nat x (by norm_num at hx32 ⊢; omega)
  have hq : q.length = 4 := hq4.2 hx32
  have hparse : ParseIP (ipString q) = To16 q := ParseIP_ipString q hq2
  have hne : ParseIP (ipString q) ≠ [] := by
    rw [hparse]
    intro e
    have := To16_length q hq2.1
    rw [e] at this
    simp at this
  have hto4 : To4 (ParseIP (ipString q)) = q := by
    rw [hparse, To4_To16 q hq2.1]
    simp [To4, hq]
  have hto4ne : To4 (ParseIP (ipString q)) ≠ [] := by
    rw [hto4]
    intro e
    rw [e] at hq
    simp at hq
  have hib : ipBytes (ParseIP (ipString q)) = q := by
    rw [hparse, ipBytes_To16 q hq2.1, ipBytes_of_length4 q hq]
  refine ⟨ipString q, hq1, ?_⟩
  rw [CIDRContainIP_single c _ (ParseCIDR_no_comma c _ _ v.parse) (ParseIP_no_comma _ hne)]
  refine ⟨by rw [v.parse]; simp, hne, by rw [v.proto, CheckProtocol_v4 _ hto4ne], ?_⟩
  rw [v.contains_range _ (ParseIP_spec _ hne).2.2, hib, hq, hq3, v.netIP.1, hb]
  exact ⟨rfl, h1, h2⟩

/-- The bound and the result of `GenerateRandomV4IP` for a well-formed IPv4
block with at least one host bit. -/
theorem random_v4_result (rnd : Int → Int) (c : List Char)
    (hf : blockFamily c = some Protocol.IPv4) (hh : 1 ≤ hostBits c)
    (hr : 0 ≤ rnd (randomBound c) ∧ rnd (randomBound c) < randomBound c) :
    randomBound c = 2 ^ (hostBits c - 1) ∧
    ∃ t, GenerateRandomV4IP rnd c
        = some (t ++ '/' :: formatInt ((32 - hostBits c : Nat) : Int)) ∧
      BigInt2Ip (Ip2BigInt (beforeSlash c) + rnd (randomBound c)) = some t ∧
      Ip2BigInt (beforeSlash c) = (setBytes (ipBytes (ipOf c)) : Int) ∧
      Ip2BigInt t = (setBytes (ipBytes (ipOf c)) : Int) + rnd (randomBound c) := by
  obtain ⟨n, hn, hhost, hsplit, hatoi, hip, hlt⟩ := block_v4_text c hf
  have hn31 : n < 32 := by omega
  have hb : randomBound c = ((2 ^ (31 - n) : Nat) : Int) := by
    unfold randomBound
    simp only [hsplit, List.getD_cons_succ, List.getD_cons_zero, hatoi]
    exact bound_of_prefix n hn31
  have hb' : randomBound c = 2 ^ (hostBits c - 1) := by
    rw [hb, hhost, show 32 - n - 1 = 31 - n by omega]
    push_cast
    rfl
  rw [hb] at hr
  have hpow : (2 : Nat) ^ (31 - n) ≤ 2 ^ 31 := Nat.pow_le_pow_right (by decide) (by omega)
  have e128 : (2 : Int) ^ 128 = 340282366920938463463374607431768211456 := by norm_num
  have e48 : (2 : Int) ^ 48 = 281474976710656 := by norm_num
  obtain ⟨t, ht1, ht2⟩ := BigInt2Ip_value ((setBytes (ipBytes (ipOf c)) : Int) + rnd (randomBound c))
    (by rw [hb]; omega) (by rw [hb, e128]; norm_num at hlt hpow; omega)
  have hbs : beforeSlash c = c.takeWhile (· ≠ '/') := beforeSlash_eq c
  refine ⟨hb', t, ?_, by rw [hbs, hip]; exact ht1, by rw [hbs, hip], ?_⟩
  · unfold GenerateRandomV4IP
    have hpos : ¬ ((2 ^ (31 - n) : Nat) : Int) ≤ 0 := by
      have : 0 < 2 ^ (31 - n) := Nat.pos_of_ne_zero (by positivity)
      omega
    rw [hb] at ht1
    simp only [hsplit, List.length_cons, List.length_nil, List.getD_cons_succ,
      List.getD_cons_zero, hatoi, hip, hb, hpos, if_false, ht1, Option.map_some', hhost]
    rw [if_neg (by decide), show 32 - (32 - n) = n by omega]
  · rw [ht2]
    unfold printedValue
    rw [if_neg]
    rw [hb, e48]
    norm_num at hlt hpow
    omega

/-- For comma-joined strings whose blocks are all well-formed CIDRs,
`CIDRConflict` is true exactly when some block of `a` and some block of `b`
of the same family share an address; for two blocks of one family, sharing
an address is the same as one of them containing the network address of the
other; two blocks of different families share no address and do not
conflict. -/
theorem conflict_iff_blocks_share_address (a b : List Char)
    (ha : ∀ c ∈ split1 ',' a, IsValidBlock c) (hb : ∀ c ∈ split1 ',' b, IsValidBlock c) :
    (CIDRConflict a b = true ↔
      ∃ ca ∈ split1 ',' a, ∃ cb ∈ split1 ',' b,
        blockFamily ca = blockFamily cb ∧ SharesAddress ca cb) ∧
    (∀ ca ∈ split1 ',' a, ∀ cb ∈ split1 ',' b, blockFamily ca = blockFamily cb →
      (SharesAddress ca cb ↔
        ((netOf ca).Contains (netOf cb).IP = true ∨ (netOf cb).Contains (netOf ca).IP = true))) ∧
    (∀ ca ∈ split1 ',' a, ∀ cb ∈ split1 ',' b, blockFamily ca ≠ blockFamily cb →
      ¬ SharesAddress ca cb ∧ CIDRConflict ca cb = false) := by
  have hpa : ∀ ca ∈ split1 ',' a, ParseCIDR ca = some (ipOf ca, netOf ca) :=
    fun c hc => (parse_of_valid c (ha c hc)).1
  have hpb : ∀ cb ∈ split1 ',' b, ParseCIDR cb = some (ipOf cb, netOf cb) :=
    fun c hc => (parse_of_valid c (hb c hc)).1
  have hpair : ∀ ca ∈ split1 ',' a, ∀ cb ∈ split1 ',' b,
      (pairHit ca cb ↔ blockFamily ca = blockFamily cb ∧ SharesAddress ca cb) := by
    intro ca hca cb hcb
    obtain ⟨_, fa, hfa⟩ := parse_of_valid ca (ha ca hca)
    obtain ⟨_, fb, hfb⟩ := parse_of_valid cb (hb cb hcb)
    obtain ⟨la, na, pa, va⟩ := blockView_of_family ca fa hfa
    obtain ⟨lb, nb, pb, vb⟩ := blockView_of_family cb fb hfb
    unfold pairHit
    rw [va.proto, vb.proto, hfa, hfb]
    constructor
    · rintro ⟨hf, hhit⟩
      subst hf
      have hl : la = lb := by rw [va.length_of_family, vb.length_of_family]
      subst hl
      exact ⟨rfl, (shares_iff_hit va vb).1.2 hhit⟩
    · rintro ⟨hf, hs⟩
      simp only [Option.some.injEq] at hf
      subst hf
      have hl : la = lb := by rw [va.length_of_family, vb.length_of_family]
      subst hl
      exact ⟨rfl, (shares_iff_hit va vb).1.1 hs⟩
  refine ⟨?_, ?_, ?_⟩
  · unfold CIDRConflict
    rw [conflictOuter_valid _ hpb _ hpa]
    constructor
    · rintro ⟨ca, hca, cb, hcb, h⟩
      exact ⟨ca, hca, cb, hcb, (hpair ca hca cb hcb).1 h⟩
    · rintro ⟨ca, hca, cb, hcb, h⟩
      exact ⟨ca, hca, cb, hcb, (hpair ca hca cb hcb).2 h⟩
  · intro ca hca cb hcb hf
    obtain ⟨_, fa, hfa⟩ := parse_of_valid ca (ha ca hca)
    obtain ⟨_, fb, hfb⟩ := parse_of_valid cb (hb cb hcb)
    rw [hfa, hfb, Option.some.injEq] at hf
    subst hf
    obtain ⟨la, na, pa, va⟩ := blockView_of_family ca fa hfa
    obtain ⟨lb, nb, pb, vb⟩ := blockView_of_family cb fa hfb
    have hl : la = lb := by rw [va.length_of_family, vb.length_of_family]
    subst hl
    exact (shares_iff_hit va vb).2
  · intro ca hca cb hcb hf
    obtain ⟨hpca, fa, hfa⟩ := parse_of_valid ca (ha ca hca)
    obtain ⟨hpcb, fb, hfb⟩ := parse_of_valid cb (hb cb hcb)
    obtain ⟨la, na, pa, va⟩ := blockView_of_family ca fa hfa
    obtain ⟨lb, nb, pb, vb⟩ := blockView_of_family cb fb hfb
    have hne : fa ≠ fb := by
      intro e; apply hf; rw [hfa, hfb, e]
    have hp : CheckProtocol ca ≠ CheckProtocol cb := by rw [va.proto, vb.proto]; exact hne
    constructor
    · apply not_shares_of_length va vb
      rcases va.fam with ⟨h1, h2⟩ | ⟨h1, h2⟩ <;> rcases vb.fam with ⟨h3, h4⟩ | ⟨h3, h4⟩
      · exact absurd (h1.trans h3.symm) hne
      · omega
      · omega
      · exact absurd (h1.trans h3.symm) hne
    · simp [CIDRConflict, split1_of_not_mem _ _ (ParseCIDR_no_comma _ _ _ hpca),
        split1_of_not_mem _ _ (ParseCIDR_no_comma _ _ _ hpcb), conflictOuter, conflictInner, hp]

end Util

/-! ## Lemmas on the controller -/

namespace Controller

theorem startWorkers_mem_runSyncs (o : RunOutcomes) : RunStep.startWorkers ∈ runSyncs o := by
  simp [runSyncs, runWorkers]

theorem Fatalf_not_mem_runSyncs (o : RunOutcomes) (m : List Char) :
    RunStep.Fatalf m ∉ runSyncs o := by
  rcases o with ⟨a, b, c, d, e, f, g, h, st⟩
  cases f <;> cases g <;> cases h <;> cases st <;> simp [runSyncs, runWorkers]

theorem waitSwitches_phase (f : List Char → List (List Char) → Bool) (cfg : Configuration) :
    ∀ (sw : List (Option (List (List Char)))),
      (waitSwitches f cfg sw).1.Pairwise (fun a b => a.phase ≤ b.phase) ∧
      (∀ e ∈ (waitSwitches f cfg sw).1, e.phase = 1 ∨ e.phase = 6) ∧
      ((waitSwitches f cfg sw).2 = Status.done → ∀ e ∈ (waitSwitches f cfg sw).1, e.phase = 1) := by
  intro sw
  induction sw with
  | nil => simp [waitSwitches]
  | cons r rest ih =>
    cases r with
    | none => simp [waitSwitches, Event.phase]
    | some lss =>
      simp only [waitSwitches]
      split
      · simp [Event.phase]
      · obtain ⟨i1, i2, i3⟩ := ih
        refine ⟨?_, ?_, ?_⟩
        · simp only [List.pairwise_cons]
          refine ⟨fun b hb => ?_, i1⟩
          rcases i2 b hb with h | h <;> (rw [h]; simp [Event.phase])
        · intro e he
          rcases List.mem_cons.1 he with rfl | he
          · simp [Event.phase]
          · exact i2 e he
        · intro hd e he
          rcases List.mem_cons.1 he with rfl | he
          · simp [Event.phase]
          · exact i3 hd e he

theorem waitNodes_phase : ∀ (ls : List (Option (List Node))),
      (waitNodes ls).1.Pairwise (fun a b => a.phase ≤ b.phase) ∧
      (∀ e ∈ (waitNodes ls).1, e.phase = 3 ∨ e.phase = 6) ∧
      ((waitNodes ls).2 = Status.done →
        (∀ e ∈ (waitNodes ls).1, e.phase = 3) ∧
        ∃ e ∈ (waitNodes ls).1, e.isReadyListing = true) := by
  intro ls
  induction ls with
  | nil => simp [waitNodes]
  | cons r rest ih =>
    cases r with
    | none => simp [waitNodes, Event.phase]
    | some nodes =>
      simp only [waitNodes]
      split
      · rename_i hr
        simp [Event.phase, Event.isReadyListing, hr]
      · obtain ⟨i1, i2, i3⟩ := ih
        refine ⟨?_, ?_, ?_⟩
        · simp only [List.pairwise_cons]
          refine ⟨fun b hb => ?_, i1⟩
          rcases i2 b hb with h | h <;> (rw [h]; simp [Event.phase])
        · intro e he
          rcases List.mem_cons.1 he with rfl | he
          · simp [Event.phase]
          · exact i2 e he
        · intro hd
          obtain ⟨j1, e0, j2, j3⟩ := i3 hd
          refine ⟨?_, e0, List.mem_cons_of_mem _ j2, j3⟩
          intro e he
          rcases List.mem_cons.1 he with rfl | he
          · simp [Event.phase]
          · exact j1 e he

theorem mem_workerLoop (n : Int) (body : List Event) (e : Event) (h : e ∈ workerLoop n body) :
    e ∈ body := by
  unfold workerLoop at h
  rw [List.mem_flatten] at h
  obtain ⟨l, hl, he⟩ := h
  rw [List.eq_of_mem_replicate hl] at he
  exact he

theorem startTopology_phase : ∀ e ∈ startTopology, e.phase = 0 := by decide

theorem startNodes_phase (cfg : Configuration) : ∀ e ∈ startNodes cfg, e.phase = 2 := by
  intro e he
  have key : ∀ e ∈ [Event.go Worker.runAddNodeWorker, Event.go Worker.runUpdateNodeWorker,
      Event.go Worker.runDeleteNodeWorker], e.phase = 2 := by decide
  exact key e (mem_workerLoop _ _ e he)

theorem pairwise_of_const {l : List Event} {k : Nat} (h : ∀ e ∈ l, e.phase = k) :
    l.Pairwise (fun a b => a.phase ≤ b.phase) := by
  apply List.pairwise_of_forall_mem_list
  intro a ha b hb
  rw [h a ha, h b hb]

theorem forall_mem_segments (P : Event → Prop) (A B C D : List Event) (n : Int)
    (hA : ∀ e ∈ A, P e) (hB : ∀ e ∈ B, P e) (hC : ∀ e ∈ C, P e) (hD : ∀ e ∈ D, P e) :
    ∀ e ∈ A ++ workerLoop n B ++ C ++ D, P e := by
  intro e he
  simp only [List.mem_append] at he
  rcases he with ((he | he) | he) | he
  · exact hA e he
  · exact hB e (mem_workerLoop _ _ e he)
  · exact hC e he
  · exact hD e he

theorem startRest_tail_phase (cfg : Configuration) :
    ∀ e ∈ (startRest cfg).tail, e.phase = 5 := by
  rcases cfg with ⟨n, lb, np, d, s⟩
  cases lb <;> cases np
  all_goals
    apply forall_mem_segments (fun e => e.phase = 5) _ _ _ _ n <;> (dsimp only; decide)

theorem startRest_phase (cfg : Configuration) :
    (startRest cfg).Pairwise (fun a b => a.phase ≤ b.phase) ∧
    ∀ e ∈ startRest cfg, 4 ≤ e.phase := by
  have htail := startRest_tail_phase cfg
  have hcons : startRest cfg = Event.go Worker.runAddNamespaceWorker :: (startRest cfg).tail :=
    rfl
  rw [hcons]
  refine ⟨List.Pairwise.cons (fun b hb => ?_) (pairwise_of_const htail), fun e he => ?_⟩
  · rw [htail b hb]; decide
  · rcases List.mem_cons.1 he with rfl | he
    · decide
    · rw [htail e he]; decide

theorem pairwise_append_phase {l1 l2 : List Event} {k : Nat}
    (h1 : l1.Pairwise (fun a b => a.phase ≤ b.phase))
    (h2 : l2.Pairwise (fun a b => a.phase ≤ b.phase))
    (hle : ∀ e ∈ l1, e.phase ≤ k) (hge : ∀ e ∈ l2, k ≤ e.phase) :
    (l1 ++ l2).Pairwise (fun a b => a.phase ≤ b.phase) :=
  List.pairwise_append.2 ⟨h1, h2, fun a ha b hb => le_trans (hle a ha) (hge b hb)⟩

theorem startWorkers_phase (f : List Char → List (List Char) → Bool) (cfg : Configuration)
    (sw : List (Option (List (List Char)))) (ls : List (Option (List Node))) :
    (startWorkers f cfg sw ls).1.Pairwise (fun a b => a.phase ≤ b.phase) ∧
    ((∃ e ∈ (startWorkers f cfg sw ls).1, 4 ≤ e.phase ∧ e.phase ≤ 5) →
      ∃ e ∈ (startWorkers f cfg sw ls).1, e.isReadyListing = true) := by
  obtain ⟨a1, a2, a3⟩ := waitSwitches_phase f cfg sw
  obtain ⟨b1, b2, b3⟩ := waitNodes_phase ls
  obtain ⟨c1, c2⟩ := startRest_phase cfg
  have hA := startTopology_phase
  have hC := startNodes_phase cfg
  have sA : (startTopology ++ (waitSwitches f cfg sw).1).Pairwise
      (fun a b => a.phase ≤ b.phase) :=
    pairwise_append_phase (k := 0) (pairwise_of_const hA) a1 (fun e he => by rw [hA e he])
      (fun e he => Nat.zero_le _)
  unfold startWorkers
  by_cases h1 : (waitSwitches f cfg sw).2 = Status.done
  swap
  · simp only [h1, ne_eq, not_false_eq_true, if_true]
    refine ⟨sA, ?_⟩
    rintro ⟨e, he, h4, h5⟩
    rcases List.mem_append.1 he with he | he
    · rw [hA e he] at h4; omega
    · rcases a2 e he with h | h <;> omega
  · have a3' := a3 h1
    have hAB : ∀ e ∈ startTopology ++ (waitSwitches f cfg sw).1, e.phase ≤ 1 := by
      intro e he
      rcases List.mem_append.1 he with he | he
      · rw [hA e he]; omega
      · rw [a3' e he]
    have sABC : (startTopology ++ (waitSwitches f cfg sw).1 ++ startNodes cfg).Pairwise
        (fun a b => a.phase ≤ b.phase) :=
      pairwise_append_phase (k := 1) sA (pairwise_of_const hC) hAB
        (fun e he => by rw [hC e he]; omega)
    have hABC : ∀ e ∈ startTopology ++ (waitSwitches f cfg sw).1 ++ startNodes cfg,
        e.phase ≤ 2 := by
      intro e he
      rcases List.mem_append.1 he with he | he
      · have := hAB e he; omega
      · rw [hC e he]
    have sABCD : (startTopology ++ (waitSwitches f cfg sw).1 ++ startNodes cfg
        ++ (waitNodes ls).1).Pairwise (fun a b => a.phase ≤ b.phase) :=
      pairwise_append_phase (k := 2) sABC b1 hABC
        (fun e he => by rcases b2 e he with h | h <;> omega)
    simp only [h1, ne_eq, not_true_eq_false, if_false]
    by_cases h2 : (waitNodes ls).2 = Status.done
    swap
    · simp only [h2, not_false_eq_true, if_true]
      refine ⟨sABCD, ?_⟩
      rintro ⟨e, he, h4, h5⟩
      rcases List.mem_append.1 he with he | he
      · have := hABC e he; omega
      · rcases b2 e he with h | h <;> omega
    · obtain ⟨b3', e0, he0, hr0⟩ := b3 h2
      simp only [h2, not_true_eq_false, if_false]
      refine ⟨?_, fun _ => ⟨e0, ?_, hr0⟩⟩
      · apply pairwise_append_phase (k := 3) sABCD c1
        · intro e he
          rcases List.mem_append.1 he with he | he
          · have := hABC e he; omega
          · rw [b3' e he]
        · intro e he
          have := c2 e he
          omega
      · exact List.mem_append_left _ (List.mem_append_right _ he0)

theorem startedBefore_of_phase (p q : Worker → Bool) (k : Nat) (tr : List Event)
    (hp : ∀ w, p w = true → (Event.go w).phase ≤ k)
    (hq : ∀ w, q w = true → k < (Event.go w).phase)
    (h : tr.Pairwise (fun a b => a.phase ≤ b.phase)) : StartedBefore p q tr := by
  unfold StartedBefore
  refine h.imp ?_
  rintro a b hab ⟨ha, hb⟩
  cases a with
  | go wa =>
    cases b with
    | go wb =>
      have h1 := hq wa ha
      have h2 := hp wb hb
      omega
    | _ => simp [Event.starts] at hb
  | _ => simp [Event.starts] at ha

theorem podsAfterReadyNodes (f : List Char → List (List Char) → Bool) (cfg : Configuration)
    (sw : List (Option (List (List Char)))) (ls : List (Option (List Node))) :
    PodsAfterReadyNodes (startWorkers f cfg sw ls).1 := by
  obtain ⟨hs, hr⟩ := startWorkers_phase f cfg sw ls
  intro l1 l2 w htr hw
  rw [htr] at hs hr
  have hph : (Event.go w).phase = 5 := by
    revert hw
    cases w <;> decide
  obtain ⟨e, he, hre⟩ := hr ⟨Event.go w, by simp, by omega, by omega⟩
  have he3 : e.phase = 3 := by
    cases e with
    | ListNodes r => rfl
    | _ => simp [Event.isReadyListing] at hre
  rcases List.mem_append.1 he with he | he
  · exact ⟨e, he, hre⟩
  · exfalso
    rcases List.mem_cons.1 he with rfl | he
    · omega
    · have := (List.pairwise_append.1 hs).2.1
      have := (List.pairwise_cons.1 this).1 e he
      omega

end Controller

/-! ## The claims -/

namespace Util

open GoStd

/-- C1: the dual-stack containment check does not require both families to
match.  For cidr `10.0.0.0/24,fd00::/64` and address `10.0.1.1,fd00::1` the
IPv4 part lies outside the IPv4 block (the single-family check says so),
yet `CIDRContainIP` answers true, because `containFlag` is overwritten by
the result for the last matching pair. -/
theorem C1_dual_check_keeps_last_family_only :
    CIDRContainIP "10.0.0.0/24,fd00::/64".toList "10.0.1.1,fd00::1".toList = true ∧
    CIDRContainIP "10.0.0.0/24".toList "10.0.1.1".toList = false ∧
    CIDRContainIP "fd00::/64".toList "fd00::1".toList = true := by
  decide

/-- C3: the round trip through the big integer loses the family of a small
IPv6 address: `::1` is a valid IPv6 address in canonical form, its value is
1, and `BigInt2Ip` prints the value 1 as the IPv4 address `0.0.0.1`. -/
theorem C3_small_ipv6_prints_as_ipv4 :
    ipString (ParseIP "::1".toList) = "::1".toList ∧
    Ip2BigInt "::1".toList = 1 ∧
    BigInt2Ip (Ip2BigInt "::1".toList) = some "0.0.0.1".toList := by
  decide

/-- C4: an exclude entry that spells the network address of the block in
upper case is returned.  `FD00::` and `fd00::` parse to the same address,
`fd00::` is `SubnetNumber` of `fd00::/64`, and `ExpandExcludeIPs` keeps
`FD00::` because it compares the texts. -/
theorem C4_network_address_in_other_spelling_is_kept :
    ExpandExcludeIPs ["FD00::".toList] "fd00::/64".toList = some ["FD00::".toList] ∧
    SubnetNumber "fd00::/64".toList = some "fd00::".toList ∧
    ParseIP "FD00::".toList = ParseIP "fd00::".toList := by
  decide

/-- C5: a range entry of an IPv6 block is not always returned as its
intersection with `FirstIP .. LastIP`.  In the IPv6 block `::/64` the range
`::5..::9` lies between `FirstIP` and `LastIP`, and the result is the IPv4
text `0.0.0.5..0.0.0.9`, printed by `BigInt2Ip`.  In the IPv6 block
`::fffe:0:0/95` (33 host bits) the range `::fffe:0:5..::fffe:0:9` lies in
the block, and the result is empty: `LastIP` is printed as
`255.255.255.254`, a number below the range.  On the CIDR
`::ffff:10.0.0.0/104`, which `net.ParseCIDR` accepts and `CheckProtocol`
calls IPv4, the call with the IPv4 range `10.0.0.1..10.0.0.5` panics. -/
theorem C5_ipv6_range_entry_is_printed_as_ipv4_or_dropped :
    (blockFamily "::/64".toList = some Protocol.IPv6 ∧ hostBits "::/64".toList = 64 ∧
      CheckProtocol "::5".toList = Protocol.IPv6 ∧ CheckProtocol "::9".toList = Protocol.IPv6 ∧
      FirstIP "::/64".toList = some ("0.0.0.1".toList, none) ∧
      LastIP "::/64".toList = some ("::ffff:ffff:ffff:fffe".toList, none) ∧
      ExpandExcludeIPs ["::5..::9".toList] "::/64".toList = some ["0.0.0.5..0.0.0.9".toList]) ∧
    (blockFamily "::fffe:0:0/95".toList = some Protocol.IPv6 ∧
      hostBits "::fffe:0:0/95".toList = 33 ∧
      CheckProtocol "::fffe:0:5".toList = Protocol.IPv6 ∧
      CheckProtocol "::fffe:0:9".toList = Protocol.IPv6 ∧
      FirstIP "::fffe:0:0/95".toList = some ("::fffe:0:1".toList, none) ∧
      LastIP "::fffe:0:0/95".toList = some ("255.255.255.254".toList, none) ∧
      ExpandExcludeIPs ["::fffe:0:5..::fffe:0:9".toList] "::fffe:0:0/95".toList = some []) ∧
    (ParseCIDR "::ffff:10.0.0.0/104".toList ≠ none ∧
      CheckProtocol "::ffff:10.0.0.0/104".toList = Protocol.IPv4 ∧
      ExpandExcludeIPs ["10.0.0.1..10.0.0.5".toList] "::ffff:10.0.0.0/104".toList = none) := by
  refine ⟨⟨by decide, by decide, by decide, by decide, by decide, by decide, by decide⟩,
    ⟨by decide, by decide, by decide, by decide, by decide, by decide, by decide⟩,
    ⟨by decide, by decide, by decide⟩⟩

/-- C6: a single-address entry that is the broadcast address of its block
can be returned.  `FD00::FFFF:FFFF:FFFF:FFFF` is the broadcast address of
`fd00::/64` in upper case, and it is returned because the texts are
compared.  `::ffff:ffff` is the broadcast address of the IPv6 block `::/96`
in canonical form, and it is returned because `SubnetBroadcast` prints the
number `2^32 - 1` as `255.255.255.255`.  On the CIDR `::ffff:10.0.0.0/104`,
which `net.ParseCIDR` accepts, the call with the entry `10.0.0.1` panics in
`SubnetBroadcast`. -/
theorem C6_broadcast_address_is_returned :
    (SubnetBroadcast "fd00::/64".toList = some "fd00::ffff:ffff:ffff:ffff".toList ∧
      ParseIP "FD00::FFFF:FFFF:FFFF:FFFF".toList = ParseIP "fd00::ffff:ffff:ffff:ffff".toList ∧
      ExpandExcludeIPs ["FD00::FFFF:FFFF:FFFF:FFFF".toList] "fd00::/64".toList
        = some ["FD00::FFFF:FFFF:FFFF:FFFF".toList]) ∧
    (blockFamily "::/96".toList = some Protocol.IPv6 ∧
      ipString (ParseIP "::ffff:ffff".toList) = "::ffff:ffff".toList ∧
      Ip2BigInt "::ffff:ffff".toList = 2 ^ 32 - 1 ∧
      (netOf "::/96".toList).Contains (ParseIP "::ffff:ffff".toList) = true ∧
      SubnetBroadcast "::/96".toList = some "255.255.255.255".toList ∧
      ExpandExcludeIPs ["::ffff:ffff".toList] "::/96".toList = some ["::ffff:ffff".toList]) ∧
    (ParseCIDR "::ffff:10.0.0.0/104".toList ≠ none ∧
      ExpandExcludeIPs ["10.0.0.1".toList] "::ffff:10.0.0.0/104".toList = none) := by
  refine ⟨⟨by decide, by decide, by decide⟩,
    ⟨by decide, by decide, by decide, by decide, by decide, by decide⟩,
    ⟨by decide, by decide⟩⟩

/-- C7: a range entry whose first part is not an address is not skipped.
`junk` does not parse, `CheckProtocol` calls it IPv6 and `Ip2BigInt` reads
it as 0, so the entry `junk..fd00::5` yields the range `fd00::1..fd00::5`
of the block `fd00::/64`. -/
theorem C7_unparseable_range_start_is_expanded :
    ParseIP "junk".toList = [] ∧
    CheckProtocol "junk".toList = Protocol.IPv6 ∧
    Ip2BigInt "junk".toList = 0 ∧
    ExpandExcludeIPs ["junk..fd00::5".toList] "fd00::/64".toList
      = some ["fd00::1..fd00::5".toList] := by
  decide

/-- C8, as amended: `CIDRConflict` is symmetric for all comma-joined
strings in which every block parses as a CIDR. -/
theorem C8_conflict_symmetric_on_parsed_blocks (a b : List Char)
    (ha : ∀ c ∈ split1 ',' a, ParseCIDR c ≠ none) (hb : ∀ c ∈ split1 ',' b, ParseCIDR c ≠ none) :
    CIDRConflict a b = CIDRConflict b a := by
  have hpa : ∀ c ∈ split1 ',' a, ParseCIDR c = some (ipOf c, netOf c) :=
    fun c hc => parse_eq_of_ne_none c (ha c hc)
  have hpb : ∀ c ∈ split1 ',' b, ParseCIDR c = some (ipOf c, netOf c) :=
    fun c hc => parse_eq_of_ne_none c (hb c hc)
  have h1 := conflictOuter_valid _ hpb _ hpa
  have h2 := conflictOuter_valid _ hpa _ hpb
  have hiff : CIDRConflict a b = true ↔ CIDRConflict b a = true := by
    unfold CIDRConflict
    rw [h1, h2]
    constructor
    · rintro ⟨ca, hca, cb, hcb, h⟩
      exact ⟨cb, hcb, ca, hca, (pairHit_symm ca cb).1 h⟩
    · rintro ⟨cb, hcb, ca, hca, h⟩
      exact ⟨ca, hca, cb, hcb, (pairHit_symm cb ca).1 h⟩
  cases hx : CIDRConflict a b <;> cases hy : CIDRConflict b a <;> simp_all

/-- Witness of C8, as amended: `10.0.0.0/24,fd00::/64` against
`10.0.0.128/25`. -/
theorem C8_conflict_symmetric_on_parsed_blocks_witness :
    CIDRConflict "10.0.0.0/24,fd00::/64".toList "10.0.0.128/25".toList
      = CIDRConflict "10.0.0.128/25".toList "10.0.0.0/24,fd00::/64".toList :=
  C8_conflict_symmetric_on_parsed_blocks _ _ (by decide) (by decide)

/-- C8, counterexample: with a malformed block `CIDRConflict` depends on
the order of its arguments.  The pair (`junk`, `fd00::/64`) makes the
function return false at once in one order; in the other order the pair of
equal IPv4 blocks is reached first and the answer is true. -/
theorem C8_conflict_not_symmetric_with_malformed_block :
    CIDRConflict "junk,10.0.0.0/24".toList "10.0.0.0/24,fd00::/64".toList = false ∧
    CIDRConflict "10.0.0.0/24,fd00::/64".toList "junk,10.0.0.0/24".toList = true ∧
    ¬ (∀ a b : List Char, CIDRConflict a b = CIDRConflict b a) := by
  refine ⟨by decide, by decide, ?_⟩
  intro h
  have := h "junk,10.0.0.0/24".toList "10.0.0.0/24,fd00::/64".toList
  revert this
  decide

/-- C9: `CIDRConflict` reports a conflict between two blocks that share no
address.  `net.ParseCIDR` and `CheckCidrs` accept `::ffff:10.0.0.0/64`; its
network is the IPv6 network `::/64`, while `CheckProtocol` calls the block
IPv4 after the address before the slash.  So the block is paired with the
IPv4 block `10.0.0.0/24`, the network of `10.0.0.0/24` contains the address
as written `::ffff:10.0.0.0`, and the answer is true in both orders,
although no address lies in both networks and neither network contains the
network address of the other. -/
theorem C9_mapped_prefix_conflicts_without_a_shared_address :
    ParseCIDR "::ffff:10.0.0.0/64".toList ≠ none ∧
    CheckCidrs "::ffff:10.0.0.0/64".toList = none ∧
    CheckProtocol "::ffff:10.0.0.0/64".toList = Protocol.IPv4 ∧
    CheckProtocol "10.0.0.0/24".toList = Protocol.IPv4 ∧
    (netOf "::ffff:10.0.0.0/64".toList).IP = [0, 0, 0, 0, 0, 0, 0, 0, 0, 0, 0, 0, 0, 0, 0, 0] ∧
    (netOf "10.0.0.0/24".toList).IP = [10, 0, 0, 0] ∧
    CIDRConflict "::ffff:10.0.0.0/64".toList "10.0.0.0/24".toList = true ∧
    CIDRConflict "10.0.0.0/24".toList "::ffff:10.0.0.0/64".toList = true ∧
    ¬ SharesAddress "::ffff:10.0.0.0/64".toList "10.0.0.0/24".toList ∧
    (netOf "::ffff:10.0.0.0/64".toList).Contains (netOf "10.0.0.0/24".toList).IP = false ∧
    (netOf "10.0.0.0/24".toList).Contains (netOf "::ffff:10.0.0.0/64".toList).IP = false := by
  refine ⟨by decide, by decide, by decide, by decide, by decide, by decide, by decide,
    by decide, ?_, by decide, by decide⟩
  rintro ⟨x, hx, h1, h2⟩
  have ea : netOf "::ffff:10.0.0.0/64".toList
      = { IP := andBytes [0, 0, 0, 0, 0, 0, 0, 0, 0, 0, 0xff, 0xff, 10, 0, 0, 0]
            (cidrMaskLoop 16 64),
          Mask := cidrMaskLoop 16 64 } := by decide
  have eb : netOf "10.0.0.0/24".toList
      = { IP := andBytes [10, 0, 0, 0] (cidrMaskLoop 4 24), Mask := cidrMaskLoop 4 24 } := by
    decide
  rw [ea, contains_iff 16 64 _ x (Or.inr rfl) (by decide) (by decide) (by decide)
    (fun _ => by decide) hx.2] at h1
  rw [eb, contains_iff 4 24 _ x (Or.inl rfl) (by decide) (by decide) (by decide)
    (fun h => absurd h (by decide)) hx.2] at h2
  have := h1.1
  have := h2.1
  omega

/-- C10: `SplitStringIP` undoes `GetStringIP`.  For every IPv4 address `v4`
and every IPv6 address `v6` (strings that `net.ParseIP` accepts, of the
family that `To4` reports), joining both and splitting gives `(v4, v6)`
back, and joining one of them with the empty string and splitting gives
that address in its own position and the empty string in the other. -/
theorem C10_split_undoes_join (v4 v6 : List Char) (h4 : IsIPv4Addr v4) (h6 : IsIPv6Addr v6) :
    SplitStringIP (GetStringIP v4 v6) = (v4, v6) ∧
    SplitStringIP (GetStringIP v4 []) = (v4, []) ∧
    SplitStringIP (GetStringIP [] v6) = ([], v6) := by
  have hp4 : ParseIP v4 ≠ [] := To4_ne_nil_imp _ h4
  have hv4 : IsValidIP v4 = true := by simp [IsValidIP, hp4]
  have hv6 : IsValidIP v6 = true := by simp [IsValidIP, h6.1]
  have hnil : IsValidIP [] = false := by decide
  refine ⟨?_, ?_, ?_⟩
  · have hs : split1 ',' (v4 ++ ",".toList ++ v6) = [v4, v6] := by
      have : v4 ++ ",".toList ++ v6 = v4 ++ ',' :: v6 := by simp
      rw [this, split1_append_sep _ _ _ (ParseIP_no_comma v4 hp4),
        split1_of_not_mem _ _ (ParseIP_no_comma v6 h6.1)]
    have hg : GetStringIP v4 v6 = v4 ++ ",".toList ++ v6 := by simp [GetStringIP, hv4, hv6]
    rw [hg, SplitStringIP, CheckProtocol_dual v4 v6 h4 h6.1, hs]
    simp
  · have hg : GetStringIP v4 [] = v4 := by simp [GetStringIP, hv4, hnil]
    rw [hg, SplitStringIP, CheckProtocol_v4 v4 h4]
    simp
  · have hg : GetStringIP [] v6 = v6 := by simp [GetStringIP, hv6, hnil]
    rw [hg, SplitStringIP, CheckProtocol_v6 v6 h6.1 h6.2]
    simp

/-- Witness of C10 at `10.0.0.1` and `fd00::1`. -/
theorem C10_split_undoes_join_witness :
    SplitStringIP (GetStringIP "10.0.0.1".toList "fd00::1".toList)
        = ("10.0.0.1".toList, "fd00::1".toList) ∧
    SplitStringIP (GetStringIP "10.0.0.1".toList []) = ("10.0.0.1".toList, []) ∧
    SplitStringIP (GetStringIP [] "fd00::1".toList) = ([], "fd00::1".toList) :=
  C10_split_undoes_join _ _ (by decide) (by decide)

/-- C12: `CheckProtocol` answers `Dual` for a pair of two IPv4 addresses.
The string `10.0.0.1,10.0.0.2` is `Dual` although its second part is an IPv4
address and not an IPv6 address: the test on the second part is
`To16() != nil`, which every address passes.  In general the answer is
`Dual` exactly for two comma-separated parts of which the first has an IPv4
address before its `/` and the second has an address of any family before
its `/`. -/
theorem C12_two_ipv4_addresses_are_dual :
    CheckProtocol "10.0.0.1,10.0.0.2".toList = Protocol.Dual ∧
    IsIPv4Addr "10.0.0.2".toList ∧ ¬ IsIPv6Addr "10.0.0.2".toList ∧
    (∀ s, CheckProtocol s = Protocol.Dual ↔
      ∃ p0 p1, split1 ',' s = [p0, p1] ∧ To4 (ParseIP (beforeSlash p0)) ≠ [] ∧
        ParseIP (beforeSlash p1) ≠ []) :=
  ⟨by decide, by decide, by decide, CheckProtocol_dual_iff⟩

/-- C13 (amended): for a network whose mask has `bits = 32` or `128` bits
and `p` leading ones, `AddressCount` is `0` when `bits - p < 2`, exactly
`2^(bits-p) - 2` when `2 ≤ bits - p ≤ 54`, and `2^(bits-p)` when
`bits - p ≥ 55`: the result is a float64, and from 55 host bits on the
nearest float64 to `2^h - 2` is `2^h`. -/
theorem C13_address_count_is_float64 (network : IPNet) (p bits : Nat)
    (hm : maskSize network.Mask = (p, bits)) (hb : bits = 32 ∨ bits = 128) :
    (bits - p < 2 → AddressCount network = F64.fin 0) ∧
    (2 ≤ bits - p → bits - p ≤ 54 → AddressCount network = F64.fin (2 ^ (bits - p) - 2)) ∧
    (55 ≤ bits - p → AddressCount network = F64.fin (2 ^ (bits - p))) := by
  have hb' : bits ≤ 128 := by rcases hb with h | h <;> omega
  rw [AddressCount_eq network p bits hm hb']
  refine ⟨fun h => by simp [h], fun h1 h2 => ?_, fun h => ?_⟩
  · rw [if_neg (by omega), if_pos h2]
  · rw [if_neg (by omega), if_neg (by omega)]

/-- C13 at the network of `10.0.0.0/24`: 254 addresses. -/
theorem C13_address_count_is_float64_witness :
    maskSize (netOf "10.0.0.0/24".toList).Mask = (24, 32) ∧
      AddressCount (netOf "10.0.0.0/24".toList) = F64.fin 254 :=
  ⟨by decide,
    (C13_address_count_is_float64 (netOf "10.0.0.0/24".toList) 24 32 (by decide)
      (Or.inl rfl)).2.1 (by decide) (by decide)⟩

/-- C13 as stated fails from 55 host bits on: for the network of
`fd00::/64` (64 host bits) `AddressCount` is `2^64`, not `2^64 - 2`. -/
theorem C13_address_count_of_a_64_bit_block_is_rounded :
    maskSize (netOf "fd00::/64".toList).Mask = (64, 128) ∧
      AddressCount (netOf "fd00::/64".toList) = F64.fin (2 ^ 64) ∧
      AddressCount (netOf "fd00::/64".toList) ≠ F64.fin (2 ^ 64 - 2) := by
  have hm : maskSize (netOf "fd00::/64".toList).Mask = (64, 128) := by decide
  have h := AddressCount_eq _ 64 128 hm (by decide)
  refine ⟨hm, ?_, ?_⟩
  · rw [h]; decide
  · rw [h]; decide

/-- C14: the broadcast address of an IPv6 block can come out as an IPv4
text with another number.  The block `::/80` is a well-formed IPv6 block
with 48 host bits and network number 0, so its broadcast number is
`2^48 - 1`; that number lies in the IPv4-mapped range, `BigInt2Ip` prints
it as `255.255.255.255`, and the number of this text is `2^32 - 1`. -/
theorem C14_broadcast_of_an_80_bit_prefix :
    blockFamily "::/80".toList = some Protocol.IPv6 ∧ hostBits "::/80".toList = 48 ∧
    SubnetNumber "::/80".toList = some "::".toList ∧
    SubnetBroadcast "::/80".toList = some "255.255.255.255".toList ∧
    Ip2BigInt "::".toList = 0 ∧ Ip2BigInt "255.255.255.255".toList = 2 ^ 32 - 1 ∧
    Ip2BigInt "255.255.255.255".toList ≠ Ip2BigInt "::".toList + (2 ^ 48 - 1) := by
  decide

/-- C15 (amended): for a well-formed block `c` that has at least one host
bit, or that is a single address other than `0`, `::fffe:ffff:ffff`,
`::1:0:0:0` and the all-ones address, `SubnetNumber`, `SubnetBroadcast`,
`FirstIP` and `LastIP` return, the number of `FirstIP c` is the number of
`SubnetNumber c` plus one, and the number of `LastIP c` is the number of
`SubnetBroadcast c` minus one. -/
theorem C15_first_and_last_numbers (c : List Char) (hv : IsValidBlock c)
    (hh : 1 ≤ hostBits c ∨
      setBytes (netOf c).IP ∉ [0, 0xfffeffffffff, 2 ^ 48, 2 ^ 128 - 1]) :
    ∃ num bcast first last, SubnetNumber c = some num ∧ SubnetBroadcast c = some bcast ∧
      FirstIP c = some (first, none) ∧ LastIP c = some (last, none) ∧
      Ip2BigInt first = Ip2BigInt num + 1 ∧ Ip2BigInt last = Ip2BigInt bcast - 1 := by
  by_cases h0 : hostBits c = 0
  · rcases hh with hh | hh
    · omega
    · exact first_last_single_address c hv h0 hh
  · exact first_last_with_host_bit c hv (by omega)

/-- C15 at the blocks `10.0.0.0/31` (one host bit) and `10.0.0.1/32` (a
single address). -/
theorem C15_first_and_last_numbers_witness :
    (IsValidBlock "10.0.0.0/31".toList ∧
      ∃ num bcast first last, SubnetNumber "10.0.0.0/31".toList = some num ∧
        SubnetBroadcast "10.0.0.0/31".toList = some bcast ∧
        FirstIP "10.0.0.0/31".toList = some (first, none) ∧
        LastIP "10.0.0.0/31".toList = some (last, none) ∧
        Ip2BigInt first = Ip2BigInt num + 1 ∧ Ip2BigInt last = Ip2BigInt bcast - 1) ∧
    (IsValidBlock "10.0.0.1/32".toList ∧
      ∃ num bcast first last, SubnetNumber "10.0.0.1/32".toList = some num ∧
        SubnetBroadcast "10.0.0.1/32".toList = some bcast ∧
        FirstIP "10.0.0.1/32".toList = some (first, none) ∧
        LastIP "10.0.0.1/32".toList = some (last, none) ∧
        Ip2BigInt first = Ip2BigInt num + 1 ∧ Ip2BigInt last = Ip2BigInt bcast - 1) :=
  ⟨⟨by decide, C15_first_and_last_numbers "10.0.0.0/31".toList (by decide) (Or.inl (by decide))⟩,
    ⟨by decide,
      C15_first_and_last_numbers "10.0.0.1/32".toList (by decide) (Or.inr (by decide))⟩⟩

/-- C15 as stated fails on a single-address block: for `0.0.0.0/32` the
broadcast address is `0.0.0.0` with number 0, and `LastIP` returns
`0.0.0.1` with number 1, the absolute value of `0 + (1 - 2)`; no address
has the number `-1`. -/
theorem C15_last_of_the_zero_address_block :
    IsValidBlock "0.0.0.0/32".toList ∧
    SubnetBroadcast "0.0.0.0/32".toList = some "0.0.0.0".toList ∧
    LastIP "0.0.0.0/32".toList = some ("0.0.0.1".toList, none) ∧
    Ip2BigInt "0.0.0.1".toList = 1 ∧ Ip2BigInt "0.0.0.0".toList = 0 ∧
    ¬ (∀ c, IsValidBlock c → ∃ bcast last, SubnetBroadcast c = some bcast ∧
        LastIP c = some (last, none) ∧ Ip2BigInt last = Ip2BigInt bcast - 1) := by
  refine ⟨by decide, by decide, by decide, by decide, by decide, ?_⟩
  intro h
  obtain ⟨bcast, last, h1, h2, h3⟩ := h "0.0.0.0/32".toList (by decide)
  have e1 : SubnetBroadcast "0.0.0.0/32".toList = some "0.0.0.0".toList := by decide
  have e2 : LastIP "0.0.0.0/32".toList = some ("0.0.0.1".toList, none) := by decide
  rw [e1] at h1
  rw [e2] at h2
  cases h1
  cases h2
  revert h3
  decide

/-- C16: for the well-formed IPv6 block `::fffe:0:0/95`, which has 33 host
bits, `LastIP` and `SubnetBroadcast` return the IPv4 texts
`255.255.255.254` and `255.255.255.255`, because their numbers lie in the
IPv4-mapped range; `FirstIP` returns `::fffe:0:1`, whose number is above
both, so `FirstIP c ≤ LastIP c` and `FirstIP c < SubnetBroadcast c` fail in
the order of the numbers. -/
theorem C16_first_above_last_below_the_mapped_range :
    blockFamily "::fffe:0:0/95".toList = some Protocol.IPv6 ∧
    hostBits "::fffe:0:0/95".toList = 33 ∧
    SubnetNumber "::fffe:0:0/95".toList = some "::fffe:0:0".toList ∧
    FirstIP "::fffe:0:0/95".toList = some ("::fffe:0:1".toList, none) ∧
    LastIP "::fffe:0:0/95".toList = some ("255.255.255.254".toList, none) ∧
    SubnetBroadcast "::fffe:0:0/95".toList = some "255.255.255.255".toList ∧
    Ip2BigInt "::fffe:0:1".toList = 0xfffe00000001 ∧
    Ip2BigInt "255.255.255.254".toList = 0xfffffffe ∧
    Ip2BigInt "255.255.255.255".toList = 0xffffffff ∧
    ¬ (Ip2BigInt "::fffe:0:1".toList ≤ Ip2BigInt "255.255.255.254".toList) ∧
    ¬ (Ip2BigInt "::fffe:0:1".toList < Ip2BigInt "255.255.255.255".toList) := by
  decide

/-- C17: `FirstIP` panics on a well-formed block.  For
`ffff:ffff:ffff:ffff:ffff:ffff:ffff:ffff/128` the network number plus one
is `2^128`, which has 17 bytes, and `FillBytes` panics on the 16-byte
buffer of `BigInt2Ip`.  `LastIP` panics on `::ffff:10.0.0.0/104`, which
`net.ParseCIDR` accepts: the length 32 minus the mask length 104 wraps
around as a `uint`.  `FirstIP` of `255.255.255.255/32` returns the IPv6
text `::1:0:0`. -/
theorem C17_first_address_after_the_last_address_panics :
    blockFamily "ffff:ffff:ffff:ffff:ffff:ffff:ffff:ffff/128".toList = some Protocol.IPv6 ∧
    SubnetNumber "ffff:ffff:ffff:ffff:ffff:ffff:ffff:ffff/128".toList
      = some "ffff:ffff:ffff:ffff:ffff:ffff:ffff:ffff".toList ∧
    Ip2BigInt "ffff:ffff:ffff:ffff:ffff:ffff:ffff:ffff".toList + 1 = ((2 ^ 128 : Nat) : Int) ∧
    bytesLen (2 ^ 128) = 17 ∧
    fillBytes 16 ((2 ^ 128 : Nat) : Int) = none ∧
    FirstIP "ffff:ffff:ffff:ffff:ffff:ffff:ffff:ffff/128".toList = none ∧
    ParseCIDR "::ffff:10.0.0.0/104".toList ≠ none ∧
    LastIP "::ffff:10.0.0.0/104".toList = none ∧
    FirstIP "255.255.255.255/32".toList = some ("::1:0:0".toList, none) :=
  ⟨by rfl, by rfl, by decide, by decide, by decide, by rfl, by decide, by decide, by decide⟩

/-- C18: an IPv6 gateway comes out twice.  For the gateway `fd00::1` and
the dual-stack cidr `10.0.0.0/24,fd00::/64`, `AppendGwByCidr` returns the
three parts `10.0.0.1,fd00::1,fd00::1`: the IPv4 block puts the pair
`10.0.0.1`, `fd00::1` into `gws`, and the IPv6 block, whose family is that
of the gateway, appends the gateway once more.  With the IPv4 gateway
`10.0.0.1` the result is the pair `10.0.0.1,fd00::1`. -/
theorem C18_ipv6_gateway_is_appended_twice :
    CheckProtocol "10.0.0.0/24,fd00::/64".toList = Protocol.Dual ∧
    CheckProtocol "fd00::1".toList = Protocol.IPv6 ∧
    FirstIP "10.0.0.0/24".toList = some ("10.0.0.1".toList, none) ∧
    AppendGwByCidr "fd00::1".toList "10.0.0.0/24,fd00::/64".toList
      = some ("10.0.0.1,fd00::1,fd00::1".toList, none) ∧
    AppendGwByCidr "10.0.0.1".toList "10.0.0.0/24,fd00::/64".toList
      = some ("10.0.0.1,fd00::1".toList, none) := by
  decide

/-- C19: `GetGwByCidr` panics on a cidr whose only block is well-formed.
`CheckCidrs` accepts `ffff:ffff:ffff:ffff:ffff:ffff:ffff:ffff/128`, and
`GetGwByCidr` returns neither a gateway nor an error for it, because
`FirstIP` panics on this block.  For `10.0.0.0/24,fd00::/64` the result is
`10.0.0.1,fd00::1`. -/
theorem C19_gateway_of_the_last_address_block_panics :
    blockFamily "ffff:ffff:ffff:ffff:ffff:ffff:ffff:ffff/128".toList = some Protocol.IPv6 ∧
    CheckCidrs "ffff:ffff:ffff:ffff:ffff:ffff:ffff:ffff/128".toList = none ∧
    GetGwByCidr "ffff:ffff:ffff:ffff:ffff:ffff:ffff:ffff/128".toList = none ∧
    GetGwByCidr "10.0.0.0/24,fd00::/64".toList = some ("10.0.0.1,fd00::1".toList, none) :=
  ⟨by rfl, by rfl, by rfl, by decide⟩

/-- C20 (amended): for a well-formed IPv4 block `c` with at least one host
bit, the bound that `GenerateRandomV4IP` hands to the random source is
`2^(hostBits - 1)`, half the size of the block, and for a draw `k` with
`0 ≤ k` below the bound the function returns the text `t/m`, where `m` is
the mask length and `t` is `BigInt2Ip` of the number of the address as
written before the slash plus `k`; the number of `t` is that sum. -/
theorem C20_random_offset_below_half_the_block (rnd : Int → Int) (c : List Char)
    (hf : blockFamily c = some Protocol.IPv4) (hh : 1 ≤ hostBits c)
    (hr : 0 ≤ rnd (randomBound c) ∧ rnd (randomBound c) < randomBound c) :
    randomBound c = 2 ^ (hostBits c - 1) ∧
    ∃ t, GenerateRandomV4IP rnd c
        = some (t ++ '/' :: formatInt ((32 - hostBits c : Nat) : Int)) ∧
      BigInt2Ip (Ip2BigInt (beforeSlash c) + rnd (randomBound c)) = some t ∧
      Ip2BigInt (beforeSlash c) = (setBytes (ipBytes (ipOf c)) : Int) ∧
      Ip2BigInt t = (setBytes (ipBytes (ipOf c)) : Int) + rnd (randomBound c) :=
  random_v4_result rnd c hf hh hr

/-- C20 at the block `10.0.0.77/24` with the draw 5. -/
theorem C20_random_offset_below_half_the_block_witness :
    (blockFamily "10.0.0.77/24".toList = some Protocol.IPv4 ∧
      hostBits "10.0.0.77/24".toList = 8 ∧ randomBound "10.0.0.77/24".toList = 128) ∧
    (randomBound "10.0.0.77/24".toList = 2 ^ (hostBits "10.0.0.77/24".toList - 1) ∧
      ∃ t, GenerateRandomV4IP (fun _ => 5) "10.0.0.77/24".toList
          = some (t ++ '/' :: formatInt ((32 - hostBits "10.0.0.77/24".toList : Nat) : Int)) ∧
        BigInt2Ip (Ip2BigInt (beforeSlash "10.0.0.77/24".toList) + 5) = some t ∧
        Ip2BigInt (beforeSlash "10.0.0.77/24".toList)
          = (setBytes (ipBytes (ipOf "10.0.0.77/24".toList)) : Int) ∧
        Ip2BigInt t = (setBytes (ipBytes (ipOf "10.0.0.77/24".toList)) : Int) + 5) :=
  ⟨by decide,
    C20_random_offset_below_half_the_block (fun _ => 5) "10.0.0.77/24".toList (by decide)
      (by decide) (by decide)⟩

/-- C20 as stated fails: for `10.0.0.0/24` (8 host bits) the bound is 128
and not 256, so the largest result is `10.0.0.127/24` and the address
`10.0.0.200` of the block is never returned; for `10.0.0.77/24` the draw 0
gives `10.0.0.77/24`, the address as written and not the network address
`10.0.0.0`; for a `/32` the bound is 0, on which `rand.Int` panics. -/
theorem C20_bound_is_half_the_block_and_base_is_as_written :
    hostBits "10.0.0.0/24".toList = 8 ∧ randomBound "10.0.0.0/24".toList = 128 ∧
    SubnetNumber "10.0.0.77/24".toList = some "10.0.0.0".toList ∧
    GenerateRandomV4IP (fun _ => 0) "10.0.0.77/24".toList = some "10.0.0.77/24".toList ∧
    GenerateRandomV4IP (fun m => m - 1) "10.0.0.0/24".toList = some "10.0.0.127/24".toList ∧
    randomBound "10.0.0.0/32".toList = 0 ∧
    GenerateRandomV4IP (fun _ => 0) "10.0.0.0/32".toList = none ∧
    CIDRContainIP "10.0.0.0/24".toList "10.0.0.200".toList = true ∧
    ¬ (∃ rnd : Int → Int, (0 ≤ rnd 128 ∧ rnd 128 < 128) ∧
        GenerateRandomV4IP rnd "10.0.0.0/24".toList = some "10.0.0.200/24".toList) := by
  refine ⟨by decide, by decide, by decide, by decide, by decide, by decide, by decide,
    by decide, ?_⟩
  rintro ⟨rnd, hr, h⟩
  have hb : randomBound "10.0.0.0/24".toList = 128 := by decide
  have hs : split1 '/' "10.0.0.0/24".toList = ["10.0.0.0".toList, "24".toList] := by decide
  have e1 : Ip2BigInt "10.0.0.0".toList = 167772160 := by decide
  have e2 : formatInt (Atoi "24".toList) = "24".toList := by decide
  have e3 : Ip2BigInt "10.0.0.200".toList = 167772360 := by decide
  obtain ⟨t, ht1, ht2⟩ := BigInt2Ip_value (167772160 + rnd 128) (by omega)
    (by norm_num; omega)
  unfold GenerateRandomV4IP at h
  simp only [hs, hb, List.length_cons, List.length_nil, List.getD_cons_succ,
    List.getD_cons_zero, e1, e2, ht1, Option.map_some'] at h
  rw [if_neg (by decide), if_neg (by decide)] at h
  have ht : t = "10.0.0.200".toList := by
    have h' : t ++ "/24".toList = "10.0.0.200".toList ++ "/24".toList := Option.some.inj h
    exact List.append_cancel_right h'
  rw [ht, e3] at ht2
  unfold printedValue at ht2
  rw [if_neg (by norm_num; omega)] at ht2
  omega

end Util

namespace Controller

/-- C21 (amended): in `Run` garbage collection is a fatal bootstrap step like
the four steps before it.  With the outcome of every step as an input,
`startWorkers` is reached exactly when cache sync, `InitDefaultVpc`,
`InitOVN`, `InitIPAM` and `gc` all succeed (whatever the three syncs of the
custom resources return, whose errors are the ones that are only logged); a
failing `gc` after four successes is answered with
`klog.Fatalf("gc failed %v", err)`, and the run then consists of the steps
up to `gc` and this call, which ends the process. -/
theorem C21_gc_failure_is_fatal (o : RunOutcomes) :
    (RunStep.startWorkers ∈ Run o ↔
      (o.WaitForCacheSync = true ∧ o.InitDefaultVpc = true ∧ o.InitOVN = true ∧
        o.InitIPAM = true ∧ o.gc = true)) ∧
    (RunStep.Fatalf "gc failed %v".toList ∈ Run o ↔
      (o.WaitForCacheSync = true ∧ o.InitDefaultVpc = true ∧ o.InitOVN = true ∧
        o.InitIPAM = true ∧ o.gc = false)) ∧
    (RunStep.Fatalf "gc failed %v".toList ∈ Run o →
      Run o = [RunStep.leaderElection, RunStep.startInformers, RunStep.WaitForCacheSync,
        RunStep.InitDefaultVpc, RunStep.InitOVN, RunStep.InitIPAM, RunStep.gc,
        RunStep.Fatalf "gc failed %v".toList]) := by
  have h1 := startWorkers_mem_runSyncs o
  have h2 := Fatalf_not_mem_runSyncs o
  rcases o with ⟨a, b, c, d, e, f, g, h, st⟩
  cases a <;> cases b <;> cases c <;> cases d <;> cases e <;>
    simp [Run, h1, h2]

/-- C21 as stated fails: when every step succeeds and `gc` fails, `Run` ends
with `klog.Fatalf("gc failed %v", err)` right after `gc`, and `startWorkers`
is not reached. -/
theorem C21_run_stops_at_a_failing_gc :
    Run { WaitForCacheSync := true, InitDefaultVpc := true, InitOVN := true, InitIPAM := true,
          gc := false, initSyncCrdIPs := true, initSyncCrdSubnets := true,
          initSyncCrdVlans := true, startWorkers := Status.done }
      = [RunStep.leaderElection, RunStep.startInformers, RunStep.WaitForCacheSync,
        RunStep.InitDefaultVpc, RunStep.InitOVN, RunStep.InitIPAM, RunStep.gc,
        RunStep.Fatalf "gc failed %v".toList] ∧
    RunStep.startWorkers ∉
      Run { WaitForCacheSync := true, InitDefaultVpc := true, InitOVN := true, InitIPAM := true,
            gc := false, initSyncCrdIPs := true, initSyncCrdSubnets := true,
            initSyncCrdVlans := true, startWorkers := Status.done } := by
  decide

/-- C22 (amended): in the sequence of events of `startWorkers`, for every
configuration and all results of the two polling loops, the add workers of
the VPC, subnet and VLAN queues and the workers of the VPC NAT gateway
queues are started before any node worker, every node worker before the
namespace worker, the namespace worker before any pod or service worker and
before the remaining workers of the VPC, subnet and VLAN queues (delete VPC,
VPC status, delete subnet, delete route, subnet status, delete and update
VLAN), and no pod worker is started before a listing of the nodes in which
every node has the allocated annotation `"true"`. -/
theorem C22_workers_start_in_phases (IsStringIn : List Char → List (List Char) → Bool)
    (cfg : Configuration) (switches : List (Option (List (List Char))))
    (listings : List (Option (List Node))) :
    StartedBefore Worker.isAddTopology Worker.isNode
      (startWorkers IsStringIn cfg switches listings).1 ∧
    StartedBefore Worker.isNode Worker.isNamespace
      (startWorkers IsStringIn cfg switches listings).1 ∧
    StartedBefore Worker.isNamespace (fun w => w.isPod || w.isService)
      (startWorkers IsStringIn cfg switches listings).1 ∧
    StartedBefore Worker.isNamespace (fun w => w.isTopology && !w.isAddTopology)
      (startWorkers IsStringIn cfg switches listings).1 ∧
    PodsAfterReadyNodes (startWorkers IsStringIn cfg switches listings).1 := by
  have hs := (startWorkers_phase IsStringIn cfg switches listings).1
  refine ⟨startedBefore_of_phase _ _ 0 _ ?_ ?_ hs, startedBefore_of_phase _ _ 2 _ ?_ ?_ hs,
    startedBefore_of_phase _ _ 4 _ ?_ ?_ hs, startedBefore_of_phase _ _ 4 _ ?_ ?_ hs,
    podsAfterReadyNodes IsStringIn cfg switches listings⟩ <;>
  (intro w; cases w <;> decide)

/-- C22 as stated fails: with one worker per queue, both switches present at
the first listing and one node that is ready, `startWorkers` runs to its
end, and the workers `runDelVpcWorker`, `runUpdateVpcStatusWorker`,
`runDeleteSubnetWorker`, `runDeleteRouteWorker`,
`runUpdateSubnetStatusWorker`, `runDelVlanWorker` and `runUpdateVlanWorker`
of the VPC, subnet and VLAN queues are started after the node workers. -/
theorem C22_topology_workers_after_the_node_workers :
    (startWorkers (fun str list => list.contains str)
        { WorkerNum := 1, EnableLb := false, EnableNP := false,
          DefaultLogicalSwitch := "ovn-default".toList, NodeSwitch := "join".toList }
        [some ["ovn-default".toList, "join".toList]]
        [some [{ Name := "node1".toList, allocated := "true".toList }]]).2 = Status.done ∧
    ¬ StartedBefore Worker.isTopology Worker.isNode
      (startWorkers (fun str list => list.contains str)
        { WorkerNum := 1, EnableLb := false, EnableNP := false,
          DefaultLogicalSwitch := "ovn-default".toList, NodeSwitch := "join".toList }
        [some ["ovn-default".toList, "join".toList]]
        [some [{ Name := "node1".toList, allocated := "true".toList }]]).1 ∧
    (startWorkers (fun str list => list.contains str)
        { WorkerNum := 1, EnableLb := false, EnableNP := false,
          DefaultLogicalSwitch := "ovn-default".toList, NodeSwitch := "join".toList }
        [some ["ovn-default".toList, "join".toList]]
        [some [{ Name := "node1".toList, allocated := "true".toList }]]).1
      = startTopology ++
        [Event.ListLogicalSwitch (some ["ovn-default".toList, "join".toList]),
         Event.go Worker.runAddNodeWorker, Event.go Worker.runUpdateNodeWorker,
         Event.go Worker.runDeleteNodeWorker,
         Event.ListNodes (some [{ Name := "node1".toList, allocated := "true".toList }]),
         Event.go Worker.runAddNamespaceWorker,
         Event.go Worker.runDelVpcWorker, Event.go Worker.runUpdateVpcStatusWorker,
         Event.go Worker.runAddPodWorker, Event.go Worker.runDeletePodWorker,
         Event.go Worker.runUpdatePodWorker, Event.go Worker.runDeleteSubnetWorker,
         Event.go Worker.runDeleteRouteWorker, Event.go Worker.runUpdateSubnetStatusWorker,
         Event.go Worker.runDelVlanWorker, Event.go Worker.runUpdateVlanWorker,
         Event.go Worker.resyncInterConnection, Event.go Worker.resyncExternalGateway,
         Event.go Worker.resyncVpcNatGwConfig, Event.go Worker.markAndCleanLSP,
         Event.go Worker.syncExternalVpc, Event.go Worker.resyncSubnetMetrics,
         Event.go Worker.CheckGatewayReady] := by
  refine ⟨by decide, by decide, by decide⟩

end Controller

namespace Util

open GoStd

/-- C24: `ExpandExcludeIPs` is not idempotent on the IPv6 block `::/64`, a
well-formed IPv6 block.  The entry `::1..::5` lies in the block; the first
call clamps it and prints its ends with `BigInt2Ip`, which gives the IPv4
text `0.0.0.1..0.0.0.5`; the second call finds an IPv4 range, which matches
no block of the cidr, and returns the empty list. -/
theorem C24_second_expansion_drops_a_small_ipv6_range :
    blockFamily "::/64".toList = some Protocol.IPv6 ∧
    ExpandExcludeIPs ["::1..::5".toList] "::/64".toList = some ["0.0.0.1..0.0.0.5".toList] ∧
    ExpandExcludeIPs ["0.0.0.1..0.0.0.5".toList] "::/64".toList = some [] ∧
    (ExpandExcludeIPs ["::1..::5".toList] "::/64".toList).bind
        (fun once => ExpandExcludeIPs once "::/64".toList)
      ≠ ExpandExcludeIPs ["::1..::5".toList] "::/64".toList := by
  refine ⟨by decide, by decide, by decide, by decide⟩

/-- C25: the address arithmetic does not keep the family of a small IPv6
block.  For the well-formed IPv6 block `::/64` (64 host bits) `FirstIP`
returns `0.0.0.1`, an IPv4 address, which `CIDRContainIP` does not find in
the block; for `::/100` (28 host bits) `LastIP` returns `15.255.255.254`
and `SubnetBroadcast` returns `15.255.255.255`, IPv4 addresses as well. -/
theorem C25_first_address_of_a_small_ipv6_block_is_ipv4 :
    blockFamily "::/64".toList = some Protocol.IPv6 ∧ hostBits "::/64".toList = 64 ∧
    CheckProtocol "::/64".toList = Protocol.IPv6 ∧
    FirstIP "::/64".toList = some ("0.0.0.1".toList, none) ∧
    CheckProtocol "0.0.0.1".toList = Protocol.IPv4 ∧
    CIDRContainIP "::/64".toList "0.0.0.1".toList = false ∧
    blockFamily "::/100".toList = some Protocol.IPv6 ∧ hostBits "::/100".toList = 28 ∧
    LastIP "::/100".toList = some ("15.255.255.254".toList, none) ∧
    SubnetBroadcast "::/100".toList = some "15.255.255.255".toList ∧
    CheckProtocol "15.255.255.254".toList = Protocol.IPv4 ∧
    CheckProtocol "15.255.255.255".toList = Protocol.IPv4 ∧
    CIDRContainIP "::/100".toList "15.255.255.254".toList = false := by
  refine ⟨by decide, by decide, by decide, by decide, by decide, by decide, by decide,
    by decide, by decide, by decide, by decide, by decide, by decide⟩

/-- C26 (amended): for a well-formed IPv4 block `c` with mask length
`m ≤ 31` (at least one host bit) whose address as written is the network
address of the block, and for every draw `k` with `0 ≤ k` below the bound
handed to the random source, `GenerateRandomV4IP` returns a text `t/m` and
`CIDRContainIP c t` is true. -/
theorem C26_random_address_in_the_block (rnd : Int → Int) (c : List Char)
    (hf : blockFamily c = some Protocol.IPv4) (hh : 1 ≤ hostBits c)
    (hnet : ipBytes (ipOf c) = (netOf c).IP)
    (hr : 0 ≤ rnd (randomBound c) ∧ rnd (randomBound c) < randomBound c) :
    ∃ t, GenerateRandomV4IP rnd c
        = some (t ++ '/' :: formatInt ((32 - hostBits c : Nat) : Int)) ∧
      CIDRContainIP c t = true := by
  obtain ⟨hb, t, ht1, ht2, ht3, -⟩ := random_v4_result rnd c hf hh hr
  obtain ⟨k, hk⟩ := Int.eq_ofNat_of_zero_le hr.1
  have hlt : k < 2 ^ (hostBits c - 1) := by
    have := hr.2
    rw [hk, hb] at this
    exact_mod_cast this
  have hpow : 2 ^ hostBits c = 2 * 2 ^ (hostBits c - 1) := by
    obtain ⟨j, hj⟩ : ∃ j, hostBits c = j + 1 := ⟨hostBits c - 1, by omega⟩
    rw [hj, pow_succ]
    simp [Nat.mul_comm]
  obtain ⟨s, hs1, hs2⟩ := v4_number_in_block c hf (setBytes (netOf c).IP + k) (by omega)
    (by omega)
  refine ⟨t, ht1, ?_⟩
  rw [ht3, hk, hnet] at ht2
  have e : ((setBytes (netOf c).IP + k : Nat) : Int) = (setBytes (netOf c).IP : Int) + (k : Int) := by
    push_cast; rfl
  rw [e, ht2] at hs1
  rw [Option.some.inj hs1]
  exact hs2

/-- C26 at the block `10.0.0.0/24` with the draw 100. -/
theorem C26_random_address_in_the_block_witness :
    (blockFamily "10.0.0.0/24".toList = some Protocol.IPv4 ∧
      hostBits "10.0.0.0/24".toList = 8 ∧ randomBound "10.0.0.0/24".toList = 128) ∧
    ∃ t, GenerateRandomV4IP (fun _ => 100) "10.0.0.0/24".toList
        = some (t ++ '/' :: formatInt ((32 - hostBits "10.0.0.0/24".toList : Nat) : Int)) ∧
      CIDRContainIP "10.0.0.0/24".toList t = true :=
  ⟨by decide,
    C26_random_address_in_the_block (fun _ => 100) "10.0.0.0/24".toList (by decide) (by decide)
      (by decide) (by decide)⟩

/-- C26 as stated fails: for `10.0.0.200/24`, whose written address is not
the network address, the bound is 128 and the draw 100 gives
`10.0.1.44/24`, an address outside the block; for the block `10.0.0.0/32`
the bound is 0 and the call panics in `rand.Int` for every random source. -/
theorem C26_random_address_above_the_block_of_a_host_address :
    blockFamily "10.0.0.200/24".toList = some Protocol.IPv4 ∧
    randomBound "10.0.0.200/24".toList = 128 ∧
    GenerateRandomV4IP (fun _ => 100) "10.0.0.200/24".toList = some "10.0.1.44/24".toList ∧
    CIDRContainIP "10.0.0.200/24".toList "10.0.1.44".toList = false ∧
    blockFamily "10.0.0.0/32".toList = some Protocol.IPv4 ∧
    randomBound "10.0.0.0/32".toList = 0 ∧
    (∀ rnd : Int → Int, GenerateRandomV4IP rnd "10.0.0.0/32".toList = none) := by
  refine ⟨by decide, by decide, by decide, by decide, by decide, by decide, ?_⟩
  intro rnd
  have hs : split1 '/' "10.0.0.0/32".toList = ["10.0.0.0".toList, "32".toList] := by decide
  have hb : randomBound "10.0.0.0/32".toList = 0 := by decide
  unfold GenerateRandomV4IP
  simp only [hs, hb]
  simp

/-- C27 (amended): for a list of well-formed entries of one family (single
addresses in canonical form, ranges `s..e` of such addresses with `s ≤ e`
that do not reach over the IPv4-mapped range) that are pairwise disjoint and
together have fewer than `2^53` addresses, which always holds for IPv4,
`CountIpNums` returns the number of addresses of the family for which some
entry satisfies `ContainsIPs`; that number is the sum over the entries of
`1` for a single address and `e - s + 1` for a range. -/
theorem C27_count_of_addresses (f : Protocol) (es : List ExcludeEntry)
    (hw : ∀ x ∈ es, x.wellFormed f = true) (hd : EntriesDisjoint es)
    (hs : f = Protocol.IPv4 ∨ (es.map ExcludeEntry.size).sum < 2 ^ 53) :
    CountIpNums (es.map (ExcludeEntry.text f))
        = Float64.fin ((containedNumbers f (es.map (ExcludeEntry.text f))).card : Int) ∧
      (containedNumbers f (es.map (ExcludeEntry.text f))).card
        = (es.map ExcludeEntry.size).sum := by
  have hcard := containedNumbers_card f es hw hd
  have hsum : (es.map ExcludeEntry.size).sum < 2 ^ 53 := by
    rcases hs with rfl | hs
    · have := containedNumbers_v4 (es.map (ExcludeEntry.text Protocol.IPv4))
      rw [hcard] at this
      exact lt_of_le_of_lt this (Nat.pow_lt_pow_right Nat.one_lt_two (by norm_num))
    · exact hs
  refine ⟨?_, hcard⟩
  unfold CountIpNums
  have := countLoop_texts f es 0 hw (by simpa using hsum)
  rw [hcard]
  simpa using this

/-- C27 at the IPv4 list `10.0.0.1..10.0.0.5`, `10.0.0.9`: six addresses. -/
theorem C27_count_of_addresses_witness :
    [ExcludeEntry.range 167772161 167772165, ExcludeEntry.single 167772169].map
        (ExcludeEntry.text Protocol.IPv4)
      = ["10.0.0.1..10.0.0.5".toList, "10.0.0.9".toList] ∧
    ([ExcludeEntry.range 167772161 167772165, ExcludeEntry.single 167772169].map
        ExcludeEntry.size).sum = 6 ∧
    (CountIpNums ([ExcludeEntry.range 167772161 167772165, ExcludeEntry.single 167772169].map
          (ExcludeEntry.text Protocol.IPv4))
        = Float64.fin ((containedNumbers Protocol.IPv4
            ([ExcludeEntry.range 167772161 167772165, ExcludeEntry.single 167772169].map
              (ExcludeEntry.text Protocol.IPv4))).card : Int) ∧
      (containedNumbers Protocol.IPv4
          ([ExcludeEntry.range 167772161 167772165, ExcludeEntry.single 167772169].map
            (ExcludeEntry.text Protocol.IPv4))).card
        = ([ExcludeEntry.range 167772161 167772165, ExcludeEntry.single 167772169].map
            ExcludeEntry.size).sum) :=
  ⟨by decide, by decide,
    C27_count_of_addresses Protocol.IPv4
      [ExcludeEntry.range 167772161 167772165, ExcludeEntry.single 167772169]
      (by decide)
      (by simp only [EntriesDisjoint, List.pairwise_cons, List.mem_singleton, forall_eq,
            ExcludeEntry.covers, Bool.and_eq_true, decide_eq_true_eq, List.not_mem_nil,
            false_implies, implies_true, List.Pairwise.nil, and_true]
          omega)
      (Or.inl rfl)⟩

/-- C27 as stated fails for a long IPv6 range: `1::..1::20:0:0:0` is a
well-formed entry with `2^53 + 1` addresses, all found by `ContainsIPs`,
and `CountIpNums`, a float64, returns `2^53`. -/
theorem C27_count_of_a_long_ipv6_range_is_rounded :
    [ExcludeEntry.range (2 ^ 112) (2 ^ 112 + 2 ^ 53)].map (ExcludeEntry.text Protocol.IPv6)
      = ["1::..1::20:0:0:0".toList] ∧
    (containedNumbers Protocol.IPv6 ["1::..1::20:0:0:0".toList]).card = 9007199254740993 ∧
    CountIpNums ["1::..1::20:0:0:0".toList] = Float64.fin 9007199254740992 ∧
    CountIpNums ["1::..1::20:0:0:0".toList]
      ≠ Float64.fin ((containedNumbers Protocol.IPv6 ["1::..1::20:0:0:0".toList]).card : Int) := by
  have ht : [ExcludeEntry.range (2 ^ 112) (2 ^ 112 + 2 ^ 53)].map
      (ExcludeEntry.text Protocol.IPv6) = ["1::..1::20:0:0:0".toList] := by decide
  have hc := containedNumbers_card Protocol.IPv6
    [ExcludeEntry.range (2 ^ 112) (2 ^ 112 + 2 ^ 53)] (by decide) (List.pairwise_singleton _ _)
  rw [ht] at hc
  have hc' : (containedNumbers Protocol.IPv6 ["1::..1::20:0:0:0".toList]).card
      = 9007199254740993 := by
    rw [hc]
    decide
  refine ⟨ht, hc', count_long_range, ?_⟩
  rw [count_long_range, hc']
  decide

end Util
